import Mathlib

/-!
# go-utils: the RabbitMQ client (`gorabbit`) and its payload codec

A shallow embedding of `gorabbit/gorabbit.go`.

Modelling conventions

* Go strings that hold text (topics, queue names, secrets, log fields) are Lean strings;
  `len(s)` and `[]byte(s)` are the length and the bytes of the UTF-8 encoding.
* The base64 transport text, which the code only converts between `string` and `[]byte`
  without looking at it as text, is modelled by its bytes.
* Go `int` is the 64-bit integer type; `time.Duration` is a count of nanoseconds in a
  signed 64-bit integer, so products of durations wrap.
* Side effects (log lines, broker calls, sleeps, goroutine starts) are recorded, in program
  order, in a trace that every operation returns.
* The standard library functions the code calls are modelled in namespace `GoStd`
  (`strings.TrimSpace`, `encoding/base64`, `crypto/cipher` CFB mode, the key-size check of
  `crypto/aes`); the AES block function and `json.Marshal` are parameters (`Deps`).
-/

namespace GoStd

/-- Bytes of a Go string: `[]byte(s)`, the UTF-8 encoding of the text. -/
def bytes (s : String) : List UInt8 :=
  s.data.flatMap String.utf8EncodeChar

/-- Length of a Go string: `len(s)` counts bytes. -/
def len (s : String) : Nat :=
  (bytes s).length

/-- White space as `unicode.IsSpace` defines it: the Latin-1 spaces
`\t \n \v \f \r`, space, U+0085, U+00A0, and the code points of category Z with the
White_Space property. -/
def isSpace (c : Char) : Bool :=
  let n := c.toNat
  (decide (9 ≤ n) && decide (n ≤ 13)) || n == 0x20 || n == 0x85 || n == 0xA0 ||
  n == 0x1680 || (decide (0x2000 ≤ n) && decide (n ≤ 0x200A)) ||
  n == 0x2028 || n == 0x2029 || n == 0x202F || n == 0x205F || n == 0x3000

/-- Removal of trailing white space (`strings.TrimRightFunc(s, unicode.IsSpace)`). -/
def trimRight (cs : List Char) : List Char :=
  (cs.reverse.dropWhile isSpace).reverse

/-- Model of `strings.TrimSpace`: all leading and trailing white space removed. -/
def TrimSpace (s : String) : String :=
  ⟨trimRight (s.data.dropWhile isSpace)⟩

/-- Wrap-around of a mathematical integer into the signed 64-bit range, as Go integer
arithmetic on `int64` does. -/
def wrapInt64 (x : Int) : Int :=
  (x + 2 ^ 63) % 2 ^ 64 - 2 ^ 63

/-- The constant `time.Millisecond`, in nanoseconds. -/
def Millisecond : Int := 1000000

/-- The constant `time.Second`, in nanoseconds. -/
def Second : Int := 1000000000

/-- Product of two durations as Go computes it (`int64` multiplication). -/
def durationMul (a b : Int) : Int :=
  wrapInt64 (a * b)

/-- Equality of results is decidable when equality of errors and of values is. -/
instance instDecidableEqExcept {ε α : Type} [DecidableEq ε] [DecidableEq α] :
    DecidableEq (Except ε α)
  | .ok a, .ok b => if h : a = b then isTrue (by rw [h]) else isFalse (by simpa using h)
  | .error a, .error b => if h : a = b then isTrue (by rw [h]) else isFalse (by simpa using h)
  | .ok _, .error _ => isFalse (by simp)
  | .error _, .ok _ => isFalse (by simp)

/-! ### encoding/base64, `StdEncoding` -/

/-- The alphabet of `base64.StdEncoding`. -/
def encodeStd : List UInt8 :=
  bytes "ABCDEFGHIJKLMNOPQRSTUVWXYZabcdefghijklmnopqrstuvwxyz0123456789+/"

/-- The padding character `=`. -/
def padChar : UInt8 := 61

/-- Character for one 6-bit value: `enc.encode[v]`. -/
def encodeSextet (v : Nat) : UInt8 :=
  encodeStd.getD v 0

/-- The decode map of the encoding: the 6-bit value of an alphabet character, nothing for
any other byte (the `0xff` entries of Go's table). -/
def decodeMap (c : UInt8) : Option Nat :=
  let i := encodeStd.indexOf c
  if i < 64 then some i else none

/-- Model of `base64.StdEncoding.EncodeToString`: three bytes give four characters, a final
group of one or two bytes is padded with `=`. -/
def EncodeToString : List UInt8 → List UInt8
  | a :: b :: c :: rest =>
      encodeSextet (a.toNat / 4) ::
      encodeSextet (a.toNat % 4 * 16 + b.toNat / 16) ::
      encodeSextet (b.toNat % 16 * 4 + c.toNat / 64) ::
      encodeSextet (c.toNat % 64) :: EncodeToString rest
  | [a, b] =>
      [encodeSextet (a.toNat / 4), encodeSextet (a.toNat % 4 * 16 + b.toNat / 16),
       encodeSextet (b.toNat % 16 * 4), padChar]
  | [a] =>
      [encodeSextet (a.toNat / 4), encodeSextet (a.toNat % 4 * 16), padChar, padChar]
  | [] => []

/-- The text of the error of a failed decode, `base64.CorruptInputError(n)`. -/
def corruptInput (n : Nat) : String :=
  "illegal base64 data at input byte " ++ toString n

/-- The 24-bit value of four 6-bit digits, as `decodeQuantum` assembles it. -/
def quantumVal (x y z w : Nat) : Nat :=
  x * 2 ^ 18 + y * 2 ^ 12 + z * 2 ^ 6 + w

/-- Decoding of input from which the ignored line breaks have been removed: full groups of
four alphabet characters give three bytes; the last group may end in `=` (two bytes) or
`==` (one byte); anything else is corrupt input (`none`). The encoding is not strict, so
the unused low bits of a padded group are not checked. -/
def decodeQuanta : List UInt8 → Option (List UInt8)
  | [] => some []
  | a :: b :: c :: d :: rest =>
      match decodeMap a, decodeMap b with
      | some x, some y =>
          match decodeMap c, decodeMap d with
          | some z, some w =>
              match decodeQuanta rest with
              | some out =>
                  some (UInt8.ofNat (quantumVal x y z w / 2 ^ 16) ::
                        UInt8.ofNat (quantumVal x y z w / 2 ^ 8) ::
                        UInt8.ofNat (quantumVal x y z w) :: out)
              | none => none
          | some z, none =>
              if d = padChar ∧ rest = [] then
                some [UInt8.ofNat (quantumVal x y z 0 / 2 ^ 16),
                      UInt8.ofNat (quantumVal x y z 0 / 2 ^ 8)]
              else none
          | none, _ =>
              if c = padChar ∧ d = padChar ∧ rest = [] then
                some [UInt8.ofNat (quantumVal x y 0 0 / 2 ^ 16)]
              else none
      | _, _ => none
  | _ => none

/-- The line breaks at the front of the input are skipped (the loops `for si < len(src) &&
(src[si] == '\n' || src[si] == '\r')` of `decodeQuantum`): how many there are, and the
input after them. -/
def skipBreaks : List UInt8 → Nat × List UInt8
  | [] => (0, [])
  | c :: rest =>
      if c = 10 ∨ c = 13 then ((skipBreaks rest).1 + 1, (skipBreaks rest).2)
      else (0, c :: rest)

/-- The byte offset that `CorruptInputError` carries, found as `decodeQuantum` finds it.
`si` is the offset of the front of the input and `j` the number of digits of the current
group of four that have been read. The end of the input inside a group gives `si - j`; a
byte that is neither a digit, a line break nor `=`, and a `=` at the first or second place
of a group, give their own offset; a single `=` at the third place gives the length of the
input when the input ends after it and otherwise the offset before the byte that should be
the second `=`; whatever follows the padding, line breaks apart, gives its offset. No
offset (`none`) means that the input is not corrupt. -/
def corruptOffset : Nat → Nat → List UInt8 → Option Nat
  | si, j, [] => if j = 0 then none else some (si - j)
  | si, j, c :: rest =>
      if (decodeMap c).isSome then
        corruptOffset (si + 1) (if j = 3 then 0 else j + 1) rest
      else if c = 10 ∨ c = 13 then corruptOffset (si + 1) j rest
      else if c ≠ padChar then some si
      else if j = 0 ∨ j = 1 then some si
      else if j = 2 then
        match (skipBreaks rest).2 with
        | [] => some (si + 1 + (skipBreaks rest).1)
        | c2 :: rest3 =>
            if c2 ≠ padChar then some (si + (skipBreaks rest).1)
            else
              match (skipBreaks rest3).2 with
              | [] => none
              | _ :: _ => some (si + 1 + (skipBreaks rest).1 + 1 + (skipBreaks rest3).1)
      else
        match (skipBreaks rest).2 with
        | [] => none
        | _ :: _ => some (si + 1 + (skipBreaks rest).1)

/-- Model of `base64.StdEncoding.DecodeString`: carriage returns and line feeds are
skipped wherever they stand, the rest is decoded group by group; corrupt input gives the
`CorruptInputError` with its offset. -/
def DecodeString (s : List UInt8) : Except String (List UInt8) :=
  match decodeQuanta (s.filter (fun c => c != 10 && c != 13)) with
  | some out => .ok out
  | none => .error (corruptInput ((corruptOffset 0 0 s).getD 0))

/-! ### crypto/aes and crypto/cipher -/

/-- The AES block size in bytes (`aes.BlockSize`). -/
def BlockSize : Nat := 16

/-- A `cipher.Block`: the encryption of one block under a fixed key. -/
abbrev Block := List UInt8 → List UInt8

/-- Model of `aes.NewCipher`: keys of 16, 24 or 32 bytes select AES-128, AES-192 or
AES-256; any other length is a `KeySizeError`. The block function itself is the
parameter `aesEncrypt`. -/
def NewCipher (aesEncrypt : List UInt8 → Block) (key : List UInt8) : Except String Block :=
  if key.length = 16 ∨ key.length = 24 ∨ key.length = 32 then .ok (aesEncrypt key)
  else .error ("crypto/aes: invalid key size " ++ toString key.length)

/-- The state of a CFB stream (`cipher.cfb`): the block cipher, the next input block
`next`, the current key-stream block `out`, how much of it is used, and the direction. -/
structure cfb where
  b : Block
  next : List UInt8
  out : List UInt8
  outUsed : Nat
  decrypt : Bool

/-- Model of `cipher.NewCFBEncrypter` (for an initialization vector of block size; Go
panics on any other length). -/
def NewCFBEncrypter (blk : Block) (iv : List UInt8) : cfb :=
  { b := blk, next := iv, out := List.replicate BlockSize 0, outUsed := BlockSize,
    decrypt := false }

/-- Model of `cipher.NewCFBDecrypter`. -/
def NewCFBDecrypter (blk : Block) (iv : List UInt8) : cfb :=
  { b := blk, next := iv, out := List.replicate BlockSize 0, outUsed := BlockSize,
    decrypt := true }

/-- Model of `(*cfb).XORKeyStream`, one byte per step: when the key-stream block is used
up the cipher encrypts `next` into `out`; every output byte is the input byte xor the next
key-stream byte; the ciphertext byte (the input when decrypting, the output when
encrypting) is stored into `next` at the same offset. -/
def XORKeyStream : cfb → List UInt8 → List UInt8
  | _, [] => []
  | x, s :: src =>
      let out := if x.outUsed = BlockSize then x.b x.next else x.out
      let used := if x.outUsed = BlockSize then 0 else x.outUsed
      let d := s ^^^ out.getD used 0
      let next := x.next.set used (if x.decrypt then s else d)
      d :: XORKeyStream { x with next := next, out := out, outUsed := used + 1 } src

end GoStd

namespace gorabbit

open GoStd

/-- The library functions the package depends on and that are kept abstract:
`json.Marshal` on values of the message type, and the AES block encryption for a key. -/
structure Deps (α : Type) where
  jsonMarshal : α → Except String (List UInt8)
  aesEncrypt : List UInt8 → Block

/-- GoRabbitPublisherOption is the publisher option. `Message` has Go type `any`;
`none` is the nil interface value. -/
structure GoRabbitPublisherOption (α : Type) where
  Topic : String
  Message : Option α
  UserId : String
  AppId : String
  Retries : Int
  RetryDelay : Int

/-- GoRabbitConfiguration is the configuration of the client. -/
structure GoRabbitConfiguration where
  Host : String
  Port : String
  User : String
  Password : String
  Secret : String
  Debug : Bool
deriving DecidableEq, Repr

/-- The codec `crypto`: the secret and the initialization vector `size`. The only place
that builds a `crypto` is `initCrypto`, which allocates `make([]byte, 16)`; the length is
carried with the value. -/
structure crypto where
  secret : String
  size : List UInt8
  size_len : size.length = 16
deriving DecidableEq

/-- Method `toBytes`: `json.Marshal(data)`. -/
def crypto.toBytes {α : Type} (deps : Deps α) (_c : crypto) (data : α) :
    Except String (List UInt8) :=
  deps.jsonMarshal data

/-- Method `encode`: `base64.StdEncoding.EncodeToString(data)`. -/
def crypto.encode (_c : crypto) (data : List UInt8) : List UInt8 :=
  EncodeToString data

/-- Method `decode`: `base64.StdEncoding.DecodeString(data)`. -/
def crypto.decode (_c : crypto) (data : List UInt8) : Except String (List UInt8) :=
  DecodeString data

/-- Method `getBlock`: `aes.NewCipher([]byte(c.secret))`. -/
def crypto.getBlock {α : Type} (deps : Deps α) (c : crypto) : Except String Block :=
  NewCipher deps.aesEncrypt (bytes c.secret)

/-- Method `encrypt`: serialize, CFB-encrypt under the secret and the stored vector,
base64-encode, return the text as bytes. -/
def crypto.encrypt {α : Type} (deps : Deps α) (c : crypto) (message : α) :
    Except String (List UInt8) :=
  match c.toBytes deps message with
  | .error err => .error err
  | .ok b =>
      match c.getBlock deps with
      | .error err => .error err
      | .ok blk =>
          let cfb := NewCFBEncrypter blk c.size
          let cText := XORKeyStream cfb b
          let enc := c.encode cText
          .ok enc

/-- Method `decrypt`: base64-decode and CFB-decrypt under the secret and the stored
vector. -/
def crypto.decrypt {α : Type} (deps : Deps α) (c : crypto) (message : List UInt8) :
    Except String (List UInt8) :=
  match c.getBlock deps with
  | .error err => .error err
  | .ok blk =>
      match c.decode message with
      | .error err => .error err
      | .ok cText =>
          let cfb := NewCFBDecrypter blk c.size
          let plain := XORKeyStream cfb cText
          .ok plain

/-! ### The client and `Publish` -/

/-- The client `rbt`. `acn` and `ach` are the connection and channel pointers (`none` is
nil); the logger is represented by the log events of the traces. -/
structure rbt where
  acn : Option Nat
  ach : Option Nat
  withMessageEncryption : Bool
  cr : crypto
  conf : GoRabbitConfiguration

/-- Method `trimSpace`: `strings.TrimSpace(s)`. -/
def rbt.trimSpace (_r : rbt) (s : String) : String :=
  TrimSpace s

/-- The message `amqp091.Publishing` that `Publish` builds (the fields it sets). -/
structure Publishing where
  ContentType : String
  MessageId : String
  Body : List UInt8
deriving DecidableEq, Repr

/-- What `Publish` does to the outside, in program order. Log events carry the arguments
of their format string. -/
inductive PublishEvent (α : Type)
  /-- Line 80: "Publishing message...". -/
  | logPublishing
  /-- Line 115: "[idx] [uid] Publishing topic: topic", once at the start of every
  attempt. -/
  | logAttempt (idxProcess : Int) (uid : String) (topic : String)
  /-- Line 122: the debug line with the message. -/
  | logDebugMessage (message : α)
  /-- Line 133: "[idx] [uid] Error encrypting message". -/
  | logEncryptError (idxProcess : Int) (uid : String) (err : String)
  /-- Line 148: "[idx] [uid] Error converting message to bytes". -/
  | logToBytesError (idxProcess : Int) (uid : String) (err : String)
  /-- Line 162: the call `r.ach.PublishWithContext(ctx, exchange, key, mandatory,
  immediate, msg)`. -/
  | publishWithContext (exchange : String) (key : String) (mandatory : Bool)
      (immediate : Bool) (msg : Publishing)
  /-- Line 175: "[idx] [uid] Error publishing message". -/
  | logPublishError (idxProcess : Int) (uid : String) (err : String)
  /-- The call `time.Sleep(d)`, `d` in nanoseconds. -/
  | sleep (d : Int)
  /-- Line 193: "[uid] Error publishing message. Attempts: idx/sb". -/
  | logExhausted (uid : String) (idxProcess : Int) (sb : Int)
  /-- Line 200: "[uid] Message published successfully". -/
  | logSuccess (uid : String)
deriving DecidableEq

/-- The broker side of `PublishWithContext`: the error (or nil) that the `k`-th transport
call of one `Publish` returns, given the arguments of the call. -/
abbrev Transport := Nat → String → String → Bool → Bool → Publishing → Option String

/-- The local variables of `Publish` that the retry loop updates, the number of transport
calls made so far, and the trace so far. -/
structure PublishState (α : Type) where
  idxProcess : Int
  success : Bool
  err : Option String
  calls : Nat
  trace : List (PublishEvent α)

/-- Lines 162 to 189: hand the body to the transport; on an error count the attempt, keep
the error and sleep; otherwise mark success. -/
def publishBody {α : Type} (transport : Transport) (uid : String)
    (opt : GoRabbitPublisherOption α) (sbInterval : Int) (st : PublishState α)
    (msg : List UInt8) : PublishState α :=
  let pub : Publishing := { ContentType := "text/plain", MessageId := uid, Body := msg }
  let sent := st.trace ++ [PublishEvent.publishWithContext "exchange" opt.Topic false false pub]
  match transport st.calls "exchange" opt.Topic false false pub with
  | some err2 =>
      { idxProcess := st.idxProcess + 1, success := st.success, err := some err2,
        calls := st.calls + 1,
        trace := sent ++ [PublishEvent.logPublishError st.idxProcess uid err2,
                          PublishEvent.sleep sbInterval] }
  | none =>
      { idxProcess := st.idxProcess, success := true, err := st.err,
        calls := st.calls + 1, trace := sent }

/-- One iteration of the loop body, lines 113 to 189. -/
def publishAttempt {α : Type} (deps : Deps α) (r : rbt) (transport : Transport)
    (uid : String) (opt : GoRabbitPublisherOption α) (message : α) (sbInterval : Int)
    (st : PublishState α) : PublishState α :=
  let st1 : PublishState α :=
    { st with trace := st.trace ++ [PublishEvent.logAttempt st.idxProcess uid opt.Topic] ++
        (if r.conf.Debug then [PublishEvent.logDebugMessage message] else []) }
  if r.withMessageEncryption then
    match r.cr.encrypt deps message with
    | .error err2 =>
        { idxProcess := st1.idxProcess + 1, success := st1.success, err := some err2,
          calls := st1.calls,
          trace := st1.trace ++ [PublishEvent.logEncryptError st1.idxProcess uid err2,
                                 PublishEvent.sleep sbInterval] }
    | .ok msg => publishBody transport uid opt sbInterval st1 msg
  else
    match r.cr.toBytes deps message with
    | .error err2 =>
        { idxProcess := st1.idxProcess + 1, success := st1.success, err := some err2,
          calls := st1.calls,
          trace := st1.trace ++ [PublishEvent.logToBytesError st1.idxProcess uid err2,
                                 PublishEvent.sleep sbInterval] }
    | .ok msg => publishBody transport uid opt sbInterval st1 msg

/-- The loop `for ok := true; ok; ok = idxProcess < sb && !success`: the body runs, then
the condition decides whether it runs again (`continue` also goes through the post
statement). The first argument bounds the number of iterations; `Publish` passes `sb`,
which the loop never exceeds because every repeated iteration follows an increment of
`idxProcess` (see `publishLoop_fuel`). -/
def publishLoop {α : Type} (deps : Deps α) (r : rbt) (transport : Transport)
    (uid : String) (opt : GoRabbitPublisherOption α) (message : α) (sb : Int)
    (sbInterval : Int) : Nat → PublishState α → PublishState α
  | 0, st => st
  | fuel + 1, st =>
      let st1 := publishAttempt deps r transport uid opt message sbInterval st
      if st1.idxProcess < sb && !st1.success then
        publishLoop deps r transport uid opt message sb sbInterval fuel st1
      else st1

/-- What a call of `Publish` gives: the returned error (`none` is nil) and the trace. -/
structure PublishResult (α : Type) where
  err : Option String
  trace : List (PublishEvent α)

/-- The number of attempts `sb`: `Retries` when positive, otherwise 1 (lines 91, 101). -/
def attemptBound (retries : Int) : Int :=
  if retries > 0 then retries else 1

/-- The delay `sbInterval` in nanoseconds: `time.Duration(RetryDelay) * time.Millisecond`
when `RetryDelay` is positive, otherwise `2000 * time.Millisecond` (lines 92, 105). -/
def retryInterval (retryDelay : Int) : Int :=
  if retryDelay > 0 then durationMul retryDelay Millisecond else 2000 * Millisecond

/-- Method `Publish`. `uid` is the value `uuid.New().String()` of this call and
`transport` the behaviour of the channel during it. The context with its 10-second
deadline is only handed to `PublishWithContext`: the loop never looks at it, so what the
deadline does to a call is part of `transport`. The mutex `mut` is local to the call and
uncontended; it is not recorded. -/
def rbt.Publish {α : Type} (deps : Deps α) (r : rbt) (transport : Transport)
    (uid : String) (opt : GoRabbitPublisherOption α) : PublishResult α :=
  if r.trimSpace opt.Topic = "" then
    { err := some "topic is required", trace := [PublishEvent.logPublishing] }
  else
    match opt.Message with
    | none => { err := some "message is required", trace := [PublishEvent.logPublishing] }
    | some message =>
        let sb := attemptBound opt.Retries
        let sbInterval := retryInterval opt.RetryDelay
        let st := publishLoop deps r transport uid opt message sb sbInterval sb.toNat
          { idxProcess := 0, success := false, err := none, calls := 0,
            trace := [PublishEvent.logPublishing] }
        let final :=
          if st.err.isSome && !st.success then
            PublishEvent.logExhausted uid st.idxProcess sb
          else PublishEvent.logSuccess uid
        { err := none, trace := st.trace ++ [final] }

/-- Number of events of a trace that satisfy a test. -/
def countEvents {ε : Type} (p : ε → Bool) (trace : List ε) : Nat :=
  (trace.filter p).length

/-- The event is a call of the transport. -/
def PublishEvent.isTransportCall {α : Type} : PublishEvent α → Bool
  | .publishWithContext _ _ _ _ _ => true
  | _ => false

/-- The event is a backoff sleep. -/
def PublishEvent.isSleep {α : Type} : PublishEvent α → Bool
  | .sleep _ => true
  | _ => false

/-- The event opens an attempt (the log line at the head of the loop body). -/
def PublishEvent.isAttempt {α : Type} : PublishEvent α → Bool
  | .logAttempt _ _ _ => true
  | _ => false

/-- The body that an attempt hands to the transport: the ciphertext when encryption is on,
the plain serialization otherwise. -/
def payload {α : Type} (deps : Deps α) (r : rbt) (message : α) : Except String (List UInt8) :=
  if r.withMessageEncryption then r.cr.encrypt deps message else r.cr.toBytes deps message

end gorabbit

namespace gorabbit

open GoStd

/-! ### Construction: `initCrypto` and `New` -/

/-- Function `initCrypto`. `rand` is what `rand.Read` writes into the 16 bytes of `bb`;
the error case is the panic and carries its message. -/
def initCrypto (rand : Fin 16 → UInt8) (secret : String) : Except String crypto :=
  let bb := List.ofFn rand
  if len (TrimSpace secret) < 24 then
    .error "secret for encryption must be at least 24 characters long"
  else .ok { secret := secret, size := bb, size_len := List.length_ofFn rand }

/-- How a call of `New` ends: the process is terminated by `log.Fatalf`, the call panics, or
a client is returned. -/
inductive NewOutcome
  | fatal (msg : String)
  | panicked (msg : String)
  | client (r : rbt)

/-- Function `New`. `dial` is the result of `amqp091.Dial(dsn)`, `channel` that of
`conn.Channel()`, `rand` the bytes that `rand.Read` delivers. -/
def New (dial : Except String Nat) (channel : Nat → Except String Nat)
    (rand : Fin 16 → UInt8) (opt : GoRabbitConfiguration) : NewOutcome :=
  match dial with
  | .error err => .fatal ("[GoRabbit] Error connecting to RabbitMQ: " ++ err)
  | .ok conn =>
      match channel conn with
      | .error err => .fatal ("[GoRabbit] Error opening channel: " ++ err)
      | .ok ch =>
          if len opt.Secret > 0 ∧ len opt.Secret < 24 then
            .fatal "[GoRabbit] Secret must be at least 24 characters long"
          else
            let withMessageEncryption := decide (len opt.Secret > 0)
            match initCrypto rand opt.Secret with
            | .error p => .panicked p
            | .ok cr =>
                .client { acn := some conn, ach := some ch,
                          withMessageEncryption := withMessageEncryption, cr := cr,
                          conf := opt }

/-! ### `Listen` and `consumeMessages` -/

/-- The fields of `amqp091.Delivery` that the package reads or that identify a delivery. -/
structure Delivery where
  ContentType : String
  MessageId : String
  Exchange : String
  RoutingKey : String
  DeliveryTag : Nat
  Body : List UInt8
deriving DecidableEq, Repr

/-- What a handler call does: return nil, return an error, or panic. -/
inductive HandlerResult
  | ok
  | error (err : String)
  | panic (v : String)
deriving DecidableEq, Repr

/-- ConsumerFunc is the consumer function. -/
abbrev ConsumerFunc := Delivery → HandlerResult

/-- GoRabbitConsumer is the consumer; `none` is a nil function value. -/
structure GoRabbitConsumer where
  Consume : Option ConsumerFunc

/-- GoRabbitConsumerMessages is the table `map[string]map[string]GoRabbitConsumer`: an
association list from queue name to an association list from topic to consumer, in the
order in which `range` visits the keys. -/
abbrev GoRabbitConsumerMessages := List (String × List (String × GoRabbitConsumer))

/-- The keys of a Go map are distinct: queue names, and the topics under every queue. -/
def wellFormed (consumers : GoRabbitConsumerMessages) : Prop :=
  (consumers.map Prod.fst).Nodup ∧ ∀ e ∈ consumers, (e.2.map Prod.fst).Nodup

/-- The map read `consumers[queue]`; a missing key gives the nil map. -/
def topicsOf (consumers : GoRabbitConsumerMessages) (queue : String) :
    List (String × GoRabbitConsumer) :=
  (consumers.lookup queue).getD []

/-- The operations of the broker channel that `Listen` uses. Each takes the state of the
broker and the arguments of the call (the trailing `nil` table is left out) and gives the
result and the next state. `QueueDeclare` gives the name of the declared queue, `Consume`
an identifier of the delivery stream. -/
structure Channel (σ : Type) where
  ExchangeDeclare : σ → String → String → Bool → Bool → Bool → Bool → Option String × σ
  QueueDeclare : σ → String → Bool → Bool → Bool → Bool → Except String String × σ
  QueueBind : σ → String → String → String → Bool → Option String × σ
  Consume : σ → String → String → Bool → Bool → Bool → Bool → Except String Nat × σ

/-- What `Listen` and `consumeMessages` do to the outside, in program order. -/
inductive Event
  | exchangeDeclare (name : String) (kind : String) (durable : Bool) (autoDelete : Bool)
      (internal : Bool) (noWait : Bool)
  | queueDeclare (name : String) (durable : Bool) (autoDelete : Bool) (exclusive : Bool)
      (noWait : Bool)
  | queueBind (name : String) (key : String) (exchange : String) (noWait : Bool)
  | consume (queue : String) (consumer : String) (autoAck : Bool) (exclusive : Bool)
      (noLocal : Bool) (noWait : Bool)
  /-- The statement `go r.consumeMessages(consumers, queue, messages)`. -/
  | spawn (queue : String) (messages : Nat)
  /-- A `log.Fatalf` line; the process ends with it. -/
  | logFatal (msg : String)
  | logQueueDeclared (name : String)
  | logQueueBinded (name : String) (topic : String)
  | logQueueStarted (queue : String)
  | logConsuming (messageId : String) (topic : String)
  | logNotFound (messageId : String) (topic : String)
  | logDecryptError (messageId : String) (topic : String) (err : String)
  | logDebugBody (body : List UInt8)
  /-- The call `qu[topic].Consume(msg)`. -/
  | invoke (topic : String) (msg : Delivery)
  | logHandlerError (messageId : String) (topic : String) (err : String)
  | logPanic (messageId : String) (topic : String) (rc : String)
  | logRejoin
  | sleep (d : Int)
deriving DecidableEq, Repr

/-- How a run of `Listen` ends: it returns to its caller, or `log.Fatalf` ends the
process. -/
inductive ListenOutcome
  | returned
  | exited
deriving DecidableEq, Repr

/-- The result of a run of `Listen`: how it ended, the broker state, and the trace. -/
structure ListenResult (σ : Type) where
  outcome : ListenOutcome
  broker : σ
  trace : List Event

/-- Lines 243 to 263: bind the queue to every topic registered under it. -/
def bindTopics {σ : Type} (ch : Channel σ) (qName : String) :
    List (String × GoRabbitConsumer) → σ → ListenResult σ
  | [], s => { outcome := .returned, broker := s, trace := [] }
  | (topic, _) :: rest, s =>
      match ch.QueueBind s qName topic "exchange" false with
      | (some _, s1) =>
          { outcome := .exited, broker := s1,
            trace := [Event.queueBind qName topic "exchange" false,
                      Event.logFatal ("[GoRabbit] Error binding queue: '" ++ qName ++
                        "' -> '" ++ topic ++ "'")] }
      | (none, s1) =>
          let rest1 := bindTopics ch qName rest s1
          { rest1 with
            trace := [Event.queueBind qName topic "exchange" false,
                      Event.logQueueBinded qName topic] ++ rest1.trace }

/-- Lines 227 to 281: the loop over the queues of the table. -/
def listenQueues {σ : Type} (ch : Channel σ) (consumers : GoRabbitConsumerMessages) :
    List String → σ → ListenResult σ
  | [], s => { outcome := .returned, broker := s, trace := [] }
  | queue :: rest, s =>
      match ch.QueueDeclare s queue true false false false with
      | (.error err, s1) =>
          { outcome := .exited, broker := s1,
            trace := [Event.queueDeclare queue true false false false,
                      Event.logFatal ("[GoRabbit] Error declaring queue: '" ++ err ++ "'")] }
      | (.ok qName, s1) =>
          let declared := [Event.queueDeclare queue true false false false,
                           Event.logQueueDeclared qName]
          let topics := topicsOf consumers queue
          let bound := bindTopics ch qName topics s1
          match bound.outcome with
          | .exited => { bound with trace := declared ++ bound.trace }
          | .returned =>
              match ch.Consume bound.broker qName "" true false false false with
              | (.error err, s2) =>
                  { outcome := .exited, broker := s2,
                    trace := declared ++ bound.trace ++
                      [Event.consume qName "" true false false false,
                       Event.logFatal ("[GoRabbit] Error consuming queue: '" ++ err ++ "'")] }
              | (.ok messages, s2) =>
                  let rest1 := listenQueues ch consumers rest s2
                  { rest1 with
                    trace := declared ++ bound.trace ++
                      [Event.consume qName "" true false false false,
                       Event.spawn queue messages,
                       Event.logQueueStarted queue] ++ rest1.trace }

/-- Method `Listen`. -/
def rbt.Listen {σ : Type} (_r : rbt) (ch : Channel σ) (consumers : GoRabbitConsumerMessages)
    (s : σ) : ListenResult σ :=
  match ch.ExchangeDeclare s "exchange" "topic" true false false false with
  | (some err, s1) =>
      { outcome := .exited, broker := s1,
        trace := [Event.exchangeDeclare "exchange" "topic" true false false false,
                  Event.logFatal ("[GoRabbit] Error declaring exchange: " ++ err)] }
  | (none, s1) =>
      let queues := listenQueues ch consumers (consumers.map Prod.fst) s1
      { queues with
        trace := Event.exchangeDeclare "exchange" "topic" true false false false ::
          queues.trace }

/-- How the processing of one delivery ends: the loop goes on to the next delivery, or the
processing panics with a value. -/
inductive DeliveryOutcome
  | next
  | panic (rc : String)
deriving DecidableEq, Repr

/-- Lines 353 to 368: the debug line and the handler call. -/
def dispatch (r : rbt) (consumer : GoRabbitConsumer) (messageId topic : String)
    (msg : Delivery) : List Event × DeliveryOutcome :=
  let dbg := if r.conf.Debug then [Event.logDebugBody msg.Body] else []
  match consumer.Consume with
  | none => (dbg, .panic "runtime error: invalid memory address or nil pointer dereference")
  | some f =>
      match f msg with
      | .ok => (dbg ++ [Event.invoke topic msg], .next)
      | .error err =>
          (dbg ++ [Event.invoke topic msg, Event.logHandlerError messageId topic err], .next)
      | .panic v => (dbg ++ [Event.invoke topic msg], .panic v)

/-- Lines 315 to 368: the body of the loop over the deliveries of a stream. -/
def processDelivery {α : Type} (deps : Deps α) (r : rbt)
    (consumers : GoRabbitConsumerMessages) (queue : String) (msg : Delivery) :
    List Event × DeliveryOutcome :=
  let messageId := msg.MessageId
  let topic := msg.RoutingKey
  let qu := topicsOf consumers queue
  match qu.lookup topic with
  | none =>
      ([Event.logConsuming messageId topic, Event.logNotFound messageId topic], .next)
  | some consumer =>
      if r.withMessageEncryption then
        match r.cr.decrypt deps msg.Body with
        | .error err =>
            ([Event.logConsuming messageId topic,
              Event.logDecryptError messageId topic err], .next)
        | .ok decrypted =>
            let d := dispatch r consumer messageId topic { msg with Body := decrypted }
            (Event.logConsuming messageId topic :: d.1, d.2)
      else
        let d := dispatch r consumer messageId topic msg
        (Event.logConsuming messageId topic :: d.1, d.2)

/-- How a dispatch loop ends: its stream is closed and the loop returns, or a panic was
recovered and `Listen` was run again, with the outcome of that run. -/
inductive ConsumeOutcome
  | streamClosed
  | recovered (listen : ListenOutcome)
deriving DecidableEq, Repr

/-- The result of a run of `consumeMessages`. -/
structure ConsumeResult (σ : Type) where
  outcome : ConsumeOutcome
  broker : σ
  trace : List Event

/-- The cooldown `delay` of the recovery, `5000 * time.Millisecond`. -/
def delay : Int := 5000 * Millisecond

/-- Method `consumeMessages`, run on the deliveries that its stream hands over before it is
closed. A panic of the processing ends the loop and runs the deferred recovery: two log
lines, the cooldown, and `r.Listen(consumers)`. -/
def rbt.consumeMessages {α σ : Type} (deps : Deps α) (r : rbt) (ch : Channel σ)
    (consumers : GoRabbitConsumerMessages) (queue : String) :
    List Delivery → σ → ConsumeResult σ
  | [], s => { outcome := .streamClosed, broker := s, trace := [] }
  | msg :: msgs, s =>
      match processDelivery deps r consumers queue msg with
      | (t, .next) =>
          let rest := rbt.consumeMessages deps r ch consumers queue msgs s
          { rest with trace := t ++ rest.trace }
      | (t, .panic rc) =>
          let again := r.Listen ch consumers s
          { outcome := .recovered again.outcome, broker := again.broker,
            trace := t ++ [Event.logPanic msg.MessageId msg.RoutingKey rc, Event.logRejoin,
                           Event.sleep delay] ++ again.trace }

/-- A running dispatch loop: the queue it serves and the stream it reads. -/
structure Loop where
  queue : String
  messages : Nat
deriving DecidableEq, Repr

/-- The dispatch loops that a trace starts. -/
def spawned : List Event → List Loop
  | [] => []
  | Event.spawn queue messages :: rest => { queue := queue, messages := messages } :: spawned rest
  | _ :: rest => spawned rest

end gorabbit

namespace gorabbit

open GoStd

/-! ### Notions used to state the properties of `Publish` -/

/-- The events that make up the skeleton of a call: attempt starts, transport calls and
sleeps. -/
def PublishEvent.isStep {α : Type} (e : PublishEvent α) : Bool :=
  e.isAttempt || e.isTransportCall || e.isSleep

/-- The log lines at the head of an attempt. -/
def attemptHead {α : Type} (r : rbt) (uid : String) (opt : GoRabbitPublisherOption α)
    (message : α) (idx : Int) : List (PublishEvent α) :=
  [PublishEvent.logAttempt idx uid opt.Topic] ++
    (if r.conf.Debug then [PublishEvent.logDebugMessage message] else [])

/-- The message handed to the transport for a body. -/
def publishingOf (uid : String) (body : List UInt8) : Publishing :=
  { ContentType := "text/plain", MessageId := uid, Body := body }

/-- Every attempt of the call fails: serialization or encryption fails, or the transport
rejects every call it is given. -/
def everyAttemptFails {α : Type} (deps : Deps α) (r : rbt) (transport : Transport)
    (uid : String) (opt : GoRabbitPublisherOption α) (message : α) : Prop :=
  match payload deps r message with
  | .error _ => True
  | .ok body =>
      ∀ k, transport k "exchange" opt.Topic false false (publishingOf uid body) ≠ none

/-- The text is empty or consists only of white space. -/
def blank (s : String) : Bool :=
  s.data.all isSpace

/-- The delay the request configures, in nanoseconds: `RetryDelay` milliseconds when it is
positive, otherwise 2000 milliseconds. -/
def configuredDelay (retryDelay : Int) : Int :=
  if retryDelay > 0 then retryDelay * Millisecond else 2000 * Millisecond

/-- The skeleton of a call whose first `n` transport calls are rejected and whose next one
is accepted, attempts numbered from `idx`: attempt, transport call, sleep, ..., attempt,
transport call. -/
def expectedSteps {α : Type} (uid : String) (topic : String) (body : List UInt8) (d : Int) :
    Nat → Int → List (PublishEvent α)
  | 0, idx =>
      [PublishEvent.logAttempt idx uid topic,
       PublishEvent.publishWithContext "exchange" topic false false (publishingOf uid body)]
  | n + 1, idx =>
      [PublishEvent.logAttempt idx uid topic,
       PublishEvent.publishWithContext "exchange" topic false false (publishingOf uid body),
       PublishEvent.sleep d] ++ expectedSteps uid topic body d n (idx + 1)

/-- The state in which the retry loop of a valid call ends. -/
def publishRun {α : Type} (deps : Deps α) (r : rbt) (transport : Transport) (uid : String)
    (opt : GoRabbitPublisherOption α) (message : α) : PublishState α :=
  publishLoop deps r transport uid opt message (attemptBound opt.Retries)
    (retryInterval opt.RetryDelay) (attemptBound opt.Retries).toNat
    { idxProcess := 0, success := false, err := none, calls := 0,
      trace := [PublishEvent.logPublishing] }

/-- The closing log line of a valid call (lines 192 to 204). -/
def finalLog {α : Type} (uid : String) (sb : Int) (st : PublishState α) : PublishEvent α :=
  if st.err.isSome && !st.success then PublishEvent.logExhausted uid st.idxProcess sb
  else PublishEvent.logSuccess uid

end gorabbit

namespace gorabbit

open GoStd

/-! ### Notions used to state the properties of `Listen` and `consumeMessages` -/

/-- The event is a `log.Fatalf` line. -/
def Event.isFatal : Event → Bool
  | .logFatal _ => true
  | _ => false

/-- The event is a call of `time.Sleep`. -/
def Event.isSleep : Event → Bool
  | .sleep _ => true
  | _ => false

/-- The setup of a queue is in a trace: the queue is declared durable, the queue that the
broker names is bound to the exchange under every topic registered for the queue, a
consumption stream is opened on it, and a dispatch loop is started for the queue. -/
def queueSetUp (consumers : GoRabbitConsumerMessages) (trace : List Event) (queue : String) :
    Prop :=
  ∃ qName messages,
    Event.queueDeclare queue true false false false ∈ trace ∧
    (∀ topic ∈ (topicsOf consumers queue).map Prod.fst,
      Event.queueBind qName topic "exchange" false ∈ trace) ∧
    Event.consume qName "" true false false false ∈ trace ∧
    Event.spawn queue messages ∈ trace

end gorabbit

namespace gorabbit

open GoStd

/-! ### Time, sleeps and correlation ids in a trace of `Publish` -/

/-- The timeout of the context that `Publish` derives (line 109): `10 * time.Second`. -/
def publishTimeout : Int := 10 * Second

/-- The time that `time.Sleep(d)` takes at least: `d` when positive, nothing otherwise. -/
def sleepTime (d : Int) : Int := max d 0

/-- Total duration of the sleeps of a trace. -/
def sleepTotal {α : Type} : List (PublishEvent α) → Int
  | [] => 0
  | PublishEvent.sleep d :: rest => sleepTime d + sleepTotal rest
  | _ :: rest => sleepTotal rest

/-- For every attempt of a trace, in order, the time slept before the attempt starts, when
`elapsed` has been slept before the trace. Time only passes in sleeps here, so this is a
lower bound of the time at which the attempt starts. -/
def attemptStartsFrom {α : Type} : Int → List (PublishEvent α) → List Int
  | _, [] => []
  | elapsed, PublishEvent.sleep d :: rest => attemptStartsFrom (elapsed + sleepTime d) rest
  | elapsed, PublishEvent.logAttempt _ _ _ :: rest => elapsed :: attemptStartsFrom elapsed rest
  | elapsed, _ :: rest => attemptStartsFrom elapsed rest

/-- For every attempt of a call, the time slept since the start of the call when the attempt
starts. -/
def attemptStarts {α : Type} (trace : List (PublishEvent α)) : List Int :=
  attemptStartsFrom 0 trace

/-- The correlation id that an event carries, if it carries one: the id argument of a log
line, the `MessageId` of a published message. The opening line, the debug line and the
sleeps carry none. -/
def PublishEvent.correlationId {α : Type} : PublishEvent α → Option String
  | .logPublishing => none
  | .logAttempt _ uid _ => some uid
  | .logDebugMessage _ => none
  | .logEncryptError _ uid _ => some uid
  | .logToBytesError _ uid _ => some uid
  | .publishWithContext _ _ _ _ msg => some msg.MessageId
  | .logPublishError _ uid _ => some uid
  | .sleep _ => none
  | .logExhausted uid _ _ => some uid
  | .logSuccess uid => some uid

/-- The attempt lines of a call with `n` attempts: one per attempt, numbered from `idx`,
each with the correlation id and the topic. -/
def attemptLines {α : Type} (uid : String) (topic : String) : Nat → Int → List (PublishEvent α)
  | 0, _ => []
  | n + 1, idx => PublishEvent.logAttempt idx uid topic :: attemptLines uid topic n (idx + 1)

/-- The attempt start times of `n` attempts that each follow a sleep of `d`, the first
starting at `elapsed`. -/
def startTimes (d : Int) : Nat → Int → List Int
  | 0, _ => []
  | n + 1, elapsed => elapsed :: startTimes d n (elapsed + d)

/-- Every event of the trace that carries a correlation id carries `uid`. -/
def idsAre {α : Type} (uid : String) (trace : List (PublishEvent α)) : Prop :=
  ∀ e ∈ trace, ∀ id, e.correlationId = some id → id = uid

end gorabbit

namespace gorabbit

open GoStd

/-! ### Notions used to state the properties of the dispatch loop and of the setup -/

/-- The handler calls of a trace, in order: the topic under which the handler was looked
up and the delivery it was given. -/
def invocations : List Event → List (String × Delivery)
  | [] => []
  | Event.invoke topic msg :: rest => (topic, msg) :: invocations rest
  | _ :: rest => invocations rest

/-- The delivery as it is to be handed to a handler, following the description of the
dispatch: nothing when no handler is registered for the routing key under the queue of the
loop; with encryption enabled nothing when the body does not decrypt, otherwise the
delivery with its body replaced by the decryption; without encryption the delivery as it
came. The first component is the routing key under which the handler is registered. -/
def handedOver {α : Type} (deps : Deps α) (r : rbt) (consumers : GoRabbitConsumerMessages)
    (queue : String) (msg : Delivery) : Option (String × Delivery) :=
  match (topicsOf consumers queue).lookup msg.RoutingKey with
  | none => none
  | some _ =>
      if r.withMessageEncryption then
        match r.cr.decrypt deps msg.Body with
        | .error _ => none
        | .ok decrypted => some (msg.RoutingKey, { msg with Body := decrypted })
      else some (msg.RoutingKey, msg)

/-- The event is an operation of the setup: a call of the broker channel or the start of a
dispatch loop. -/
def Event.isOp : Event → Bool
  | .exchangeDeclare _ _ _ _ _ _ => true
  | .queueDeclare _ _ _ _ _ => true
  | .queueBind _ _ _ _ => true
  | .consume _ _ _ _ _ _ => true
  | .spawn _ _ => true
  | _ => false

/-- The event is a call of the broker channel. -/
def Event.isBrokerCall : Event → Bool
  | .exchangeDeclare _ _ _ _ _ _ => true
  | .queueDeclare _ _ _ _ _ => true
  | .queueBind _ _ _ _ => true
  | .consume _ _ _ _ _ _ => true
  | _ => false

/-- The event is an exchange declaration. -/
def Event.isExchangeDeclare : Event → Bool
  | .exchangeDeclare _ _ _ _ _ _ => true
  | _ => false

/-- The event is a queue declaration. -/
def Event.isQueueDeclare : Event → Bool
  | .queueDeclare _ _ _ _ _ => true
  | _ => false

/-- The event is a binding. -/
def Event.isQueueBind : Event → Bool
  | .queueBind _ _ _ _ => true
  | _ => false

/-- The event opens a consumption stream. -/
def Event.isConsume : Event → Bool
  | .consume _ _ _ _ _ _ => true
  | _ => false

/-- The event starts a dispatch loop. -/
def Event.isSpawn : Event → Bool
  | .spawn _ _ => true
  | _ => false

/-- The bindings of a queue: one per topic registered under it, with the topic as routing
key, to the exchange "exchange". -/
def bindOps (qName : String) (topics : List (String × GoRabbitConsumer)) : List Event :=
  topics.map (fun t => Event.queueBind qName t.1 "exchange" false)

/-- The setup of one queue of the table, given the name `qName` under which the broker
declared it and the stream `messages` it opened: one durable declaration, the bindings,
one consumption stream, one dispatch loop. -/
def queueOps (consumers : GoRabbitConsumerMessages) (queue : String) (qName : String)
    (messages : Nat) : List Event :=
  [Event.queueDeclare queue true false false false] ++
    bindOps qName (topicsOf consumers queue) ++
    [Event.consume qName "" true false false false, Event.spawn queue messages]

/-- The setup of a list of queues, given the answers of the broker (declared name and
stream) queue by queue. -/
def queuesOps (consumers : GoRabbitConsumerMessages) :
    List String → List (String × Nat) → List Event
  | queue :: queues, (qName, messages) :: answers =>
      queueOps consumers queue qName messages ++ queuesOps consumers queues answers
  | _, _ => []

/-- The setup of a whole table: the declaration of the durable topic exchange, then the
setup of every queue. -/
def setupOps (consumers : GoRabbitConsumerMessages) (answers : List (String × Nat)) :
    List Event :=
  Event.exchangeDeclare "exchange" "topic" true false false false ::
    queuesOps consumers (consumers.map Prod.fst) answers

/-- The number of topics registered in the table, over all queues. -/
def topicCount (consumers : GoRabbitConsumerMessages) : List String → Nat
  | [] => 0
  | queue :: queues => (topicsOf consumers queue).length + topicCount consumers queues

/-- The operation `op` belongs to the setup of queue `queue`: its declaration, a binding
under one of its topics, or the opening of a stream. -/
def setupOpOf (consumers : GoRabbitConsumerMessages) (queue : String) (op : Event) : Prop :=
  op = Event.queueDeclare queue true false false false ∨
  (∃ qName topic, topic ∈ (topicsOf consumers queue).map Prod.fst ∧
    op = Event.queueBind qName topic "exchange" false) ∨
  (∃ qName, op = Event.consume qName "" true false false false)

/-! ### `Close` -/

/-- What `Close` does to the outside, in program order. -/
inductive CloseEvent
  /-- The call `r.ach.Close()`. -/
  | channelClose (ch : Nat)
  | logChannelCloseError (err : String)
  | logChannelClosed
  /-- The call `r.acn.Close()`. -/
  | connectionClose (conn : Nat)
  | logConnectionCloseError (err : String)
  | logConnectionClosed
deriving DecidableEq, Repr

/-- The result of a call of `Close`: the client after the call and the trace. -/
structure CloseResult where
  client : rbt
  trace : List CloseEvent

/-- Method `Close`. `chErr` and `connErr` are what the calls `r.ach.Close()` and
`r.acn.Close()` of this invocation return (`none` is nil). The method assigns to no field
of the client. -/
def rbt.Close (r : rbt) (chErr connErr : Option String) : CloseResult :=
  let closedChannel :=
    match r.ach with
    | some ch =>
        match chErr with
        | some err => [CloseEvent.channelClose ch, CloseEvent.logChannelCloseError err]
        | none => [CloseEvent.channelClose ch, CloseEvent.logChannelClosed]
    | none => []
  let closedConnection :=
    match r.acn with
    | some conn =>
        match connErr with
        | some err => [CloseEvent.connectionClose conn, CloseEvent.logConnectionCloseError err]
        | none => [CloseEvent.connectionClose conn, CloseEvent.logConnectionClosed]
    | none => []
  { client := r, trace := closedChannel ++ closedConnection }

/-- Two calls of `Close` in a row on a client, with what the library returns to each. -/
def closeTwice (r : rbt) (chErr1 connErr1 chErr2 connErr2 : Option String) : CloseResult :=
  let first := r.Close chErr1 connErr1
  let second := first.client.Close chErr2 connErr2
  { client := second.client, trace := first.trace ++ second.trace }

/-- The event is a close call on the channel or on the connection. -/
def CloseEvent.isCloseCall : CloseEvent → Bool
  | .channelClose _ => true
  | .connectionClose _ => true
  | _ => false

end gorabbit

/-!
# The standalone codec (`goencrypt`)

A shallow embedding of `goencrypt/goencrypt.go`. The conventions are those of the broker
client: the base64 text that `Encrypt` returns as a `string` and that `Decrypt` takes as a
`string` is modelled by its bytes, so the conversions `string(b)` and `[]byte(s)` between
the text and its bytes are the identity.
-/

namespace goencrypt

open GoStd

/-- The codec `cryp`: the secret and the initialization vector `size`. The only place that
builds a `cryp` is `New`, which allocates `make([]byte, 16)`; the length is carried with
the value. -/
structure cryp where
  secret : String
  size : List UInt8
  size_len : size.length = 16
deriving DecidableEq

/-- Function `trimSpace`: `strings.TrimSpace(s)`. -/
def trimSpace (s : String) : String :=
  TrimSpace s

/-- Function `New`. `rand` is what `rand.Read` writes into the 16 bytes of `bb`; the error
case is the panic and carries its message. -/
def New (rand : Fin 16 → UInt8) (secret : String) : Except String cryp :=
  let bb := List.ofFn rand
  if len (trimSpace secret) < 24 then
    .error "secret for invt_cryptography must be at least 16 characters long"
  else .ok { secret := secret, size := bb, size_len := List.length_ofFn rand }

/-- Method `toBytes`: `json.Marshal(data)`. -/
def cryp.toBytes {α : Type} (deps : gorabbit.Deps α) (_c : cryp) (data : α) :
    Except String (List UInt8) :=
  deps.jsonMarshal data

/-- Method `encode`: `base64.StdEncoding.EncodeToString(data)`. -/
def cryp.encode (_c : cryp) (data : List UInt8) : List UInt8 :=
  EncodeToString data

/-- Method `decode`: `base64.StdEncoding.DecodeString(data)`. -/
def cryp.decode (_c : cryp) (data : List UInt8) : Except String (List UInt8) :=
  DecodeString data

/-- Method `getBlock`: `aes.NewCipher([]byte(c.secret))`. -/
def cryp.getBlock {α : Type} (deps : gorabbit.Deps α) (c : cryp) : Except String Block :=
  NewCipher deps.aesEncrypt (bytes c.secret)

/-- Method `Encrypt`: serialize, CFB-encrypt under the secret and the stored vector,
base64-encode. -/
def cryp.Encrypt {α : Type} (deps : gorabbit.Deps α) (c : cryp) (data : α) :
    Except String (List UInt8) :=
  match c.toBytes deps data with
  | .error err => .error err
  | .ok b =>
      match c.getBlock deps with
      | .error err => .error err
      | .ok blk =>
          let cfb := NewCFBEncrypter blk c.size
          let cText := XORKeyStream cfb b
          let enc := c.encode cText
          .ok enc

/-- Method `Decrypt`: base64-decode and CFB-decrypt under the secret and the stored
vector. -/
def cryp.Decrypt {α : Type} (deps : gorabbit.Deps α) (c : cryp) (data : List UInt8) :
    Except String (List UInt8) :=
  match c.getBlock deps with
  | .error err => .error err
  | .ok blk =>
      match c.decode data with
      | .error err => .error err
      | .ok cText =>
          let cfb := NewCFBDecrypter blk c.size
          let plain := XORKeyStream cfb cText
          .ok plain

/-- Method `DecryptFromBytes`: `c.Decrypt(string(data))`. -/
def cryp.DecryptFromBytes {α : Type} (deps : gorabbit.Deps α) (c : cryp)
    (data : List UInt8) : Except String (List UInt8) :=
  match c.Decrypt deps data with
  | .error err => .error err
  | .ok dec => .ok dec

end goencrypt

namespace gorabbit

open GoStd

/-! ### Notions used to state the properties of the codec -/

/-- The secret is a key that `aes.NewCipher` accepts: 16, 24 or 32 bytes. -/
def validKey (secret : String) : Prop :=
  len secret = 16 ∨ len secret = 24 ∨ len secret = 32

instance instDecidableValidKey (secret : String) : Decidable (validKey secret) := by
  unfold validKey
  exact inferInstance

/-- The state of the CFB stream after it has processed input (the state that
`XORKeyStream` leaves in the stream), byte by byte as `XORKeyStream` does. -/
def streamAfter : cfb → List UInt8 → cfb
  | x, [] => x
  | x, s :: src =>
      let out := if x.outUsed = BlockSize then x.b x.next else x.out
      let used := if x.outUsed = BlockSize then 0 else x.outUsed
      let d := s ^^^ out.getD used 0
      let next := x.next.set used (if x.decrypt then s else d)
      streamAfter { x with next := next, out := out, outUsed := used + 1 } src

/-! ### Notions used to state further properties of `Publish` and of the dispatch loop -/

/-- The calls of the transport in a trace, in order, each with its arguments. -/
def transportCalls {α : Type} :
    List (PublishEvent α) → List (String × String × Bool × Bool × Publishing)
  | [] => []
  | PublishEvent.publishWithContext exchange key mandatory immediate msg :: rest =>
      (exchange, key, mandatory, immediate, msg) :: transportCalls rest
  | _ :: rest => transportCalls rest

/-- The processing of a delivery panics. -/
def panics {α : Type} (deps : Deps α) (r : rbt) (consumers : GoRabbitConsumerMessages)
    (queue : String) (msg : Delivery) : Bool :=
  match (processDelivery deps r consumers queue msg).2 with
  | .panic _ => true
  | .next => false

/-- The dispatch loop ended with the recovery, which ran `Listen` again. -/
def ConsumeOutcome.isRecovered : ConsumeOutcome → Bool
  | .recovered _ => true
  | .streamClosed => false

end gorabbit

/-!
# The pagination block of the HTTP responses (`fiber/goresponse`)

A shallow embedding of `buildMeta` and `CreateMeta` of `fiber/goresponse/response.go`,
with the float64 operations that `buildMeta` uses.
-/

namespace GoStd

/-! ### float64: conversion from `int`, division, `math.Ceil`, conversion to `int` -/

/-- The quotient `num / den` rounded to the nearest integer, ties to the even one. -/
def roundHalfEven (num den : Nat) : Nat :=
  let q := num / den
  let r := num % den
  if 2 * r < den then q
  else if 2 * r = den then (if q % 2 = 0 then q else q + 1)
  else q + 1

/-- The least `s` with `den * 2^52 ≤ num * 2^s`, searched up to a bound: the number of
binary places by which a quotient below `2^52` is scaled up to a 53-bit significand. -/
def upShift : Nat → Nat → Nat → Nat
  | 0, _, _ => 0
  | fuel + 1, num, den => if den * 2 ^ 52 ≤ num then 0 else upShift fuel (2 * num) den + 1

/-- The least `d` with `num < den * 2^53 * 2^d`, searched up to a bound: the number of
binary places by which a quotient from `2^53` on is scaled down to a 53-bit
significand. -/
def downShift : Nat → Nat → Nat → Nat
  | 0, _, _ => 0
  | fuel + 1, num, den => if num < den * 2 ^ 53 then 0 else downShift fuel num (2 * den) + 1

/-- A float64 value: the finite value `num / 2^exp` with its sign, an infinity, or NaN. -/
inductive Float64
  | finite (neg : Bool) (num : Nat) (exp : Nat)
  | inf (neg : Bool)
  | nan
deriving DecidableEq, Repr

/-- The positive quotient `num / den` rounded to float64: scaled to a significand of 53
bits, rounded to nearest even, scaled back. The exponent range of float64 is not
modelled; it is not reached by quotients of 64-bit integers, whose magnitudes lie between
`2^-63` and `2^63`. -/
def roundQuotient (neg : Bool) (num den : Nat) : Float64 :=
  let up := upShift 1200 num den
  let down := downShift 1200 num den
  let m := roundHalfEven (num * 2 ^ up) (den * 2 ^ down)
  Float64.finite neg (m * 2 ^ down) up

/-- The conversion `float64(n)` of an integer: exact up to `2^53` in magnitude, rounded to
a significand of 53 bits beyond. -/
def Float64.ofInt (n : Int) : Float64 :=
  let mag := n.natAbs
  let down := downShift 64 mag 1
  Float64.finite (decide (n < 0)) (roundHalfEven mag (2 ^ down) * 2 ^ down) 0

/-- The quotient `x / y` of two float64 values. -/
def Float64.div : Float64 → Float64 → Float64
  | .nan, _ => .nan
  | _, .nan => .nan
  | .inf _, .inf _ => .nan
  | .inf n1, .finite n2 _ _ => .inf (n1 != n2)
  | .finite n1 _ _, .inf n2 => .finite (n1 != n2) 0 0
  | .finite n1 num1 exp1, .finite n2 num2 exp2 =>
      if num2 = 0 then (if num1 = 0 then .nan else .inf (n1 != n2))
      else if num1 = 0 then .finite (n1 != n2) 0 0
      else roundQuotient (n1 != n2) (num1 * 2 ^ exp2) (num2 * 2 ^ exp1)

/-- Model of `math.Ceil`: the least integer value not below `x`; infinities and NaN are
returned as they are. -/
def Float64.Ceil : Float64 → Float64
  | .finite false num exp => .finite false ((num + 2 ^ exp - 1) / 2 ^ exp) 0
  | .finite true num exp => .finite true (num / 2 ^ exp) 0
  | .inf n => .inf n
  | .nan => .nan

/-- The conversion `int(x)` of a float64 value: the fraction is discarded; when the result
is not a value of the 64-bit `int` (a magnitude out of range, an infinity, NaN) the
language leaves it to the implementation, and `impl` stands for what the implementation
gives. -/
def Float64.toInt (impl : Int) : Float64 → Int
  | .finite neg num exp =>
      let v : Int := if neg then -((num / 2 ^ exp : Nat) : Int) else ((num / 2 ^ exp : Nat) : Int)
      if -(2 : Int) ^ 63 ≤ v ∧ v < (2 : Int) ^ 63 then v else impl
  | _ => impl

end GoStd

namespace goresponse

open GoStd

/-- HttpMetaResponse is the meta response for the http response. -/
structure HttpMetaResponse where
  Page : Int
  PerPage : Int
  Total : Int
  TotalPage : Int
deriving DecidableEq, Repr

/-- Function `buildMeta`. `impl` is what the conversion to `int` gives where the language
leaves it to the implementation. -/
def buildMeta (impl : Int) (page perPage total : Int) : HttpMetaResponse :=
  let totalPage : Int :=
    if total > 0 then
      Float64.toInt impl (Float64.Ceil (Float64.div (Float64.ofInt total) (Float64.ofInt perPage)))
    else 1
  { Page := page, PerPage := perPage, Total := total, TotalPage := totalPage }

/-- The type `res`, the implementation of the client interface; it has no fields. -/
structure res where
deriving DecidableEq, Repr

/-- Method `CreateMeta`: `buildMeta(page, perPage, total)`. -/
def res.CreateMeta (_r : res) (impl : Int) (page perPage total : Int) : HttpMetaResponse :=
  buildMeta impl page perPage total

end goresponse

namespace gorabbit

open GoStd

/-! ### The process: its dispatch loops and its runs of `Listen`

The goroutines of a process that has called `Listen`: the dispatch loops
(`consumeMessages`), each between two deliveries or inside the processing of one, and the
runs of `Listen`, the initial one and one for every recovery. A recovery sleeps for its
cooldown before it calls `Listen`, and a run of `Listen` sets up one queue after the
other; the steps below are one delivery taken, one processing ended, one `Listen` entered
and one queue set up, in any interleaving. A call of the broker is one step. -/

/-- A running dispatch loop: the queue and the stream it serves, and the delivery it is
processing, if any. The body of the loop runs from its head to one of its `continue`s or
to its end before `range` takes the next delivery from the stream. -/
structure Worker where
  loop : Loop
  current : Option Delivery
deriving DecidableEq, Repr

/-- How far a run of `Listen` is. `waiting`: not entered yet; the recovery that will call
it is in its cooldown `time.Sleep(delay)` (for the initial run, the caller is about to
call). `queues remaining`: the exchange is declared and the loop over the table has the
queues `remaining` still to set up; with none remaining the run has returned. -/
inductive Stage
  | waiting
  | queues (remaining : List String)
deriving DecidableEq, Repr

/-- The run has set up the queue: it has declared and bound it, opened a stream on it and
started a dispatch loop for it. -/
def Stage.passed (q : String) : Stage → Bool
  | .waiting => false
  | .queues remaining => !remaining.contains q

/-- A run of `Listen`: the queue of the dispatch loop whose recovery makes the run (`none`
for the initial run), and how far it is. -/
structure Listener where
  origin : Option String
  stage : Stage
deriving DecidableEq, Repr

/-- The process: the broker state, the running dispatch loops, the runs of `Listen`, and
whether `log.Fatalf` has ended the process. -/
structure System (σ : Type) where
  broker : σ
  loops : List Worker
  listeners : List Listener
  exited : Bool

/-- The process at the initial call of `Listen`. -/
def System.start {σ : Type} (s : σ) : System σ :=
  { broker := s, loops := [], listeners := [{ origin := none, stage := .waiting }],
    exited := false }

/-- A step of the process. `receive i msg`: the `i`-th dispatch loop takes the delivery
`msg` from its stream. `complete i`: the processing in the `i`-th loop ends. `enter j`:
the `j`-th run of `Listen` is entered and declares the exchange. `setup j`: the `j`-th run
of `Listen` sets up its next queue. -/
inductive Step
  | receive (i : Nat) (msg : Delivery)
  | complete (i : Nat)
  | enter (j : Nat)
  | setup (j : Nat)
deriving DecidableEq, Repr

/-- The dispatch loop that a `go r.consumeMessages(consumers, queue, messages)` starts. -/
def Worker.started (l : Loop) : Worker :=
  { loop := l, current := none }

/-- The effect of a step. A loop that is processing a delivery takes no other. When the
processing ends with a `continue` or at the end of the body the loop is ready for the next
delivery; when it panics the loop has ended, and its deferred recovery, after two log
lines, is in its cooldown before it calls `Listen`. A run of `Listen` is entered with
`ExchangeDeclare` (lines 214 to 224) and sets up a queue with one pass through the body of
its loop (lines 227 to 281), which starts the dispatch loop of the queue; a `log.Fatalf`
ends the process. -/
def System.step {α σ : Type} (deps : Deps α) (r : rbt) (ch : Channel σ)
    (consumers : GoRabbitConsumerMessages) (sys : System σ) : Step → System σ
  | .receive i msg =>
      if sys.exited then sys
      else
        match sys.loops.get? i with
        | none => sys
        | some w =>
            match w.current with
            | some _ => sys
            | none => { sys with loops := sys.loops.set i { w with current := some msg } }
  | .complete i =>
      if sys.exited then sys
      else
        match sys.loops.get? i with
        | none => sys
        | some w =>
            match w.current with
            | none => sys
            | some msg =>
                match (processDelivery deps r consumers w.loop.queue msg).2 with
                | .next => { sys with loops := sys.loops.set i { w with current := none } }
                | .panic _ =>
                    { sys with
                      loops := sys.loops.eraseIdx i,
                      listeners := sys.listeners ++
                        [{ origin := some w.loop.queue, stage := .waiting }] }
  | .enter j =>
      if sys.exited then sys
      else
        match sys.listeners.get? j with
        | none => sys
        | some l =>
            match l.stage with
            | .queues _ => sys
            | .waiting =>
                match ch.ExchangeDeclare sys.broker "exchange" "topic" true false false false with
                | (some _, s1) => { broker := s1, loops := [], listeners := [], exited := true }
                | (none, s1) =>
                    { sys with
                      broker := s1,
                      listeners := sys.listeners.set j
                        { l with stage := .queues (consumers.map Prod.fst) } }
  | .setup j =>
      if sys.exited then sys
      else
        match sys.listeners.get? j with
        | none => sys
        | some l =>
            match l.stage with
            | .waiting => sys
            | .queues [] => sys
            | .queues (queue :: rest) =>
                let one := listenQueues ch consumers [queue] sys.broker
                match one.outcome with
                | .exited =>
                    { broker := one.broker, loops := [], listeners := [], exited := true }
                | .returned =>
                    { broker := one.broker,
                      loops := sys.loops ++ (spawned one.trace).map Worker.started,
                      listeners := sys.listeners.set j { l with stage := .queues rest },
                      exited := false }

/-- The process after a schedule of steps. -/
def System.run {α σ : Type} (deps : Deps α) (r : rbt) (ch : Channel σ)
    (consumers : GoRabbitConsumerMessages) (sys : System σ) : List Step → System σ
  | [] => sys
  | step :: rest =>
      System.run deps r ch consumers (System.step deps r ch consumers sys step) rest

/-- The steps of one run of `Listen` from its entry on, for a table of `n` queues. -/
def listenSteps (j n : Nat) : List Step :=
  Step.enter j :: List.replicate n (Step.setup j)

/-- Number of running dispatch loops of a queue. -/
def System.loopsOf {σ : Type} (sys : System σ) (queue : String) : Nat :=
  (sys.loops.filter (fun w => w.loop.queue == queue)).length

/-- Number of deliveries of a queue that are being processed. -/
def System.inFlight {σ : Type} (sys : System σ) (queue : String) : Nat :=
  (sys.loops.filter (fun w => w.loop.queue == queue && w.current.isSome)).length

/-- The queues of the dispatch loops that have faulted so far, one entry per fault. -/
def System.faults {σ : Type} (sys : System σ) : List String :=
  sys.listeners.filterMap Listener.origin

/-- Number of runs of `Listen` that have set up the queue so far. -/
def System.setUps {σ : Type} (sys : System σ) (queue : String) : Nat :=
  (sys.listeners.filter (fun l => l.stage.passed queue)).length

/-- The invariant of the process: while it is alive, the queues that a run of `Listen` has
still to set up are a final part of the queues of the table, there is one run of `Listen`
for the initial call and one for every fault, and every registered queue has one dispatch
loop for every run of `Listen` that has set it up, less the loops of the queue that have
faulted. -/
def loopInvariant {σ : Type} (consumers : GoRabbitConsumerMessages) (sys : System σ) : Prop :=
  sys.exited = false →
    (∀ l ∈ sys.listeners, ∀ remaining, l.stage = .queues remaining →
      remaining <:+ consumers.map Prod.fst) ∧
    sys.listeners.length = 1 + sys.faults.length ∧
    ∀ q ∈ consumers.map Prod.fst, sys.loopsOf q + sys.faults.count q = sys.setUps q

end gorabbit

/-!
# The codec with its byte slices in memory

The methods of the codec once more, this time with the byte slices as what they are in
Go: references to arrays that calls can write to. The initialization vector `c.size` is
such a slice, and `cipher.NewCFBEncrypter(blk, c.size)` receives the reference; what the
calls write, and where, is followed array by array.
-/

namespace GoStd

/-- The arrays of bytes that have been allocated, each at its address (its position). -/
structure Heap where
  arrays : List (List UInt8)
deriving DecidableEq, Repr

/-- The heap with nothing allocated. -/
def Heap.empty : Heap := { arrays := [] }

/-- The contents of the array at an address. -/
def Heap.read (h : Heap) (a : Nat) : List UInt8 :=
  h.arrays.getD a []

/-- The array at an address gets new contents. -/
def Heap.write (h : Heap) (a : Nat) (v : List UInt8) : Heap :=
  { arrays := h.arrays.set a v }

/-- The assignment `s[i] = b` for the slice `s` of the array at address `a`. -/
def Heap.store (h : Heap) (a i : Nat) (b : UInt8) : Heap :=
  h.write a ((h.read a).set i b)

/-- A new array with given contents: its address, and the heap with it. -/
def Heap.alloc (h : Heap) (v : List UInt8) : Nat × Heap :=
  (h.arrays.length, { arrays := h.arrays ++ [v] })

/-- Model of `make([]byte, n)`: a new array of `n` zero bytes. -/
def Heap.make (h : Heap) (n : Nat) : Nat × Heap :=
  h.alloc (List.replicate n 0)

/-- Model of the builtin `copy(dst, src)` on the contents: as many bytes as the shorter of
the two has go from the front of `src` to the front of `dst`. -/
def copyBytes (dst src : List UInt8) : List UInt8 :=
  src.take dst.length ++ dst.drop src.length

namespace Mem

/-- The CFB stream (`cipher.cfb`) with its two buffers `next` and `out` as addresses. -/
structure cfb where
  b : Block
  next : Nat
  out : Nat
  outUsed : Nat
  decrypt : Bool

/-- Model of `cipher.newCFB(block, iv, decrypt)` for an `iv` of block size (Go panics on
any other length): `out` and `next` are made anew, and `copy(x.next, iv)` copies the bytes
of `iv` into `next`. -/
def newCFB (h : Heap) (blk : Block) (iv : Nat) (decrypt : Bool) : cfb × Heap :=
  let madeOut := h.make BlockSize
  let madeNext := madeOut.2.make BlockSize
  let h3 := madeNext.2.write madeNext.1 (copyBytes (madeNext.2.read madeNext.1)
    (madeNext.2.read iv))
  ({ b := blk, next := madeNext.1, out := madeOut.1, outUsed := BlockSize,
     decrypt := decrypt }, h3)

/-- Model of `cipher.NewCFBEncrypter(block, iv)`. -/
def NewCFBEncrypter (h : Heap) (blk : Block) (iv : Nat) : cfb × Heap :=
  newCFB h blk iv false

/-- Model of `cipher.NewCFBDecrypter(block, iv)`. -/
def NewCFBDecrypter (h : Heap) (blk : Block) (iv : Nat) : cfb × Heap :=
  newCFB h blk iv true

/-- Model of `(*cfb).XORKeyStream(dst, src)`, one byte per step, from offset `i` of `dst`
on; `src` is the contents of the source from that offset on. When the key-stream block is
used up, `x.b.Encrypt(x.out, x.next)` writes `out`; the output byte is stored into `dst`,
and the ciphertext byte into `next`. These three are the arrays that it writes. -/
def XORKeyStream (h : Heap) (x : cfb) (dst : Nat) : Nat → List UInt8 → cfb × Heap
  | _, [] => (x, h)
  | i, s :: src =>
      let h1 := if x.outUsed = BlockSize then h.write x.out (x.b (h.read x.next)) else h
      let used := if x.outUsed = BlockSize then 0 else x.outUsed
      let d := s ^^^ (h1.read x.out).getD used 0
      let h2 := h1.store dst i d
      let h3 := h2.store x.next used (if x.decrypt then s else d)
      XORKeyStream h3 { x with outUsed := used + 1 } dst (i + 1) src

/-- The stream as a value: its buffers with their contents. -/
def cfb.value (h : Heap) (x : cfb) : GoStd.cfb :=
  { b := x.b, next := h.read x.next, out := h.read x.out, outUsed := x.outUsed,
    decrypt := x.decrypt }

end Mem

end GoStd

namespace gorabbit

open GoStd

namespace Mem

/-- The codec `crypto` with its field `size` as what it is, a slice: the address of the
array that `initCrypto` made. -/
structure crypto where
  secret : String
  size : Nat
deriving DecidableEq, Repr

/-- Function `initCrypto`: `bb := make([]byte, 16)`, `rand.Read(bb)` fills it, and the
codec refers to it. -/
def initCrypto (h : Heap) (rand : Fin 16 → UInt8) (secret : String) :
    Except String crypto × Heap :=
  let made := h.make 16
  let h2 := made.2.write made.1 (List.ofFn rand)
  if len (TrimSpace secret) < 24 then
    (.error "secret for encryption must be at least 24 characters long", h2)
  else (.ok { secret := secret, size := made.1 }, h2)

/-- Method `encrypt`, statement by statement: `b` is the new array that `json.Marshal`
returns, `cText` the one that `make([]byte, len(b))` returns. The method assigns to no
field of its receiver. -/
def crypto.encrypt {α : Type} (deps : Deps α) (c : crypto) (h : Heap) (message : α) :
    Except String (List UInt8) × Heap :=
  match deps.jsonMarshal message with
  | .error err => (.error err, h)
  | .ok serialized =>
      let b := h.alloc serialized
      match NewCipher deps.aesEncrypt (bytes c.secret) with
      | .error err => (.error err, b.2)
      | .ok blk =>
          let cfb := Mem.NewCFBEncrypter b.2 blk c.size
          let cText := cfb.2.make (cfb.2.read b.1).length
          let done := Mem.XORKeyStream cText.2 cfb.1 cText.1 0 (cText.2.read b.1)
          let enc := EncodeToString (done.2.read cText.1)
          (.ok enc, done.2)

/-- Method `decrypt`, statement by statement: `cText` is the new array that the base64
decoding returns, `plain` the one that `make([]byte, len(cText))` returns. The method
assigns to no field of its receiver. -/
def crypto.decrypt {α : Type} (deps : Deps α) (c : crypto) (h : Heap)
    (message : List UInt8) : Except String (List UInt8) × Heap :=
  match NewCipher deps.aesEncrypt (bytes c.secret) with
  | .error err => (.error err, h)
  | .ok blk =>
      match DecodeString message with
      | .error err => (.error err, h)
      | .ok decoded =>
          let cText := h.alloc decoded
          let cfb := Mem.NewCFBDecrypter cText.2 blk c.size
          let plain := cfb.2.make (cfb.2.read cText.1).length
          let done := Mem.XORKeyStream plain.2 cfb.1 plain.1 0 (plain.2.read cText.1)
          (.ok (done.2.read plain.1), done.2)

end Mem

/-- A call of a method of the codec. -/
inductive CodecCall (α : Type)
  | encrypt (message : α)
  | decrypt (message : List UInt8)

namespace Mem

/-- One call on the codec: what it returns, and the heap that it leaves. -/
def crypto.call {α : Type} (deps : Deps α) (c : crypto) (h : Heap) :
    CodecCall α → Except String (List UInt8) × Heap
  | .encrypt message => c.encrypt deps h message
  | .decrypt message => c.decrypt deps h message

/-- A sequence of calls on one codec, each on the heap that the previous call left: what
the calls return, in order, and the heap after the last call. -/
def crypto.calls {α : Type} (deps : Deps α) (c : crypto) :
    Heap → List (CodecCall α) → List (Except String (List UInt8)) × Heap
  | h, [] => ([], h)
  | h, k :: rest =>
      let first := c.call deps h k
      let more := crypto.calls deps c first.2 rest
      (first.1 :: more.1, more.2)

/-- The codec as a value: the secret and the contents of the initialization vector. -/
def crypto.value (c : crypto) (h : Heap) (hlen : (h.read c.size).length = 16) :
    gorabbit.crypto :=
  { secret := c.secret, size := h.read c.size, size_len := hlen }

end Mem

end gorabbit

/-! ### Concrete values for the worked instances -/

namespace Demo

open GoStd gorabbit

/-- A small message type: text, which serializes, and a channel value, which
`json.Marshal` rejects. -/
inductive Value
  | text (s : String)
  | channel
deriving DecidableEq, Repr

/-- Library parameters of the worked instances: text is serialized as a quoted string, and
a toy block function (xor with the key bytes) stands in for AES. -/
def deps : Deps Value :=
  { jsonMarshal := fun v =>
      match v with
      | .text s => .ok (bytes ("\"" ++ s ++ "\""))
      | .channel => .error "json: unsupported type: chan int"
    aesEncrypt := fun key src => List.zipWith (fun a b => a ^^^ b) src key }

/-- A 24-byte secret. -/
def secret24 : String := "0123456789abcdefghijklmn"

/-- A 25-byte secret. -/
def secret25 : String := "0123456789abcdefghijklmno"

/-- The initialization vector 0, 1, ..., 15. -/
def iv : List UInt8 := [0, 1, 2, 3, 4, 5, 6, 7, 8, 9, 10, 11, 12, 13, 14, 15]

/-- A codec with the 24-byte secret. -/
def codec24 : crypto := { secret := secret24, size := iv, size_len := rfl }

/-- A codec with the 25-byte secret. -/
def codec25 : crypto := { secret := secret25, size := iv, size_len := rfl }

/-- A configuration with a given secret. -/
def config (secret : String) : GoRabbitConfiguration :=
  { Host := "localhost", Port := "5672", User := "guest", Password := "guest",
    Secret := secret, Debug := false }

/-- A client that publishes plain bodies. -/
def plainClient : rbt :=
  { acn := some 1, ach := some 1, withMessageEncryption := false, cr := codec24,
    conf := config "" }

/-- A client that publishes encrypted bodies. -/
def cipherClient : rbt :=
  { acn := some 1, ach := some 1, withMessageEncryption := true, cr := codec24,
    conf := config secret24 }

/-- A transport that rejects every call. -/
def rejectAll : Transport := fun _ _ _ _ _ _ => some "channel/connection is not open"

/-- A transport that rejects its first call and accepts the later ones. -/
def rejectFirst : Transport :=
  fun k _ _ _ _ _ => if k = 0 then some "channel/connection is not open" else none

/-- A request with a given topic, message, retry count and retry delay. -/
def request (topic : String) (message : Option Value) (retries retryDelay : Int) :
    GoRabbitPublisherOption Value :=
  { Topic := topic, Message := message, UserId := "", AppId := "", Retries := retries,
    RetryDelay := retryDelay }

end Demo

namespace Demo

open GoStd gorabbit

/-- A broker channel that accepts every call. Its state counts the calls; a declared
queue keeps its name and a stream is identified by the number of the call that opened
it. -/
def acceptAll : Channel Nat :=
  { ExchangeDeclare := fun s _ _ _ _ _ _ => (none, s + 1)
    QueueDeclare := fun s name _ _ _ _ => (.ok name, s + 1)
    QueueBind := fun s _ _ _ _ => (none, s + 1)
    Consume := fun s _ _ _ _ _ _ => (.ok s, s + 1) }

/-- A handler that returns nil. -/
def handleOk : GoRabbitConsumer := { Consume := some (fun _ => HandlerResult.ok) }

/-- A handler that panics. -/
def handlePanic : GoRabbitConsumer :=
  { Consume := some (fun _ => HandlerResult.panic "index out of range") }

/-- A consumer table with two queues: "orders" with two topics, one of which has a
panicking handler, and "audit" with one topic. -/
def table : GoRabbitConsumerMessages :=
  [("orders", [("orders.created", handleOk), ("orders.failed", handlePanic)]),
   ("audit", [("audit.logged", handleOk)])]

/-- A delivery with a given message id, routing key and body. -/
def delivery (messageId routingKey : String) (body : List UInt8) : Delivery :=
  { ContentType := "text/plain", MessageId := messageId, Exchange := "exchange",
    RoutingKey := routingKey, DeliveryTag := 1, Body := body }

end Demo

namespace Demo

open GoStd gorabbit

/-- A handler that returns an error. -/
def handleError : GoRabbitConsumer :=
  { Consume := some (fun _ => HandlerResult.error "order rejected") }

/-- A consumer table with one queue whose only handler returns an error. -/
def errorTable : GoRabbitConsumerMessages :=
  [("orders", [("orders.created", handleError)])]

/-- A broker channel that accepts every call except the binding under the topic
"orders.failed". -/
def rejectBind : Channel Nat :=
  { ExchangeDeclare := fun s _ _ _ _ _ _ => (none, s + 1)
    QueueDeclare := fun s name _ _ _ _ => (.ok name, s + 1)
    QueueBind := fun s _ key _ _ =>
      (if key = "orders.failed" then some "access refused" else none, s + 1)
    Consume := fun s _ _ _ _ _ _ => (.ok s, s + 1) }

end Demo

namespace Demo

open GoStd gorabbit

/-- A random source that delivers sixteen bytes 7. -/
def sevens : Fin 16 → UInt8 := fun _ => 7

/-- A second initialization vector. -/
def iv2 : List UInt8 := [16, 17, 18, 19, 20, 21, 22, 23, 24, 25, 26, 27, 28, 29, 30, 31]

/-- A codec with the 24-byte secret and the second initialization vector. -/
def codec24b : crypto := { secret := secret24, size := iv2, size_len := rfl }

/-- The standalone codec with the 24-byte secret and the first initialization vector. -/
def cryp24 : goencrypt.cryp := { secret := secret24, size := iv, size_len := rfl }

end Demo

namespace Demo

open GoStd gorabbit

/-- A schedule on the two-queue table: the initial run of `Listen`; the loop of "orders"
takes a delivery whose handler panics; the recovery, after its cooldown, runs `Listen`
again; then both loops of "audit" take a delivery. -/
def faultSchedule : List Step :=
  listenSteps 0 2 ++
    [Step.receive 0 (delivery "m2" "orders.failed" []), Step.complete 0,
     Step.enter 1, Step.setup 1, Step.setup 1,
     Step.receive 0 (delivery "m3" "audit.logged" []),
     Step.receive 2 (delivery "m4" "audit.logged" [])]

end Demo

/-! ## Theorems -/



namespace GoStd

/-- The text is empty or consists only of white space. -/
theorem TrimSpace_eq_empty_iff (s : String) :
    TrimSpace s = "" ↔ ∀ c ∈ s.data, isSpace c = true := by
  have key : TrimSpace s = "" ↔ trimRight (s.data.dropWhile isSpace) = [] := by
    unfold TrimSpace
    constructor
    · intro h
      have := congrArg String.data h
      simpa using this
    · intro h
      rw [h]
  rw [key]
  unfold trimRight
  rw [List.reverse_eq_nil_iff, List.dropWhile_eq_nil_iff]
  constructor
  · intro h
    have hnil : s.data.dropWhile isSpace = [] := by
      cases hd : s.data.dropWhile isSpace with
      | nil => rfl
      | cons a l =>
          exfalso
          have hmem : a ∈ (s.data.dropWhile isSpace).reverse := by
            rw [hd]; simp
          have h1 := h a hmem
          have h2 := List.head_dropWhile_not isSpace s.data (by rw [hd]; simp)
          simp only [hd, List.head_cons] at h2
          rw [h1] at h2
          exact absurd h2 (by simp)
    exact List.dropWhile_eq_nil_iff.mp hnil
  · intro h c hc
    have hnil : s.data.dropWhile isSpace = [] := List.dropWhile_eq_nil_iff.mpr h
    rw [hnil] at hc
    simp at hc

theorem wrapInt64_of_inRange (x : Int) (h1 : -(2 ^ 63) ≤ x) (h2 : x < 2 ^ 63) :
    wrapInt64 x = x := by
  unfold wrapInt64
  norm_num at h1 h2 ⊢
  omega

theorem retry_in_range (x : Int) (h0 : 0 < x) (h1 : x ≤ 9223372036854) :
    durationMul x Millisecond = x * Millisecond := by
  unfold durationMul Millisecond
  apply wrapInt64_of_inRange <;> norm_num <;> omega

end GoStd

namespace gorabbit

open GoStd

section PublishLemmas

variable {α : Type} (deps : Deps α) (r : rbt) (transport : Transport) (uid : String)
  (opt : GoRabbitPublisherOption α) (message : α) (sb sbInterval : Int)

theorem countEvents_append {ε : Type} (p : ε → Bool) (a b : List ε) :
    countEvents p (a ++ b) = countEvents p a + countEvents p b := by
  simp [countEvents]

theorem publishAttempt_error (st : PublishState α) (e : String)
    (h : payload deps r message = .error e) :
    publishAttempt deps r transport uid opt message sbInterval st =
      { idxProcess := st.idxProcess + 1, success := st.success, err := some e,
        calls := st.calls,
        trace := st.trace ++ attemptHead r uid opt message st.idxProcess ++
          [(if r.withMessageEncryption then PublishEvent.logEncryptError st.idxProcess uid e
            else PublishEvent.logToBytesError st.idxProcess uid e),
           PublishEvent.sleep sbInterval] } := by
  unfold payload at h
  unfold publishAttempt attemptHead
  cases he : r.withMessageEncryption <;>
    simp only [he, Bool.false_eq_true, if_true, if_false] at h ⊢ <;>
    simp [h]

theorem publishAttempt_fail (st : PublishState α) (body : List UInt8) (e : String)
    (h : payload deps r message = .ok body)
    (ht : transport st.calls "exchange" opt.Topic false false (publishingOf uid body) = some e) :
    publishAttempt deps r transport uid opt message sbInterval st =
      { idxProcess := st.idxProcess + 1, success := st.success, err := some e,
        calls := st.calls + 1,
        trace := st.trace ++ attemptHead r uid opt message st.idxProcess ++
          [PublishEvent.publishWithContext "exchange" opt.Topic false false
             (publishingOf uid body),
           PublishEvent.logPublishError st.idxProcess uid e,
           PublishEvent.sleep sbInterval] } := by
  unfold payload at h
  unfold publishingOf at ht
  unfold publishAttempt attemptHead publishingOf
  cases he : r.withMessageEncryption <;>
    simp only [he, Bool.false_eq_true, if_true, if_false] at h ⊢ <;>
    simp [h, publishBody, ht]

theorem publishAttempt_success (st : PublishState α) (body : List UInt8)
    (h : payload deps r message = .ok body)
    (ht : transport st.calls "exchange" opt.Topic false false (publishingOf uid body) = none) :
    publishAttempt deps r transport uid opt message sbInterval st =
      { idxProcess := st.idxProcess, success := true, err := st.err,
        calls := st.calls + 1,
        trace := st.trace ++ attemptHead r uid opt message st.idxProcess ++
          [PublishEvent.publishWithContext "exchange" opt.Topic false false
             (publishingOf uid body)] } := by
  unfold payload at h
  unfold publishingOf at ht
  unfold publishAttempt attemptHead publishingOf
  cases he : r.withMessageEncryption <;>
    simp only [he, Bool.false_eq_true, if_true, if_false] at h ⊢ <;>
    simp [h, publishBody, ht]

theorem attemptHead_attempts (idx : Int) :
    countEvents PublishEvent.isAttempt (attemptHead r uid opt message idx) = 1 := by
  unfold attemptHead countEvents
  cases r.conf.Debug <;> simp [PublishEvent.isAttempt]

/-- Every iteration of the loop body logs exactly one attempt line. -/
theorem publishAttempt_attempts (st : PublishState α) :
    countEvents PublishEvent.isAttempt
        (publishAttempt deps r transport uid opt message sbInterval st).trace
      = countEvents PublishEvent.isAttempt st.trace + 1 := by
  cases hp : payload deps r message with
  | error e =>
      rw [publishAttempt_error deps r transport uid opt message sbInterval st e hp]
      simp only [countEvents_append, attemptHead_attempts]
      cases r.withMessageEncryption <;> simp [countEvents, PublishEvent.isAttempt]
  | ok body =>
      cases ht : transport st.calls "exchange" opt.Topic false false (publishingOf uid body) with
      | some e =>
          rw [publishAttempt_fail deps r transport uid opt message sbInterval st body e hp ht]
          simp only [countEvents_append, attemptHead_attempts]
          simp [countEvents, PublishEvent.isAttempt]
      | none =>
          rw [publishAttempt_success deps r transport uid opt message sbInterval st body hp ht]
          simp only [countEvents_append, attemptHead_attempts]
          simp [countEvents, PublishEvent.isAttempt]

/-- An iteration after which the loop condition holds was a failed attempt: the index
went up by one. -/
theorem publishAttempt_not_success (st : PublishState α)
    (h : (publishAttempt deps r transport uid opt message sbInterval st).success = false) :
    (publishAttempt deps r transport uid opt message sbInterval st).idxProcess
      = st.idxProcess + 1 := by
  cases hp : payload deps r message with
  | error e =>
      rw [publishAttempt_error deps r transport uid opt message sbInterval st e hp]
  | ok body =>
      cases ht : transport st.calls "exchange" opt.Topic false false (publishingOf uid body) with
      | some e =>
          rw [publishAttempt_fail deps r transport uid opt message sbInterval st body e hp ht]
      | none =>
          rw [publishAttempt_success deps r transport uid opt message sbInterval st body hp ht]
            at h
          simp at h

theorem publishLoop_succ (fuel : Nat) (st : PublishState α) :
    publishLoop deps r transport uid opt message sb sbInterval (fuel + 1) st =
      if ((publishAttempt deps r transport uid opt message sbInterval st).idxProcess < sb
          && !(publishAttempt deps r transport uid opt message sbInterval st).success) = true
      then publishLoop deps r transport uid opt message sb sbInterval fuel
        (publishAttempt deps r transport uid opt message sbInterval st)
      else publishAttempt deps r transport uid opt message sbInterval st := rfl

/-- The bound on the iterations is never the reason the loop stops: once the bound covers
the attempts that the loop condition still allows, a larger bound gives the same run. -/
theorem publishLoop_fuel (fuel : Nat) : ∀ (st : PublishState α),
    1 ≤ fuel → sb - st.idxProcess ≤ fuel →
    publishLoop deps r transport uid opt message sb sbInterval (fuel + 1) st
      = publishLoop deps r transport uid opt message sb sbInterval fuel st := by
  induction fuel with
  | zero => intro st h; omega
  | succ k ih =>
      intro st _ hb
      rw [publishLoop_succ deps r transport uid opt message sb sbInterval (k + 1) st,
        publishLoop_succ deps r transport uid opt message sb sbInterval k st]
      by_cases hc : ((publishAttempt deps r transport uid opt message sbInterval st).idxProcess < sb
          && !(publishAttempt deps r transport uid opt message sbInterval st).success) = true
      · simp only [hc, if_true]
        simp only [Bool.and_eq_true, decide_eq_true_eq, Bool.not_eq_true'] at hc
        have hidx := publishAttempt_not_success deps r transport uid opt message sbInterval st hc.2
        apply ih
        · omega
        · omega
      · simp only [hc, if_false]
        simp

/-- The loop makes at most as many attempts as its bound. -/
theorem publishLoop_attempts_le (fuel : Nat) : ∀ (st : PublishState α),
    countEvents PublishEvent.isAttempt
        (publishLoop deps r transport uid opt message sb sbInterval fuel st).trace
      ≤ countEvents PublishEvent.isAttempt st.trace + fuel := by
  induction fuel with
  | zero => intro st; simp [publishLoop]
  | succ k ih =>
      intro st
      rw [publishLoop_succ]
      have h1 := publishAttempt_attempts deps r transport uid opt message sbInterval st
      split
      · have := ih (publishAttempt deps r transport uid opt message sbInterval st)
        omega
      · omega

/-- A failing attempt leaves `success` unset and raises the index. -/
theorem publishAttempt_of_fails (st : PublishState α)
    (hf : everyAttemptFails deps r transport uid opt message) :
    (publishAttempt deps r transport uid opt message sbInterval st).success = st.success ∧
    (publishAttempt deps r transport uid opt message sbInterval st).idxProcess
      = st.idxProcess + 1 := by
  unfold everyAttemptFails at hf
  cases hp : payload deps r message with
  | error e =>
      rw [publishAttempt_error deps r transport uid opt message sbInterval st e hp]
      simp
  | ok body =>
      rw [hp] at hf
      cases ht : transport st.calls "exchange" opt.Topic false false (publishingOf uid body) with
      | some e =>
          rw [publishAttempt_fail deps r transport uid opt message sbInterval st body e hp ht]
          simp
      | none => exact absurd ht (hf st.calls)

/-- When every attempt fails the loop uses all the attempts the condition allows. -/
theorem publishLoop_all_fail (hf : everyAttemptFails deps r transport uid opt message)
    (fuel : Nat) : ∀ (st : PublishState α),
    st.success = false → st.idxProcess + (fuel + 1) = sb →
    countEvents PublishEvent.isAttempt
        (publishLoop deps r transport uid opt message sb sbInterval (fuel + 1) st).trace
      = countEvents PublishEvent.isAttempt st.trace + (fuel + 1) := by
  induction fuel with
  | zero =>
      intro st hs hi
      rw [publishLoop_succ]
      have h1 := publishAttempt_attempts deps r transport uid opt message sbInterval st
      have h2 := publishAttempt_of_fails deps r transport uid opt message sbInterval st hf
      have hc : ¬ ((publishAttempt deps r transport uid opt message sbInterval st).idxProcess
          < sb) := by rw [h2.2]; omega
      simp only [hc, decide_False, Bool.false_and, Bool.false_eq_true, if_false]
      omega
  | succ k ih =>
      intro st hs hi
      rw [publishLoop_succ]
      have h1 := publishAttempt_attempts deps r transport uid opt message sbInterval st
      have h2 := publishAttempt_of_fails deps r transport uid opt message sbInterval st hf
      have hc : ((publishAttempt deps r transport uid opt message sbInterval st).idxProcess
          < sb) := by rw [h2.2]; omega
      have hs1 : (publishAttempt deps r transport uid opt message sbInterval st).success
          = false := by rw [h2.1]; exact hs
      simp only [hc, hs1, decide_True, Bool.not_false, Bool.and_self, if_true]
      rw [ih _ hs1 (by rw [h2.2]; omega)]
      omega

end PublishLemmas

end gorabbit

namespace gorabbit

open GoStd

theorem blank_iff (s : String) : blank s = true ↔ TrimSpace s = "" := by
  rw [TrimSpace_eq_empty_iff]
  simp [blank, List.all_eq_true]

section PublishTheorems

variable {α : Type} (deps : Deps α) (r : rbt) (transport : Transport) (uid : String)
  (opt : GoRabbitPublisherOption α) (message : α) (sb sbInterval : Int)

theorem attemptHead_steps (idx : Int) :
    (attemptHead r uid opt message idx).filter PublishEvent.isStep
      = [PublishEvent.logAttempt idx uid opt.Topic] := by
  unfold attemptHead
  cases r.conf.Debug <;>
    simp [PublishEvent.isStep, PublishEvent.isAttempt, PublishEvent.isTransportCall,
      PublishEvent.isSleep]

/-- The run of the loop when the next `n` transport calls are rejected and the one after
them is accepted. -/
theorem publishLoop_nth_success (body : List UInt8)
    (hp : payload deps r message = .ok body) (n : Nat) :
    ∀ (fuel : Nat) (st : PublishState α), st.success = false →
      (∀ j, j < n →
        transport (st.calls + j) "exchange" opt.Topic false false (publishingOf uid body) ≠ none) →
      transport (st.calls + n) "exchange" opt.Topic false false (publishingOf uid body) = none →
      st.idxProcess + n < sb → n < fuel →
      (publishLoop deps r transport uid opt message sb sbInterval fuel st).trace.filter
          PublishEvent.isStep
        = st.trace.filter PublishEvent.isStep ++
            expectedSteps uid opt.Topic body sbInterval n st.idxProcess := by
  induction n with
  | zero =>
      intro fuel st _ _ hs _ hfuel
      obtain ⟨f, rfl⟩ : ∃ f, fuel = f + 1 := ⟨fuel - 1, by omega⟩
      rw [publishLoop_succ]
      rw [publishAttempt_success deps r transport uid opt message sbInterval st body hp
        (by simpa using hs)]
      simp [expectedSteps, attemptHead_steps, PublishEvent.isStep,
        PublishEvent.isTransportCall]
  | succ n ih =>
      intro fuel st hsu hf hs hlt hfuel
      obtain ⟨f, rfl⟩ : ∃ f, fuel = f + 1 := ⟨fuel - 1, by omega⟩
      rw [publishLoop_succ]
      have h0 := hf 0 (by omega)
      cases ht : transport st.calls "exchange" opt.Topic false false (publishingOf uid body) with
      | none => simp [ht] at h0
      | some e =>
          have hat := publishAttempt_fail deps r transport uid opt message sbInterval st body e
            hp ht
          have hcond : ((publishAttempt deps r transport uid opt message sbInterval st).idxProcess
              < sb && !(publishAttempt deps r transport uid opt message sbInterval st).success)
              = true := by
            rw [hat]
            simp only [Bool.and_eq_true, decide_eq_true_eq, Bool.not_eq_true']
            exact ⟨by omega, hsu⟩
          rw [if_pos hcond]
          have hnext := ih f (publishAttempt deps r transport uid opt message sbInterval st)
            (by rw [hat]; exact hsu)
            (by
              intro j hj
              rw [hat]
              have := hf (j + 1) (by omega)
              simpa [Nat.add_assoc, Nat.add_comm 1 j] using this)
            (by
              rw [hat]
              simpa [Nat.add_assoc, Nat.add_comm 1 n] using hs)
            (by rw [hat]; simp only; omega)
            (by omega)
          rw [hnext, hat]
          simp [expectedSteps, attemptHead_steps, PublishEvent.isStep,
            PublishEvent.isTransportCall, PublishEvent.isSleep, PublishEvent.isAttempt]

end PublishTheorems

end gorabbit

namespace gorabbit

open GoStd

theorem attemptBound_eq_max (retries : Int) : attemptBound retries = max 1 retries := by
  unfold attemptBound
  split <;> omega

theorem countEvents_filter_of_imp {ε : Type} (p q : ε → Bool) (h : ∀ e, p e = true → q e = true)
    (l : List ε) : countEvents p (l.filter q) = countEvents p l := by
  unfold countEvents
  rw [List.filter_filter]
  congr 1
  apply List.filter_congr
  intro e _
  cases hp : p e
  · simp
  · simp [h e hp]

theorem expectedSteps_transport {α : Type} (uid topic : String) (body : List UInt8) (d : Int)
    (n : Nat) : ∀ idx : Int,
    countEvents PublishEvent.isTransportCall (expectedSteps uid topic body d n idx :
      List (PublishEvent α)) = n + 1 := by
  induction n with
  | zero => intro idx; simp [expectedSteps, countEvents, PublishEvent.isTransportCall]
  | succ n ih =>
      intro idx
      rw [expectedSteps, countEvents_append, ih]
      simp [countEvents, PublishEvent.isTransportCall]
      omega

theorem expectedSteps_sleep {α : Type} (uid topic : String) (body : List UInt8) (d : Int)
    (n : Nat) : ∀ idx : Int,
    countEvents PublishEvent.isSleep (expectedSteps uid topic body d n idx :
      List (PublishEvent α)) = n := by
  induction n with
  | zero => intro idx; simp [expectedSteps, countEvents, PublishEvent.isSleep]
  | succ n ih =>
      intro idx
      rw [expectedSteps, countEvents_append, ih]
      simp [countEvents, PublishEvent.isSleep]
      omega

/-- C1: a request whose topic is empty or only white space, or whose message is nil, gets a
validation error ("topic is required" when the topic is blank, whatever the message, and
"message is required" otherwise) without any transport call and without any sleep. -/
theorem C1_publish_validation_error {α : Type} (deps : Deps α) (r : rbt)
    (transport : Transport) (uid : String) (opt : GoRabbitPublisherOption α)
    (h : blank opt.Topic = true ∨ opt.Message = none) :
    (r.Publish deps transport uid opt).err
        = some (if blank opt.Topic = true then "topic is required" else "message is required") ∧
    countEvents PublishEvent.isTransportCall (r.Publish deps transport uid opt).trace = 0 ∧
    countEvents PublishEvent.isSleep (r.Publish deps transport uid opt).trace = 0 := by
  unfold rbt.Publish rbt.trimSpace
  by_cases hb : blank opt.Topic = true
  · have ht := (blank_iff opt.Topic).mp hb
    simp [ht, hb, countEvents, PublishEvent.isTransportCall, PublishEvent.isSleep]
  · have ht : ¬ TrimSpace opt.Topic = "" := fun hh => hb ((blank_iff opt.Topic).mpr hh)
    have hm : opt.Message = none := h.resolve_left hb
    simp [ht, hb, hm, countEvents, PublishEvent.isTransportCall, PublishEvent.isSleep]

/-- Worked instance of C1: a topic of a space and a tab. -/
theorem C1_publish_validation_error_witness :
    (blank (Demo.request " \t" (some (Demo.Value.text "x")) 3 10).Topic = true ∨
      (Demo.request " \t" (some (Demo.Value.text "x")) 3 10).Message = none) ∧
    ((Demo.plainClient.Publish Demo.deps Demo.rejectAll "id-1"
        (Demo.request " \t" (some (Demo.Value.text "x")) 3 10)).err
        = some (if blank (Demo.request " \t" (some (Demo.Value.text "x")) 3 10).Topic = true
            then "topic is required" else "message is required") ∧
    countEvents PublishEvent.isTransportCall (Demo.plainClient.Publish Demo.deps Demo.rejectAll
      "id-1" (Demo.request " \t" (some (Demo.Value.text "x")) 3 10)).trace = 0 ∧
    countEvents PublishEvent.isSleep (Demo.plainClient.Publish Demo.deps Demo.rejectAll
      "id-1" (Demo.request " \t" (some (Demo.Value.text "x")) 3 10)).trace = 0) :=
  ⟨Or.inl (by decide),
   C1_publish_validation_error Demo.deps Demo.plainClient Demo.rejectAll "id-1"
     (Demo.request " \t" (some (Demo.Value.text "x")) 3 10) (Or.inl (by decide))⟩

/-- C2: a request with a non-blank topic and a non-nil message gets nil back whatever its
attempts do, so the returned error is non-nil exactly when validation fails. -/
theorem C2_publish_error_iff_invalid {α : Type} (deps : Deps α) (r : rbt)
    (transport : Transport) (uid : String) (opt : GoRabbitPublisherOption α) :
    (blank opt.Topic = false → opt.Message ≠ none →
      (r.Publish deps transport uid opt).err = none) ∧
    ((r.Publish deps transport uid opt).err ≠ none ↔
      (blank opt.Topic = true ∨ opt.Message = none)) := by
  unfold rbt.Publish rbt.trimSpace
  by_cases hb : blank opt.Topic = true
  · have ht := (blank_iff opt.Topic).mp hb
    simp [ht, hb]
  · have ht : ¬ TrimSpace opt.Topic = "" := fun hh => hb ((blank_iff opt.Topic).mpr hh)
    cases hm : opt.Message with
    | none => simp [ht, hb]
    | some m => simp [ht, hb]

/-- Worked instance of C2: three attempts, all rejected by the transport, and nil is
returned. -/
theorem C2_publish_error_iff_invalid_witness :
    (Demo.plainClient.Publish Demo.deps Demo.rejectAll "id-1"
      (Demo.request "orders.created" (some (Demo.Value.text "x")) 3 10)).err = none :=
  (C2_publish_error_iff_invalid Demo.deps Demo.plainClient Demo.rejectAll "id-1"
    (Demo.request "orders.created" (some (Demo.Value.text "x")) 3 10)).1
    (by decide) (by decide)

end gorabbit

namespace gorabbit

open GoStd

theorem Publish_valid {α : Type} (deps : Deps α) (r : rbt) (transport : Transport)
    (uid : String) (opt : GoRabbitPublisherOption α) (message : α)
    (ht : blank opt.Topic = false) (hm : opt.Message = some message) :
    r.Publish deps transport uid opt =
      { err := none,
        trace := (publishRun deps r transport uid opt message).trace ++
          [finalLog uid (attemptBound opt.Retries)
            (publishRun deps r transport uid opt message)] } := by
  have htr : ¬ TrimSpace opt.Topic = "" := fun hh => by
    have := (blank_iff opt.Topic).mpr hh
    rw [ht] at this
    exact absurd this (by simp)
  unfold rbt.Publish rbt.trimSpace publishRun finalLog
  simp only [htr, if_false, hm]

theorem finalLog_not_attempt {α : Type} (uid : String) (sb : Int) (st : PublishState α) :
    PublishEvent.isAttempt (finalLog uid sb st) = false ∧
    PublishEvent.isTransportCall (finalLog uid sb st) = false ∧
    PublishEvent.isSleep (finalLog uid sb st) = false := by
  unfold finalLog
  split <;> simp [PublishEvent.isAttempt, PublishEvent.isTransportCall, PublishEvent.isSleep]

/-- C3: a valid request makes at most max(1, Retries) attempts, and exactly that many when
every attempt fails. -/
theorem C3_publish_attempt_count {α : Type} (deps : Deps α) (r : rbt)
    (transport : Transport) (uid : String) (opt : GoRabbitPublisherOption α) (message : α)
    (ht : blank opt.Topic = false) (hm : opt.Message = some message) :
    ((countEvents PublishEvent.isAttempt (r.Publish deps transport uid opt).trace : Nat) : Int)
        ≤ max 1 opt.Retries ∧
    (everyAttemptFails deps r transport uid opt message →
      ((countEvents PublishEvent.isAttempt (r.Publish deps transport uid opt).trace : Nat) : Int)
        = max 1 opt.Retries) := by
  have hsb : (1 : Int) ≤ attemptBound opt.Retries := by
    rw [attemptBound_eq_max]; omega
  have hcast : (((attemptBound opt.Retries).toNat : Nat) : Int) = attemptBound opt.Retries :=
    Int.toNat_of_nonneg (by omega)
  have hcount : countEvents PublishEvent.isAttempt (r.Publish deps transport uid opt).trace
      = countEvents PublishEvent.isAttempt (publishRun deps r transport uid opt message).trace := by
    rw [Publish_valid deps r transport uid opt message ht hm]
    simp only [countEvents_append]
    simp [countEvents, (finalLog_not_attempt uid _ _).1]
  rw [hcount, ← attemptBound_eq_max]
  constructor
  · have := publishLoop_attempts_le deps r transport uid opt message (attemptBound opt.Retries)
      (retryInterval opt.RetryDelay) (attemptBound opt.Retries).toNat
      { idxProcess := 0, success := false, err := none, calls := 0,
        trace := [PublishEvent.logPublishing] }
    unfold publishRun
    have h0 : countEvents PublishEvent.isAttempt
        ([PublishEvent.logPublishing] : List (PublishEvent α)) = 0 := by
      simp [countEvents, PublishEvent.isAttempt]
    simp only [h0] at this
    omega
  · intro hf
    obtain ⟨f, hfuel⟩ : ∃ f, (attemptBound opt.Retries).toNat = f + 1 :=
      ⟨(attemptBound opt.Retries).toNat - 1, by omega⟩
    have := publishLoop_all_fail deps r transport uid opt message (attemptBound opt.Retries)
      (retryInterval opt.RetryDelay) hf f
      { idxProcess := 0, success := false, err := none, calls := 0,
        trace := [PublishEvent.logPublishing] } rfl (by simp only; omega)
    unfold publishRun
    rw [hfuel, this]
    have h0 : countEvents PublishEvent.isAttempt
        ([PublishEvent.logPublishing] : List (PublishEvent α)) = 0 := by
      simp [countEvents, PublishEvent.isAttempt]
    simp only [h0]
    omega

/-- Worked instance of C3: three retries, a transport that rejects every call. -/
theorem C3_publish_attempt_count_witness :
    blank (Demo.request "orders.created" (some (Demo.Value.text "x")) 3 10).Topic = false ∧
    (Demo.request "orders.created" (some (Demo.Value.text "x")) 3 10).Message
      = some (Demo.Value.text "x") ∧
    (((countEvents PublishEvent.isAttempt (Demo.plainClient.Publish Demo.deps Demo.rejectAll
        "id-1" (Demo.request "orders.created" (some (Demo.Value.text "x")) 3 10)).trace : Nat)
        : Int) ≤ max 1 (Demo.request "orders.created" (some (Demo.Value.text "x")) 3 10).Retries ∧
    (everyAttemptFails Demo.deps Demo.plainClient Demo.rejectAll "id-1"
        (Demo.request "orders.created" (some (Demo.Value.text "x")) 3 10) (Demo.Value.text "x") →
      ((countEvents PublishEvent.isAttempt (Demo.plainClient.Publish Demo.deps Demo.rejectAll
        "id-1" (Demo.request "orders.created" (some (Demo.Value.text "x")) 3 10)).trace : Nat)
        : Int) = max 1 (Demo.request "orders.created" (some (Demo.Value.text "x")) 3 10).Retries)) :=
  ⟨by decide, rfl,
   C3_publish_attempt_count Demo.deps Demo.plainClient Demo.rejectAll "id-1"
     (Demo.request "orders.created" (some (Demo.Value.text "x")) 3 10) (Demo.Value.text "x")
     (by decide) rfl⟩

/-- C4 as amended: when the transport rejects the first N-1 calls of a valid request and
accepts the N-th, with 1 <= N <= max(1, Retries), and RetryDelay is at most
9223372036854 ms, the call consists of N attempts with one transport call each, a sleep of
the configured delay after each of the first N-1, and nothing after the accepted call. -/
theorem C4_publish_nth_success {α : Type} (deps : Deps α) (r : rbt)
    (transport : Transport) (uid : String) (opt : GoRabbitPublisherOption α) (message : α)
    (body : List UInt8) (N : Nat)
    (ht : blank opt.Topic = false) (hm : opt.Message = some message)
    (hp : payload deps r message = .ok body)
    (h1 : 1 ≤ N) (hN : (N : Int) ≤ max 1 opt.Retries)
    (hfail : ∀ k, k + 1 < N →
      transport k "exchange" opt.Topic false false (publishingOf uid body) ≠ none)
    (hsucc : transport (N - 1) "exchange" opt.Topic false false (publishingOf uid body) = none)
    (hd : opt.RetryDelay ≤ 9223372036854) :
    (r.Publish deps transport uid opt).trace.filter PublishEvent.isStep
      = expectedSteps uid opt.Topic body (configuredDelay opt.RetryDelay) (N - 1) 0 ∧
    countEvents PublishEvent.isTransportCall (r.Publish deps transport uid opt).trace = N ∧
    countEvents PublishEvent.isSleep (r.Publish deps transport uid opt).trace = N - 1 := by
  have hsb : (1 : Int) ≤ attemptBound opt.Retries := by
    rw [attemptBound_eq_max]; omega
  have hint : retryInterval opt.RetryDelay = configuredDelay opt.RetryDelay := by
    unfold retryInterval configuredDelay
    split
    · exact retry_in_range _ (by omega) hd
    · rfl
  have hskel : (r.Publish deps transport uid opt).trace.filter PublishEvent.isStep
      = expectedSteps uid opt.Topic body (configuredDelay opt.RetryDelay) (N - 1) 0 := by
    rw [Publish_valid deps r transport uid opt message ht hm]
    have hrun : (publishRun deps r transport uid opt message).trace.filter PublishEvent.isStep
        = [] ++ expectedSteps uid opt.Topic body (retryInterval opt.RetryDelay) (N - 1) 0 :=
      publishLoop_nth_success deps r transport uid opt message (attemptBound opt.Retries)
        (retryInterval opt.RetryDelay) body hp (N - 1) (attemptBound opt.Retries).toNat
        { idxProcess := 0, success := false, err := none, calls := 0,
          trace := [PublishEvent.logPublishing] } rfl
        (by intro j hj; simpa using hfail j (by omega))
        (by simpa using hsucc)
        (by rw [attemptBound_eq_max]; simp only; omega)
        (by rw [attemptBound_eq_max]; omega)
    have hfin := finalLog_not_attempt uid (attemptBound opt.Retries)
      (publishRun deps r transport uid opt message)
    have hlast : [finalLog uid (attemptBound opt.Retries)
        (publishRun deps r transport uid opt message)].filter PublishEvent.isStep = [] := by
      rw [List.filter_cons]
      simp only [PublishEvent.isStep, hfin.1, hfin.2.1, hfin.2.2]
      simp
    show ((publishRun deps r transport uid opt message).trace ++
      [finalLog uid (attemptBound opt.Retries)
        (publishRun deps r transport uid opt message)]).filter PublishEvent.isStep = _
    rw [List.filter_append, hlast, hrun, hint]
    simp
  refine ⟨hskel, ?_, ?_⟩
  · rw [← countEvents_filter_of_imp PublishEvent.isTransportCall PublishEvent.isStep
      (by intro e he; simp [PublishEvent.isStep, he]), hskel, expectedSteps_transport]
    omega
  · rw [← countEvents_filter_of_imp PublishEvent.isSleep PublishEvent.isStep
      (by intro e he; simp [PublishEvent.isStep, he]), hskel, expectedSteps_sleep]

end gorabbit

namespace gorabbit

open GoStd

/-- Worked instance of C4: the transport rejects the first call and accepts the second
(N = 2), with a retry delay of 10 ms. -/
theorem C4_publish_nth_success_witness :
    (Demo.plainClient.Publish Demo.deps Demo.rejectFirst "id-1"
        (Demo.request "orders.created" (some (Demo.Value.text "x")) 3 10)).trace.filter
        PublishEvent.isStep
      = expectedSteps "id-1" "orders.created" (bytes "\"x\"") (configuredDelay 10) (2 - 1) 0 ∧
    countEvents PublishEvent.isTransportCall (Demo.plainClient.Publish Demo.deps
      Demo.rejectFirst "id-1"
      (Demo.request "orders.created" (some (Demo.Value.text "x")) 3 10)).trace = 2 ∧
    countEvents PublishEvent.isSleep (Demo.plainClient.Publish Demo.deps
      Demo.rejectFirst "id-1"
      (Demo.request "orders.created" (some (Demo.Value.text "x")) 3 10)).trace = 2 - 1 :=
  C4_publish_nth_success Demo.deps Demo.plainClient Demo.rejectFirst "id-1"
    (Demo.request "orders.created" (some (Demo.Value.text "x")) 3 10) (Demo.Value.text "x")
    (bytes "\"x\"") 2 (by decide) rfl (by rfl) (by decide) (by decide)
    (by intro k hk; have : k = 0 := by omega
        subst this; decide)
    (by decide) (by decide)

/-- C4 as stated fails for a retry delay whose nanosecond count does not fit the 64-bit
duration: with RetryDelay = 9223372036855 ms, a transport that rejects the first call and
accepts the second (N = 2, Retries = 2), the one sleep is for a negative duration, not for
9223372036855 ms. -/
theorem C4_counterexample :
    blank (Demo.request "orders.created" (some (Demo.Value.text "x")) 2 9223372036855).Topic
      = false ∧
    payload Demo.deps Demo.plainClient (Demo.Value.text "x") = .ok (bytes "\"x\"") ∧
    Demo.rejectFirst 0 "exchange" "orders.created" false false
      (publishingOf "id-1" (bytes "\"x\"")) ≠ none ∧
    Demo.rejectFirst 1 "exchange" "orders.created" false false
      (publishingOf "id-1" (bytes "\"x\"")) = none ∧
    (Demo.plainClient.Publish Demo.deps Demo.rejectFirst "id-1"
        (Demo.request "orders.created" (some (Demo.Value.text "x")) 2 9223372036855)).trace.filter
        PublishEvent.isSleep
      = [PublishEvent.sleep (-9223372036854551616)] ∧
    (Demo.plainClient.Publish Demo.deps Demo.rejectFirst "id-1"
        (Demo.request "orders.created" (some (Demo.Value.text "x")) 2 9223372036855)).trace.filter
        PublishEvent.isStep
      ≠ expectedSteps "id-1" "orders.created" (bytes "\"x\"")
          (configuredDelay 9223372036855) (2 - 1) 0 := by
  refine ⟨by decide, by rfl, by decide, by decide, by decide, by decide⟩

end gorabbit

namespace GoStd

/-! ### CFB and base64 round trips -/

theorem uint8_xor_cancel (a b : UInt8) : (a ^^^ b) ^^^ b = a := by
  cases a with
  | mk a =>
    cases b with
    | mk b =>
      show UInt8.mk ((a ^^^ b) ^^^ b) = UInt8.mk a
      rw [BitVec.xor_assoc, BitVec.xor_self, BitVec.xor_zero]

/-- Decrypting from a stream state what was encrypted from the same state gives the input
back: both directions store the ciphertext byte into `next`, so the states stay equal. -/
theorem XORKeyStream_roundtrip (blk : Block) (src : List UInt8) :
    ∀ (next out : List UInt8) (used : Nat),
      XORKeyStream { b := blk, next := next, out := out, outUsed := used, decrypt := true }
        (XORKeyStream { b := blk, next := next, out := out, outUsed := used, decrypt := false }
          src) = src := by
  induction src with
  | nil => intro next out used; rfl
  | cons s src ih =>
      intro next out used
      simp only [XORKeyStream, Bool.false_eq_true, if_false, if_true, uint8_xor_cancel]
      rw [ih]

theorem cfb_roundtrip (blk : Block) (iv src : List UInt8) :
    XORKeyStream (NewCFBDecrypter blk iv) (XORKeyStream (NewCFBEncrypter blk iv) src) = src :=
  XORKeyStream_roundtrip blk src iv (List.replicate BlockSize 0) BlockSize

theorem decodeMap_encodeSextet (v : Nat) (h : v < 64) :
    decodeMap (encodeSextet v) = some v := by
  interval_cases v <;> rfl

theorem encodeSextet_not_break (v : Nat) (h : v < 64) :
    (encodeSextet v != 10 && encodeSextet v != 13) = true := by
  interval_cases v <;> rfl

theorem ofNat_of_mod (n : Nat) (u : UInt8) (h : n % 256 = u.toNat) : UInt8.ofNat n = u := by
  cases u with
  | mk u =>
    simp only [UInt8.ofNat, UInt8.toNat] at h ⊢
    congr 1
    apply BitVec.eq_of_toNat_eq
    simp [h]

theorem toNat_lt (u : UInt8) : u.toNat < 256 := u.toBitVec.isLt

end GoStd

namespace GoStd

theorem quantum_bytes (a b c : UInt8) :
    UInt8.ofNat (quantumVal (a.toNat / 4) (a.toNat % 4 * 16 + b.toNat / 16)
        (b.toNat % 16 * 4 + c.toNat / 64) (c.toNat % 64) / 2 ^ 16) = a ∧
    UInt8.ofNat (quantumVal (a.toNat / 4) (a.toNat % 4 * 16 + b.toNat / 16)
        (b.toNat % 16 * 4 + c.toNat / 64) (c.toNat % 64) / 2 ^ 8) = b ∧
    UInt8.ofNat (quantumVal (a.toNat / 4) (a.toNat % 4 * 16 + b.toNat / 16)
        (b.toNat % 16 * 4 + c.toNat / 64) (c.toNat % 64)) = c := by
  have ha := toNat_lt a
  have hb := toNat_lt b
  have hc := toNat_lt c
  refine ⟨?_, ?_, ?_⟩ <;> apply ofNat_of_mod <;> unfold quantumVal <;> norm_num <;> omega

theorem quantum_bytes_two (a b : UInt8) :
    UInt8.ofNat (quantumVal (a.toNat / 4) (a.toNat % 4 * 16 + b.toNat / 16)
        (b.toNat % 16 * 4) 0 / 2 ^ 16) = a ∧
    UInt8.ofNat (quantumVal (a.toNat / 4) (a.toNat % 4 * 16 + b.toNat / 16)
        (b.toNat % 16 * 4) 0 / 2 ^ 8) = b := by
  have ha := toNat_lt a
  have hb := toNat_lt b
  refine ⟨?_, ?_⟩ <;> apply ofNat_of_mod <;> unfold quantumVal <;> norm_num <;> omega

theorem quantum_bytes_one (a : UInt8) :
    UInt8.ofNat (quantumVal (a.toNat / 4) (a.toNat % 4 * 16) 0 0 / 2 ^ 16) = a := by
  have ha := toNat_lt a
  apply ofNat_of_mod
  unfold quantumVal
  norm_num
  omega

theorem decodeMap_padChar : decodeMap padChar = none := by rfl

/-- Group-wise decoding undoes the encoding. -/
theorem decodeQuanta_EncodeToString (data : List UInt8) :
    decodeQuanta (EncodeToString data) = some data := by
  induction data using EncodeToString.induct with
  | case1 a b c rest ih =>
      have ha := toNat_lt a
      have hb := toNat_lt b
      have hc := toNat_lt c
      simp only [EncodeToString, decodeQuanta]
      rw [decodeMap_encodeSextet _ (by omega), decodeMap_encodeSextet _ (by omega),
        decodeMap_encodeSextet _ (by omega), decodeMap_encodeSextet _ (by omega)]
      simp only [ih]
      rw [(quantum_bytes a b c).1, (quantum_bytes a b c).2.1, (quantum_bytes a b c).2.2]
  | case2 a b =>
      have ha := toNat_lt a
      have hb := toNat_lt b
      simp only [EncodeToString, decodeQuanta]
      rw [decodeMap_encodeSextet _ (by omega), decodeMap_encodeSextet _ (by omega),
        decodeMap_encodeSextet _ (by omega), decodeMap_padChar]
      simp only [and_self, if_true]
      rw [(quantum_bytes_two a b).1, (quantum_bytes_two a b).2]
  | case3 a =>
      have ha := toNat_lt a
      simp only [EncodeToString, decodeQuanta]
      rw [decodeMap_encodeSextet _ (by omega), decodeMap_encodeSextet _ (by omega),
        decodeMap_padChar]
      simp only [and_self, if_true]
      rw [quantum_bytes_one a]
  | case4 => rfl

/-- The encoding contains no line breaks, so the decoder skips nothing. -/
theorem filter_EncodeToString (data : List UInt8) :
    (EncodeToString data).filter (fun c => c != 10 && c != 13) = EncodeToString data := by
  rw [List.filter_eq_self]
  induction data using EncodeToString.induct with
  | case1 a b c rest ih =>
      have ha := toNat_lt a
      have hb := toNat_lt b
      have hc := toNat_lt c
      intro x hx
      simp only [EncodeToString, List.mem_cons] at hx
      rcases hx with h | h | h | h | h
      · rw [h]; exact encodeSextet_not_break _ (by omega)
      · rw [h]; exact encodeSextet_not_break _ (by omega)
      · rw [h]; exact encodeSextet_not_break _ (by omega)
      · rw [h]; exact encodeSextet_not_break _ (by omega)
      · exact ih x h
  | case2 a b =>
      have ha := toNat_lt a
      have hb := toNat_lt b
      intro x hx
      simp only [EncodeToString, List.mem_cons, List.not_mem_nil, or_false] at hx
      rcases hx with h | h | h | h
      · rw [h]; exact encodeSextet_not_break _ (by omega)
      · rw [h]; exact encodeSextet_not_break _ (by omega)
      · rw [h]; exact encodeSextet_not_break _ (by omega)
      · rw [h]; rfl
  | case3 a =>
      have ha := toNat_lt a
      intro x hx
      simp only [EncodeToString, List.mem_cons, List.not_mem_nil, or_false] at hx
      rcases hx with h | h | h | h
      · rw [h]; exact encodeSextet_not_break _ (by omega)
      · rw [h]; exact encodeSextet_not_break _ (by omega)
      · rw [h]; rfl
      · rw [h]; rfl
  | case4 => intro x hx; simp [EncodeToString] at hx

/-- Base64 decoding undoes base64 encoding. -/
theorem DecodeString_EncodeToString (data : List UInt8) :
    DecodeString (EncodeToString data) = .ok data := by
  unfold DecodeString
  rw [filter_EncodeToString, decodeQuanta_EncodeToString]

end GoStd

namespace GoStd

/-! ### The offset of `CorruptInputError`

The scan for the offset finds an offset exactly on the inputs that the group-wise decoding
rejects. -/

theorem decodeMap_break (c : UInt8) (h : c = 10 ∨ c = 13) : decodeMap c = none := by
  rcases h with h | h <;> subst h <;> rfl

theorem filter_cons_keep (c : UInt8) (rest : List UInt8) (h : ¬ (c = 10 ∨ c = 13)) :
    (c :: rest).filter (fun c => c != 10 && c != 13)
      = c :: rest.filter (fun c => c != 10 && c != 13) := by
  have h1 : c ≠ 10 := fun e => h (Or.inl e)
  have h2 : c ≠ 13 := fun e => h (Or.inr e)
  simp [List.filter_cons, h1, h2]

theorem filter_cons_skip (c : UInt8) (rest : List UInt8) (h : c = 10 ∨ c = 13) :
    (c :: rest).filter (fun c => c != 10 && c != 13)
      = rest.filter (fun c => c != 10 && c != 13) := by
  rcases h with h | h <;> subst h <;> simp [List.filter_cons]

/-- Skipping the line breaks at the front does not change what is left when all line
breaks are removed, and what it leaves is empty or begins with another byte. -/
theorem skipBreaks_spec (s : List UInt8) :
    s.filter (fun c => c != 10 && c != 13)
        = (skipBreaks s).2.filter (fun c => c != 10 && c != 13) ∧
    ((skipBreaks s).2 = [] ∨
      ∃ c rest, (skipBreaks s).2 = c :: rest ∧ ¬ (c = 10 ∨ c = 13)) := by
  induction s with
  | nil => exact ⟨rfl, Or.inl rfl⟩
  | cons c rest ih =>
      by_cases h : c = 10 ∨ c = 13
      · have e : skipBreaks (c :: rest) = ((skipBreaks rest).1 + 1, (skipBreaks rest).2) := by
          simp only [skipBreaks, h, if_true]
        rw [e, filter_cons_skip c rest h]
        exact ih
      · have e : skipBreaks (c :: rest) = (0, c :: rest) := by
          simp only [skipBreaks, h, if_false]
        rw [e]
        exact ⟨rfl, Or.inr ⟨c, rest, rfl, h⟩⟩

theorem decodeQuanta_bad_first (a : UInt8) (rest : List UInt8) (h : decodeMap a = none) :
    decodeQuanta (a :: rest) = none := by
  match rest with
  | [] => rfl
  | [_] => rfl
  | [_, _] => rfl
  | b :: c :: d :: rest => simp [decodeQuanta, h]

theorem decodeQuanta_bad_second (a b : UInt8) (rest : List UInt8) (h : decodeMap b = none) :
    decodeQuanta (a :: b :: rest) = none := by
  match rest with
  | [] => rfl
  | [_] => rfl
  | c :: d :: rest =>
      simp only [decodeQuanta, h]
      cases decodeMap a <;> rfl

theorem decodeQuanta_digits (a b c d : UInt8) (rest : List UInt8)
    (ha : (decodeMap a).isSome) (hb : (decodeMap b).isSome) (hc : (decodeMap c).isSome)
    (hd : (decodeMap d).isSome) :
    decodeQuanta (a :: b :: c :: d :: rest) = none ↔ decodeQuanta rest = none := by
  obtain ⟨x, hx⟩ := Option.isSome_iff_exists.mp ha
  obtain ⟨y, hy⟩ := Option.isSome_iff_exists.mp hb
  obtain ⟨z, hz⟩ := Option.isSome_iff_exists.mp hc
  obtain ⟨w, hw⟩ := Option.isSome_iff_exists.mp hd
  simp only [decodeQuanta, hx, hy, hz, hw]
  cases decodeQuanta rest <;> simp

theorem decodeQuanta_pad_third (a b c d : UInt8) (rest : List UInt8)
    (ha : (decodeMap a).isSome) (hb : (decodeMap b).isSome) (hc : decodeMap c = none) :
    decodeQuanta (a :: b :: c :: d :: rest) = none
      ↔ ¬ (c = padChar ∧ d = padChar ∧ rest = []) := by
  obtain ⟨x, hx⟩ := Option.isSome_iff_exists.mp ha
  obtain ⟨y, hy⟩ := Option.isSome_iff_exists.mp hb
  simp only [decodeQuanta, hx, hy, hc]
  split <;> simp_all

theorem decodeQuanta_pad_fourth (a b c d : UInt8) (rest : List UInt8)
    (ha : (decodeMap a).isSome) (hb : (decodeMap b).isSome) (hc : (decodeMap c).isSome)
    (hd : decodeMap d = none) :
    decodeQuanta (a :: b :: c :: d :: rest) = none ↔ ¬ (d = padChar ∧ rest = []) := by
  obtain ⟨x, hx⟩ := Option.isSome_iff_exists.mp ha
  obtain ⟨y, hy⟩ := Option.isSome_iff_exists.mp hb
  obtain ⟨z, hz⟩ := Option.isSome_iff_exists.mp hc
  simp only [decodeQuanta, hx, hy, hz, hd]
  split <;> simp_all

theorem corruptOffset_digit (si j : Nat) (c : UInt8) (rest : List UInt8)
    (h : (decodeMap c).isSome) :
    corruptOffset si j (c :: rest)
      = corruptOffset (si + 1) (if j = 3 then 0 else j + 1) rest := by
  simp only [corruptOffset, h, if_true]

theorem corruptOffset_break (si j : Nat) (c : UInt8) (rest : List UInt8)
    (h : c = 10 ∨ c = 13) :
    corruptOffset si j (c :: rest) = corruptOffset (si + 1) j rest := by
  have hm := decodeMap_break c h
  simp only [corruptOffset, hm, Option.isSome_none, Bool.false_eq_true, if_false, h, if_true]

theorem corruptOffset_other (si j : Nat) (c : UInt8) (rest : List UInt8)
    (hm : decodeMap c = none) (hb : ¬ (c = 10 ∨ c = 13)) (hp : c ≠ padChar) :
    corruptOffset si j (c :: rest) = some si := by
  simp only [corruptOffset, hm, Option.isSome_none, Bool.false_eq_true, if_false, hb, ne_eq,
    hp, not_false_eq_true, if_true]

theorem padChar_not_break : ¬ (padChar = 10 ∨ padChar = 13) := by decide

theorem corruptOffset_pad (si j : Nat) (rest : List UInt8) :
    corruptOffset si j (padChar :: rest)
      = if j = 0 ∨ j = 1 then some si
        else if j = 2 then
          match (skipBreaks rest).2 with
          | [] => some (si + 1 + (skipBreaks rest).1)
          | c2 :: rest3 =>
              if c2 ≠ padChar then some (si + (skipBreaks rest).1)
              else
                match (skipBreaks rest3).2 with
                | [] => none
                | _ :: _ => some (si + 1 + (skipBreaks rest).1 + 1 + (skipBreaks rest3).1)
        else
          match (skipBreaks rest).2 with
          | [] => none
          | _ :: _ => some (si + 1 + (skipBreaks rest).1) := by
  have hm : decodeMap padChar = none := rfl
  simp only [corruptOffset, hm, Option.isSome_none, Bool.false_eq_true,
    if_false, padChar_not_break, ne_eq, not_true_eq_false]

/-- The scan finds no offset exactly when the group-wise decoding of the input without its
line breaks succeeds; stated for a scan inside a group, after `j` digits of the group. -/
theorem corruptOffset_none_iff (s : List UInt8) :
    ∀ si : Nat,
      (corruptOffset si 0 s = none
        ↔ decodeQuanta (s.filter (fun c => c != 10 && c != 13)) ≠ none) ∧
      (∀ a, (decodeMap a).isSome →
        (corruptOffset si 1 s = none
          ↔ decodeQuanta (a :: s.filter (fun c => c != 10 && c != 13)) ≠ none)) ∧
      (∀ a b, (decodeMap a).isSome → (decodeMap b).isSome →
        (corruptOffset si 2 s = none
          ↔ decodeQuanta (a :: b :: s.filter (fun c => c != 10 && c != 13)) ≠ none)) ∧
      (∀ a b c, (decodeMap a).isSome → (decodeMap b).isSome → (decodeMap c).isSome →
        (corruptOffset si 3 s = none
          ↔ decodeQuanta (a :: b :: c :: s.filter (fun c => c != 10 && c != 13)) ≠ none)) := by
  induction s with
  | nil =>
      intro si
      refine ⟨?_, ?_, ?_, ?_⟩
      · simp [corruptOffset, decodeQuanta]
      · intro a _; simp [corruptOffset, decodeQuanta]
      · intro a b _ _; simp [corruptOffset, decodeQuanta]
      · intro a b c _ _ _; simp [corruptOffset, decodeQuanta]
  | cons c rest ih =>
      intro si
      by_cases hd : (decodeMap c).isSome
      · have hnb : ¬ (c = 10 ∨ c = 13) := by
          intro h
          rw [decodeMap_break c h] at hd
          simp at hd
        obtain ⟨i0, i1, i2, i3⟩ := ih (si + 1)
        rw [filter_cons_keep c rest hnb]
        refine ⟨?_, ?_, ?_, ?_⟩
        · rw [corruptOffset_digit si 0 c rest hd]
          exact i1 c hd
        · intro a ha
          rw [corruptOffset_digit si 1 c rest hd]
          exact i2 a c ha hd
        · intro a b ha hb
          rw [corruptOffset_digit si 2 c rest hd]
          exact i3 a b c ha hb hd
        · intro a b c3 ha hb hc
          rw [corruptOffset_digit si 3 c rest hd]
          simp only [if_true]
          rw [i0, Ne, Ne, decodeQuanta_digits a b c3 c _ ha hb hc hd]
      · have hm : decodeMap c = none := by
          cases h : decodeMap c with
          | none => rfl
          | some v => rw [h] at hd; simp at hd
        by_cases hb : c = 10 ∨ c = 13
        · obtain ⟨i0, i1, i2, i3⟩ := ih (si + 1)
          rw [filter_cons_skip c rest hb]
          refine ⟨?_, ?_, ?_, ?_⟩
          · rw [corruptOffset_break si 0 c rest hb]; exact i0
          · intro a ha; rw [corruptOffset_break si 1 c rest hb]; exact i1 a ha
          · intro a b ha hb2; rw [corruptOffset_break si 2 c rest hb]; exact i2 a b ha hb2
          · intro a b c3 ha hb2 hc
            rw [corruptOffset_break si 3 c rest hb]; exact i3 a b c3 ha hb2 hc
        · rw [filter_cons_keep c rest hb]
          by_cases hp : c = padChar
          · subst hp
            obtain ⟨f1, f2⟩ := skipBreaks_spec rest
            refine ⟨?_, ?_, ?_, ?_⟩
            · rw [corruptOffset_pad, decodeQuanta_bad_first _ _ hm]
              simp
            · intro a _
              rw [corruptOffset_pad, decodeQuanta_bad_second _ _ _ hm]
              simp
            · intro a b ha hb2
              rw [corruptOffset_pad, f1]
              simp only [show ¬ ((2 : Nat) = 0 ∨ (2 : Nat) = 1) by omega, if_false, if_true]
              rcases f2 with f2 | ⟨c2, rest3, f2, hc2⟩
              · rw [f2]
                simp [decodeQuanta]
              · rw [f2, filter_cons_keep c2 rest3 hc2, Ne,
                  decodeQuanta_pad_third a b padChar c2 _ ha hb2 hm]
                obtain ⟨g1, g2⟩ := skipBreaks_spec rest3
                rw [g1]
                by_cases hc2p : c2 = padChar
                · simp only [hc2p, ne_eq, not_true_eq_false, if_false, true_and, not_not]
                  rcases g2 with g2 | ⟨c4, rest5, g2, hc4⟩
                  · rw [g2]; simp
                  · rw [g2, filter_cons_keep c4 rest5 hc4]; simp
                · simp [hc2p]
            · intro a b c3 ha hb2 hc
              rw [corruptOffset_pad, f1]
              simp only [show ¬ ((3 : Nat) = 0 ∨ (3 : Nat) = 1) by omega,
                show ¬ ((3 : Nat) = 2) by omega, if_false]
              rw [Ne, decodeQuanta_pad_fourth a b c3 padChar _ ha hb2 hc hm]
              rcases f2 with f2 | ⟨c2, rest3, f2, hc2⟩
              · rw [f2]; simp
              · rw [f2, filter_cons_keep c2 rest3 hc2]; simp
          · refine ⟨?_, ?_, ?_, ?_⟩
            · rw [corruptOffset_other si 0 c rest hm hb hp, decodeQuanta_bad_first _ _ hm]
              simp
            · intro a _
              rw [corruptOffset_other si 1 c rest hm hb hp, decodeQuanta_bad_second _ _ _ hm]
              simp
            · intro a b ha hb2
              rw [corruptOffset_other si 2 c rest hm hb hp]
              cases hr : rest.filter (fun c => c != 10 && c != 13) with
              | nil => simp [decodeQuanta]
              | cons d more =>
                  rw [Ne, decodeQuanta_pad_third a b c d more ha hb2 hm]
                  simp [hp]
            · intro a b c3 ha hb2 hc
              rw [corruptOffset_other si 3 c rest hm hb hp, Ne,
                decodeQuanta_pad_fourth a b c3 c _ ha hb2 hc hm]
              simp [hp]

/-- An input that the decoding rejects has an offset for its `CorruptInputError`. -/
theorem corruptOffset_of_corrupt (s : List UInt8)
    (h : decodeQuanta (s.filter (fun c => c != 10 && c != 13)) = none) :
    ∃ n, corruptOffset 0 0 s = some n := by
  cases hc : corruptOffset 0 0 s with
  | some n => exact ⟨n, rfl⟩
  | none => exact absurd h ((corruptOffset_none_iff s 0).1.mp hc)

/-- What `DecodeString` returns: the bytes when the input decodes, and otherwise the
`CorruptInputError` with the offset that the scan finds. -/
theorem DecodeString_error_iff (s : List UInt8) (e : String) :
    DecodeString s = .error e ↔ ∃ n, corruptOffset 0 0 s = some n ∧ e = corruptInput n := by
  unfold DecodeString
  cases hq : decodeQuanta (s.filter (fun c => c != 10 && c != 13)) with
  | some out =>
      have hn : corruptOffset 0 0 s = none := by
        apply (corruptOffset_none_iff s 0).1.mpr
        rw [hq]; simp
      simp [hn]
  | none =>
      obtain ⟨n, hn⟩ := corruptOffset_of_corrupt s hq
      simp only [hn, Option.getD_some, Except.error.injEq]
      constructor
      · intro h; exact ⟨n, rfl, h.symm⟩
      · rintro ⟨m, hm, he⟩
        simp only [Option.some.injEq] at hm
        subst hm
        exact he.symm

end GoStd

namespace gorabbit

open GoStd

/-- C5: whenever `encrypt` succeeds on a value, `decrypt` of its output on the same codec
succeeds and returns exactly the serialization `toBytes` of the value. -/
theorem C5_decrypt_encrypt {α : Type} (deps : Deps α) (c : crypto) (x : α)
    (out : List UInt8) (h : c.encrypt deps x = .ok out) :
    ∃ b, c.toBytes deps x = .ok b ∧ c.decrypt deps out = .ok b := by
  unfold crypto.encrypt at h
  cases hb : c.toBytes deps x with
  | error e => rw [hb] at h; simp at h
  | ok b =>
      rw [hb] at h
      cases hk : c.getBlock deps with
      | error e => rw [hk] at h; simp at h
      | ok blk =>
          rw [hk] at h
          simp only [Except.ok.injEq] at h
          refine ⟨b, rfl, ?_⟩
          unfold crypto.decrypt
          rw [hk, ← h]
          simp only [crypto.decode, crypto.encode, DecodeString_EncodeToString, cfb_roundtrip]

/-- Worked instance of C5: the 24-byte secret and the text "x". -/
theorem C5_decrypt_encrypt_witness :
    ∃ b, Demo.codec24.toBytes Demo.deps (Demo.Value.text "x") = .ok b ∧
      Demo.codec24.decrypt Demo.deps (bytes "EkgS") = .ok b :=
  C5_decrypt_encrypt Demo.deps Demo.codec24 (Demo.Value.text "x") (bytes "EkgS") (by rfl)

/-- C6 on the code: with an empty secret and a broker that accepts the connection and the
channel, `New` does not return a client; `initCrypto` panics. -/
theorem C6_new_empty_secret_panics (conn ch : Nat) (rand : Fin 16 → UInt8)
    (host port user password : String) (debug : Bool) :
    New (.ok conn) (fun _ => .ok ch) rand
        { Host := host, Port := port, User := user, Password := password, Secret := "",
          Debug := debug }
      = .panicked "secret for encryption must be at least 24 characters long" := by
  rfl

/-- C7 on the code: the 25-byte secret passes both length checks of construction, the
client has encryption enabled, and `encrypt` fails with a key size error on every value
that serializes. -/
theorem C7_secret25_encrypt_fails (conn ch : Nat) (rand : Fin 16 → UInt8) :
    len Demo.secret25 = 25 ∧
    ∃ r, New (.ok conn) (fun _ => .ok ch) rand (Demo.config Demo.secret25) = .client r ∧
      r.withMessageEncryption = true ∧
      ∀ (α : Type) (deps : Deps α) (v : α) (b : List UInt8), deps.jsonMarshal v = .ok b →
        r.cr.encrypt deps v = .error "crypto/aes: invalid key size 25" := by
  refine ⟨by decide, ⟨_, rfl, rfl, ?_⟩⟩
  intro α deps v b hb
  simp only [crypto.encrypt, crypto.toBytes, hb, crypto.getBlock, NewCipher]
  rfl

end gorabbit

namespace gorabbit

open GoStd

/-! ### `Listen` -/

theorem spawned_append (a b : List Event) : spawned (a ++ b) = spawned a ++ spawned b := by
  induction a with
  | nil => rfl
  | cons e a ih => cases e <;> simp [spawned, ih]

theorem bindTopics_spawned {σ : Type} (ch : Channel σ) (qName : String)
    (topics : List (String × GoRabbitConsumer)) :
    ∀ s, spawned (bindTopics ch qName topics s).trace = [] := by
  induction topics with
  | nil => intro s; rfl
  | cons t rest ih =>
      intro s
      obtain ⟨topic, c⟩ := t
      unfold bindTopics
      cases hb : ch.QueueBind s qName topic "exchange" false with
      | mk res s1 =>
          cases res with
          | some e => simp [spawned]
          | none => simp [spawned, ih]

/-- The binding loop ends the process exactly when its trace has a fatal line. -/
theorem bindTopics_exited_iff {σ : Type} (ch : Channel σ) (qName : String)
    (topics : List (String × GoRabbitConsumer)) :
    ∀ s, (bindTopics ch qName topics s).outcome = .exited ↔
      (bindTopics ch qName topics s).trace.any Event.isFatal = true := by
  induction topics with
  | nil => intro s; simp [bindTopics]
  | cons t rest ih =>
      intro s
      obtain ⟨topic, c⟩ := t
      unfold bindTopics
      cases hb : ch.QueueBind s qName topic "exchange" false with
      | mk res s1 =>
          cases res with
          | some e => simp [Event.isFatal]
          | none => simpa [Event.isFatal] using ih s1

/-- When the binding loop completes, the queue is bound under every topic. -/
theorem bindTopics_returned {σ : Type} (ch : Channel σ) (qName : String)
    (topics : List (String × GoRabbitConsumer)) :
    ∀ s, (bindTopics ch qName topics s).outcome = .returned →
      ∀ topic ∈ topics.map Prod.fst,
        Event.queueBind qName topic "exchange" false ∈ (bindTopics ch qName topics s).trace := by
  induction topics with
  | nil => intro s _ topic ht; simp at ht
  | cons t rest ih =>
      intro s
      obtain ⟨topic0, c⟩ := t
      unfold bindTopics
      cases hb : ch.QueueBind s qName topic0 "exchange" false with
      | mk res s1 =>
          cases res with
          | some e => intro h; simp at h
          | none =>
              intro h topic ht
              simp only [List.map_cons, List.mem_cons] at ht
              rcases ht with ht | ht
              · subst ht; simp
              · have := ih s1 h topic ht
                simp [this]

/-- The loop over the queues ends the process exactly when its trace has a fatal line. -/
theorem listenQueues_exited_iff {σ : Type} (ch : Channel σ)
    (consumers : GoRabbitConsumerMessages) (queues : List String) :
    ∀ s, (listenQueues ch consumers queues s).outcome = .exited ↔
      (listenQueues ch consumers queues s).trace.any Event.isFatal = true := by
  induction queues with
  | nil => intro s; simp [listenQueues]
  | cons queue rest ih =>
      intro s
      unfold listenQueues
      cases hd : ch.QueueDeclare s queue true false false false with
      | mk res s1 =>
          cases res with
          | error e => simp [Event.isFatal]
          | ok qName =>
              simp only
              have hbi := bindTopics_exited_iff ch qName (topicsOf consumers queue) s1
              cases hbo : (bindTopics ch qName (topicsOf consumers queue) s1).outcome with
              | exited =>
                  simp only
                  rw [hbo] at hbi
                  have := hbi.mp rfl
                  simp [Event.isFatal, this, hbo]
              | returned =>
                  simp only
                  rw [hbo] at hbi
                  have hnf : (bindTopics ch qName (topicsOf consumers queue) s1).trace.any
                      Event.isFatal = false := by
                    cases hx : (bindTopics ch qName (topicsOf consumers queue) s1).trace.any
                        Event.isFatal with
                    | false => rfl
                    | true => exact absurd (hbi.mpr hx) (by simp)
                  cases hc : ch.Consume (bindTopics ch qName (topicsOf consumers queue) s1).broker
                      qName "" true false false false with
                  | mk res2 s2 =>
                      cases res2 with
                      | error e => simp [Event.isFatal]
                      | ok messages =>
                          simp only [List.any_append, List.any_cons, Event.isFatal,
                            List.any_nil, Bool.or_false, Bool.false_or, hnf]
                          exact ih s2

/-- When the loop over the queues completes it has started exactly one dispatch loop for
every queue it went through, in order. -/
theorem listenQueues_spawned {σ : Type} (ch : Channel σ)
    (consumers : GoRabbitConsumerMessages) (queues : List String) :
    ∀ s, (listenQueues ch consumers queues s).outcome = .returned →
      (spawned (listenQueues ch consumers queues s).trace).map Loop.queue = queues := by
  induction queues with
  | nil => intro s _; rfl
  | cons queue rest ih =>
      intro s
      unfold listenQueues
      cases hd : ch.QueueDeclare s queue true false false false with
      | mk res s1 =>
          cases res with
          | error e => intro h; simp at h
          | ok qName =>
              simp only
              cases hbo : (bindTopics ch qName (topicsOf consumers queue) s1).outcome with
              | exited => intro h; simp [hbo] at h
              | returned =>
                  simp only
                  cases hc : ch.Consume (bindTopics ch qName (topicsOf consumers queue) s1).broker
                      qName "" true false false false with
                  | mk res2 s2 =>
                      cases res2 with
                      | error e => intro h; simp at h
                      | ok messages =>
                          intro h
                          have h1 : spawned [Event.queueDeclare queue true false false false,
                              Event.logQueueDeclared qName] = [] := rfl
                          have h2 : spawned [Event.consume qName "" true false false false,
                              Event.spawn queue messages, Event.logQueueStarted queue]
                              = [{ queue := queue, messages := messages }] := rfl
                          simp only [spawned_append, h1, h2, bindTopics_spawned,
                            List.nil_append, List.map_append, List.map_cons, List.map_nil,
                            List.singleton_append]
                          rw [ih s2 h]

/-- When the loop over the queues completes, the setup of every queue it went through is
in its trace. -/
theorem listenQueues_returned {σ : Type} (ch : Channel σ)
    (consumers : GoRabbitConsumerMessages) (queues : List String) :
    ∀ s, (listenQueues ch consumers queues s).outcome = .returned →
      ∀ q ∈ queues, queueSetUp consumers (listenQueues ch consumers queues s).trace q := by
  induction queues with
  | nil => intro s _ q hq; simp at hq
  | cons queue rest ih =>
      intro s
      unfold listenQueues
      cases hd : ch.QueueDeclare s queue true false false false with
      | mk res s1 =>
          cases res with
          | error e => intro h; simp at h
          | ok qName =>
              simp only
              cases hbo : (bindTopics ch qName (topicsOf consumers queue) s1).outcome with
              | exited => intro h; simp [hbo] at h
              | returned =>
                  simp only
                  cases hc : ch.Consume (bindTopics ch qName (topicsOf consumers queue) s1).broker
                      qName "" true false false false with
                  | mk res2 s2 =>
                      cases res2 with
                      | error e => intro h; simp at h
                      | ok messages =>
                          intro h q hq
                          simp only [List.mem_cons] at hq
                          rcases hq with hq | hq
                          · subst hq
                            refine ⟨qName, messages, by simp, ?_, by simp, by simp⟩
                            intro topic ht
                            have := bindTopics_returned ch qName (topicsOf consumers q) s1 hbo
                              topic ht
                            simp [this]
                          · obtain ⟨qn, ms, h1, h2, h3, h4⟩ := ih s2 h q hq
                            refine ⟨qn, ms, ?_, ?_, ?_, ?_⟩
                            · simp [h1]
                            · intro topic ht
                              have := h2 topic ht
                              simp [this]
                            · simp [h3]
                            · simp [h4]

/-- A run of `Listen` ends the process exactly when its trace has a fatal line. -/
theorem Listen_exited_iff {σ : Type} (r : rbt) (ch : Channel σ)
    (consumers : GoRabbitConsumerMessages) (s : σ) :
    (r.Listen ch consumers s).outcome = .exited ↔
      (r.Listen ch consumers s).trace.any Event.isFatal = true := by
  unfold rbt.Listen
  cases he : ch.ExchangeDeclare s "exchange" "topic" true false false false with
  | mk res s1 =>
      cases res with
      | some e => simp [Event.isFatal]
      | none =>
          simpa [Event.isFatal] using
            listenQueues_exited_iff ch consumers (consumers.map Prod.fst) s1

/-- A run of `Listen` that returns has started exactly one dispatch loop per queue of the
table, in the order of the table. -/
theorem Listen_spawned {σ : Type} (r : rbt) (ch : Channel σ)
    (consumers : GoRabbitConsumerMessages) (s : σ)
    (h : (r.Listen ch consumers s).outcome = .returned) :
    (spawned (r.Listen ch consumers s).trace).map Loop.queue = consumers.map Prod.fst := by
  unfold rbt.Listen at h ⊢
  cases he : ch.ExchangeDeclare s "exchange" "topic" true false false false with
  | mk res s1 =>
      cases res with
      | some e => rw [he] at h; simp at h
      | none =>
          rw [he] at h
          simp only at h ⊢
          simp only [spawned]
          exact listenQueues_spawned ch consumers _ s1 h

/-- A run of `Listen` that returns has set up every queue of the table. -/
theorem Listen_returned {σ : Type} (r : rbt) (ch : Channel σ)
    (consumers : GoRabbitConsumerMessages) (s : σ)
    (h : (r.Listen ch consumers s).outcome = .returned) :
    ∀ q ∈ consumers.map Prod.fst, queueSetUp consumers (r.Listen ch consumers s).trace q := by
  unfold rbt.Listen at h ⊢
  cases he : ch.ExchangeDeclare s "exchange" "topic" true false false false with
  | mk res s1 =>
      cases res with
      | some e => rw [he] at h; simp at h
      | none =>
          rw [he] at h
          simp only at h ⊢
          intro q hq
          obtain ⟨qn, ms, h1, h2, h3, h4⟩ := listenQueues_returned ch consumers _ s1 h q hq
          exact ⟨qn, ms, List.mem_cons_of_mem _ h1,
            fun topic ht => List.mem_cons_of_mem _ (h2 topic ht),
            List.mem_cons_of_mem _ h3, List.mem_cons_of_mem _ h4⟩

end gorabbit

namespace gorabbit

open GoStd

/-- C8 as stated fails: on the two-queue table and a broker that accepts every call, the
setup succeeds (no fatal line) and `Listen` returns to its caller. -/
theorem C8_counterexample :
    (Demo.plainClient.Listen Demo.acceptAll Demo.table 0).trace.any Event.isFatal = false ∧
    (Demo.plainClient.Listen Demo.acceptAll Demo.table 0).outcome = .returned ∧
    spawned (Demo.plainClient.Listen Demo.acceptAll Demo.table 0).trace
      = [{ queue := "orders", messages := 4 }, { queue := "audit", messages := 7 }] := by
  decide

/-- C8 as amended: for every consumer table on which the setup succeeds (no operation of
the broker fails, so no fatal line is logged), `Listen` starts one dispatch loop per queue
of the table and then returns to its caller. -/
theorem C8_listen_returns {σ : Type} (r : rbt) (ch : Channel σ)
    (consumers : GoRabbitConsumerMessages) (s : σ)
    (hsetup : (r.Listen ch consumers s).trace.any Event.isFatal = false) :
    (r.Listen ch consumers s).outcome = .returned ∧
    (spawned (r.Listen ch consumers s).trace).map Loop.queue = consumers.map Prod.fst := by
  have hret : (r.Listen ch consumers s).outcome = .returned := by
    cases ho : (r.Listen ch consumers s).outcome with
    | returned => rfl
    | exited =>
        have := (Listen_exited_iff r ch consumers s).mp ho
        rw [hsetup] at this
        exact absurd this (by simp)
  exact ⟨hret, Listen_spawned r ch consumers s hret⟩

/-- Worked instance of C8 as amended: the two-queue table. -/
theorem C8_listen_returns_witness :
    (Demo.plainClient.Listen Demo.acceptAll Demo.table 0).outcome = .returned ∧
    (spawned (Demo.plainClient.Listen Demo.acceptAll Demo.table 0).trace).map Loop.queue
      = Demo.table.map Prod.fst :=
  C8_listen_returns Demo.plainClient Demo.acceptAll Demo.table 0 (by decide)

/-! ### `consumeMessages` and the recovery -/

theorem dispatch_no_sleep (r : rbt) (consumer : GoRabbitConsumer) (messageId topic : String)
    (msg : Delivery) :
    countEvents Event.isSleep (dispatch r consumer messageId topic msg).1 = 0 := by
  unfold dispatch
  cases r.conf.Debug <;> cases consumer.Consume with
  | none => simp [countEvents, Event.isSleep]
  | some f => cases hf : f msg <;> simp [countEvents, Event.isSleep, hf]

theorem processDelivery_no_sleep {α : Type} (deps : Deps α) (r : rbt)
    (consumers : GoRabbitConsumerMessages) (queue : String) (msg : Delivery) :
    countEvents Event.isSleep (processDelivery deps r consumers queue msg).1 = 0 := by
  unfold processDelivery
  simp only
  cases (topicsOf consumers queue).lookup msg.RoutingKey with
  | none => simp [countEvents, Event.isSleep]
  | some consumer =>
      simp only
      cases r.withMessageEncryption with
      | false =>
          simp only [Bool.false_eq_true, if_false]
          have := dispatch_no_sleep r consumer msg.MessageId msg.RoutingKey msg
          simpa [countEvents, Event.isSleep] using this
      | true =>
          simp only [if_true]
          cases r.cr.decrypt deps msg.Body with
          | error e => simp [countEvents, Event.isSleep]
          | ok decrypted =>
              have := dispatch_no_sleep r consumer msg.MessageId msg.RoutingKey
                { msg with Body := decrypted }
              simpa [countEvents, Event.isSleep] using this

theorem bindTopics_no_sleep {σ : Type} (ch : Channel σ) (qName : String)
    (topics : List (String × GoRabbitConsumer)) :
    ∀ s, countEvents Event.isSleep (bindTopics ch qName topics s).trace = 0 := by
  induction topics with
  | nil => intro s; rfl
  | cons t rest ih =>
      intro s
      obtain ⟨topic, c⟩ := t
      unfold bindTopics
      cases hb : ch.QueueBind s qName topic "exchange" false with
      | mk res s1 =>
          cases res with
          | some e => simp [countEvents, Event.isSleep]
          | none =>
              have := ih s1
              simpa [countEvents, Event.isSleep] using this

theorem listenQueues_no_sleep {σ : Type} (ch : Channel σ)
    (consumers : GoRabbitConsumerMessages) (queues : List String) :
    ∀ s, countEvents Event.isSleep (listenQueues ch consumers queues s).trace = 0 := by
  induction queues with
  | nil => intro s; rfl
  | cons queue rest ih =>
      intro s
      unfold listenQueues
      cases hd : ch.QueueDeclare s queue true false false false with
      | mk res s1 =>
          cases res with
          | error e => simp [countEvents, Event.isSleep]
          | ok qName =>
              simp only
              have hb := bindTopics_no_sleep ch qName (topicsOf consumers queue) s1
              cases hbo : (bindTopics ch qName (topicsOf consumers queue) s1).outcome with
              | exited =>
                  simp only [countEvents_append, hb]
                  simp [countEvents, Event.isSleep]
              | returned =>
                  simp only
                  cases hc : ch.Consume (bindTopics ch qName (topicsOf consumers queue) s1).broker
                      qName "" true false false false with
                  | mk res2 s2 =>
                      cases res2 with
                      | error e =>
                          simp only [countEvents_append, hb]
                          simp [countEvents, Event.isSleep]
                      | ok messages =>
                          simp only [countEvents_append, hb, ih s2]
                          simp [countEvents, Event.isSleep]

theorem Listen_no_sleep {σ : Type} (r : rbt) (ch : Channel σ)
    (consumers : GoRabbitConsumerMessages) (s : σ) :
    countEvents Event.isSleep (r.Listen ch consumers s).trace = 0 := by
  unfold rbt.Listen
  cases he : ch.ExchangeDeclare s "exchange" "topic" true false false false with
  | mk res s1 =>
      cases res with
      | some e => simp [countEvents, Event.isSleep]
      | none =>
          have := listenQueues_no_sleep ch consumers (consumers.map Prod.fst) s1
          simpa [countEvents, Event.isSleep] using this

theorem consumeMessages_cons_next {α σ : Type} (deps : Deps α) (r : rbt) (ch : Channel σ)
    (consumers : GoRabbitConsumerMessages) (queue : String) (msg : Delivery)
    (msgs : List Delivery) (s : σ) (t : List Event)
    (h : processDelivery deps r consumers queue msg = (t, .next)) :
    r.consumeMessages deps ch consumers queue (msg :: msgs) s =
      { outcome := (r.consumeMessages deps ch consumers queue msgs s).outcome,
        broker := (r.consumeMessages deps ch consumers queue msgs s).broker,
        trace := t ++ (r.consumeMessages deps ch consumers queue msgs s).trace } := by
  rw [rbt.consumeMessages, h]

theorem consumeMessages_cons_panic {α σ : Type} (deps : Deps α) (r : rbt) (ch : Channel σ)
    (consumers : GoRabbitConsumerMessages) (queue : String) (msg : Delivery)
    (msgs : List Delivery) (s : σ) (t : List Event) (rc : String)
    (h : processDelivery deps r consumers queue msg = (t, .panic rc)) :
    r.consumeMessages deps ch consumers queue (msg :: msgs) s =
      { outcome := .recovered (r.Listen ch consumers s).outcome,
        broker := (r.Listen ch consumers s).broker,
        trace := t ++ [Event.logPanic msg.MessageId msg.RoutingKey rc, Event.logRejoin,
                       Event.sleep delay] ++ (r.Listen ch consumers s).trace } := by
  rw [rbt.consumeMessages, h]

theorem delay_eq : delay = 5 * Second := by decide

/-- The loop over the deliveries, up to the first delivery whose processing panics. -/
theorem consumeMessages_panic {α σ : Type} (deps : Deps α) (r : rbt) (ch : Channel σ)
    (consumers : GoRabbitConsumerMessages) (queue : String) (msg : Delivery)
    (rest : List Delivery) (s : σ) (t : List Event) (rc : String)
    (hpanic : processDelivery deps r consumers queue msg = (t, .panic rc)) :
    ∀ pre : List Delivery,
      (∀ d ∈ pre, (processDelivery deps r consumers queue d).2 = .next) →
      (r.consumeMessages deps ch consumers queue (pre ++ msg :: rest) s).trace
        = pre.flatMap (fun d => (processDelivery deps r consumers queue d).1) ++ t ++
            [Event.logPanic msg.MessageId msg.RoutingKey rc, Event.logRejoin,
             Event.sleep (5 * Second)] ++ (r.Listen ch consumers s).trace ∧
      (r.consumeMessages deps ch consumers queue (pre ++ msg :: rest) s).outcome
        = .recovered (r.Listen ch consumers s).outcome ∧
      (r.consumeMessages deps ch consumers queue (pre ++ msg :: rest) s).broker
        = (r.Listen ch consumers s).broker := by
  intro pre
  induction pre with
  | nil =>
      intro _
      rw [List.nil_append,
        consumeMessages_cons_panic deps r ch consumers queue msg rest s t rc hpanic, delay_eq]
      simp
  | cons d pre ih =>
      intro hpre
      have hd := hpre d (List.mem_cons_self d pre)
      obtain ⟨h1, h2, h3⟩ := ih (fun x hx => hpre x (List.mem_cons_of_mem d hx))
      cases hp : processDelivery deps r consumers queue d with
      | mk td od =>
          rw [hp] at hd
          simp only at hd
          subst hd
          rw [List.cons_append,
            consumeMessages_cons_next deps r ch consumers queue d _ s td hp]
          simp only [h1, h2, h3, List.flatMap_cons, hp, List.append_assoc, and_self]

end gorabbit

namespace gorabbit

open GoStd

theorem flatMap_no_sleep {α : Type} (deps : Deps α) (r : rbt)
    (consumers : GoRabbitConsumerMessages) (queue : String) (pre : List Delivery) :
    countEvents Event.isSleep
      (pre.flatMap (fun d => (processDelivery deps r consumers queue d).1)) = 0 := by
  induction pre with
  | nil => rfl
  | cons d pre ih =>
      rw [List.flatMap_cons, countEvents_append, ih,
        processDelivery_no_sleep deps r consumers queue d]

/-- C9: when the processing of a delivery panics in the dispatch loop of a queue, the
loop logs the panic, sleeps once, for 5 seconds, and then runs `Listen` on the whole
consumer table; when that run completes it has declared every queue of the table, bound
it under every topic registered for it, opened a consumption stream on it and started a
dispatch loop for it. -/
theorem C9_panic_recovery {α σ : Type} (deps : Deps α) (r : rbt) (ch : Channel σ)
    (consumers : GoRabbitConsumerMessages) (queue : String) (pre : List Delivery)
    (msg : Delivery) (rest : List Delivery) (s : σ) (t : List Event) (rc : String)
    (hpre : ∀ d ∈ pre, (processDelivery deps r consumers queue d).2 = .next)
    (hpanic : processDelivery deps r consumers queue msg = (t, .panic rc)) :
    (r.consumeMessages deps ch consumers queue (pre ++ msg :: rest) s).trace
      = pre.flatMap (fun d => (processDelivery deps r consumers queue d).1) ++ t ++
          [Event.logPanic msg.MessageId msg.RoutingKey rc, Event.logRejoin,
           Event.sleep (5 * Second)] ++ (r.Listen ch consumers s).trace ∧
    (r.consumeMessages deps ch consumers queue (pre ++ msg :: rest) s).outcome
      = .recovered (r.Listen ch consumers s).outcome ∧
    countEvents Event.isSleep
      (r.consumeMessages deps ch consumers queue (pre ++ msg :: rest) s).trace = 1 ∧
    ((r.Listen ch consumers s).outcome = .returned →
      ∀ q ∈ consumers.map Prod.fst, queueSetUp consumers (r.Listen ch consumers s).trace q) := by
  obtain ⟨h1, h2, _⟩ :=
    consumeMessages_panic deps r ch consumers queue msg rest s t rc hpanic pre hpre
  refine ⟨h1, h2, ?_, Listen_returned r ch consumers s⟩
  have ht : countEvents Event.isSleep t = 0 := by
    have := processDelivery_no_sleep deps r consumers queue msg
    rw [hpanic] at this
    exact this
  rw [h1]
  simp only [countEvents_append, flatMap_no_sleep, ht, Listen_no_sleep]
  simp [countEvents, Event.isSleep]

/-- Worked instance of C9: the loop of queue "orders" processes one delivery and panics on
the second; the recovery sets up both "orders" and "audit". -/
theorem C9_panic_recovery_witness :
    (Demo.plainClient.consumeMessages Demo.deps Demo.acceptAll Demo.table "orders"
        ([Demo.delivery "m1" "orders.created" []] ++ Demo.delivery "m2" "orders.failed" [] ::
          [Demo.delivery "m3" "orders.created" []]) 10).trace
      = [Demo.delivery "m1" "orders.created" []].flatMap
          (fun d => (processDelivery Demo.deps Demo.plainClient Demo.table "orders" d).1) ++
          [Event.logConsuming "m2" "orders.failed",
           Event.invoke "orders.failed" (Demo.delivery "m2" "orders.failed" [])] ++
          [Event.logPanic (Demo.delivery "m2" "orders.failed" []).MessageId
             (Demo.delivery "m2" "orders.failed" []).RoutingKey "index out of range",
           Event.logRejoin, Event.sleep (5 * Second)] ++
          (Demo.plainClient.Listen Demo.acceptAll Demo.table 10).trace ∧
    (Demo.plainClient.consumeMessages Demo.deps Demo.acceptAll Demo.table "orders"
        ([Demo.delivery "m1" "orders.created" []] ++ Demo.delivery "m2" "orders.failed" [] ::
          [Demo.delivery "m3" "orders.created" []]) 10).outcome
      = .recovered (Demo.plainClient.Listen Demo.acceptAll Demo.table 10).outcome ∧
    countEvents Event.isSleep
      (Demo.plainClient.consumeMessages Demo.deps Demo.acceptAll Demo.table "orders"
        ([Demo.delivery "m1" "orders.created" []] ++ Demo.delivery "m2" "orders.failed" [] ::
          [Demo.delivery "m3" "orders.created" []]) 10).trace = 1 ∧
    ((Demo.plainClient.Listen Demo.acceptAll Demo.table 10).outcome = .returned →
      ∀ q ∈ Demo.table.map Prod.fst,
        queueSetUp Demo.table (Demo.plainClient.Listen Demo.acceptAll Demo.table 10).trace q) :=
  C9_panic_recovery Demo.deps Demo.plainClient Demo.acceptAll Demo.table "orders"
    [Demo.delivery "m1" "orders.created" []] (Demo.delivery "m2" "orders.failed" [])
    [Demo.delivery "m3" "orders.created" []] 10
    [Event.logConsuming "m2" "orders.failed",
     Event.invoke "orders.failed" (Demo.delivery "m2" "orders.failed" [])]
    "index out of range"
    (by intro d hd; simp only [List.mem_singleton] at hd; subst hd; rfl)
    (by rfl)

end gorabbit

namespace gorabbit

open GoStd

/-! ### The dispatch loops of the process -/

theorem filter_eraseIdx_length {β : Type} (p : β → Bool) (l : List β) :
    ∀ (i : Nat) (x : β), l.get? i = some x →
      ((l.eraseIdx i).filter p).length + (if p x then 1 else 0) = (l.filter p).length := by
  induction l with
  | nil => intro i x h; simp at h
  | cons a l ih =>
      intro i x h
      cases i with
      | zero =>
          simp only [List.get?_cons_zero, Option.some.injEq] at h
          subst h
          simp only [List.eraseIdx_cons_zero, List.filter_cons]
          cases p a
          · simp
          · simp
      | succ i =>
          simp only [List.get?_cons_succ] at h
          have := ih i x h
          simp only [List.eraseIdx_cons_succ, List.filter_cons]
          split <;> (try simp only [List.length_cons]) <;> omega

theorem filter_set_length {β : Type} (p : β → Bool) (l : List β) :
    ∀ (i : Nat) (x y : β), l.get? i = some x →
      ((l.set i y).filter p).length + (if p x then 1 else 0)
        = (l.filter p).length + (if p y then 1 else 0) := by
  induction l with
  | nil => intro i x y h; simp at h
  | cons a l ih =>
      intro i x y h
      cases i with
      | zero =>
          simp only [List.get?_cons_zero, Option.some.injEq] at h
          subst h
          simp only [List.set_cons_zero, List.filter_cons]
          cases p a <;> cases p y <;> simp
      | succ i =>
          simp only [List.get?_cons_succ] at h
          have := ih i x y h
          simp only [List.set_cons_succ, List.filter_cons]
          split <;> (try simp only [List.length_cons]) <;> omega

theorem mem_set_cases {β : Type} (l : List β) (i : Nat) (y z : β) (h : z ∈ l.set i y) :
    z ∈ l ∨ z = y := by
  rcases List.mem_or_eq_of_mem_set h with h | h
  · exact Or.inl h
  · exact Or.inr h

theorem filterMap_set_origin (l : List Listener) :
    ∀ (i : Nat) (x : Listener) (stage : Stage), l.get? i = some x →
      (l.set i { x with stage := stage }).filterMap Listener.origin
        = l.filterMap Listener.origin := by
  induction l with
  | nil => intro i x stage h; simp at h
  | cons a l ih =>
      intro i x stage h
      cases i with
      | zero =>
          simp only [List.get?_cons_zero, Option.some.injEq] at h
          subst h
          simp [List.filterMap_cons]
      | succ i =>
          simp only [List.get?_cons_succ] at h
          simp only [List.set_cons_succ, List.filterMap_cons, ih i x stage h]

theorem filter_started (ls : List Loop) (q : String) :
    ((ls.map Worker.started).filter (fun w => w.loop.queue == q)).length
      = (ls.map Loop.queue).count q := by
  induction ls with
  | nil => rfl
  | cons a ls ih =>
      simp only [List.map_cons, List.filter_cons, List.count_cons, Worker.started]
      split <;> simp_all [Worker.started]

theorem start_invariant {σ : Type} (consumers : GoRabbitConsumerMessages) (s : σ) :
    loopInvariant consumers (System.start s) := by
  intro _
  refine ⟨?_, ?_, ?_⟩
  · intro l hl remaining hst
    simp only [System.start, List.mem_singleton] at hl
    subst hl
    simp at hst
  · simp [System.start, System.faults]
  · intro q _
    simp [System.start, System.loopsOf, System.faults, System.setUps, Stage.passed]

/-- A dispatch loop that takes a delivery or ends the processing of one stays a loop of its
queue. -/
theorem loopsOf_set {σ : Type} (sys : System σ) (i : Nat) (w : Worker)
    (current : Option Delivery) (hw : sys.loops.get? i = some w) (q : String) :
    ((sys.loops.set i { w with current := current }).filter
        (fun x => x.loop.queue == q)).length
      = (sys.loops.filter (fun x => x.loop.queue == q)).length := by
  have := filter_set_length (fun x : Worker => x.loop.queue == q) sys.loops i w
    { w with current := current } hw
  simp only at this
  omega

theorem step_invariant {α σ : Type} (deps : Deps α) (r : rbt) (ch : Channel σ)
    (consumers : GoRabbitConsumerMessages) (hnodup : (consumers.map Prod.fst).Nodup)
    (sys : System σ) (step : Step) (hinv : loopInvariant consumers sys) :
    loopInvariant consumers (System.step deps r ch consumers sys step) := by
  cases hex : sys.exited with
  | true => cases step <;> simpa [System.step, hex] using hinv
  | false =>
      obtain ⟨hsuf, hlen, hcount⟩ := hinv hex
      cases step with
      | receive i msg =>
          simp only [System.step, hex, Bool.false_eq_true, if_false]
          cases hl : sys.loops.get? i with
          | none => exact hinv
          | some w =>
              simp only
              cases hc : w.current with
              | some m => exact hinv
              | none =>
                  intro _
                  refine ⟨hsuf, hlen, ?_⟩
                  intro q hq
                  have := hcount q hq
                  simp only [System.loopsOf, System.faults, System.setUps] at this ⊢
                  rw [loopsOf_set sys i w (some msg) hl q]
                  exact this
      | complete i =>
          simp only [System.step, hex, Bool.false_eq_true, if_false]
          cases hl : sys.loops.get? i with
          | none => exact hinv
          | some w =>
              simp only
              cases hc : w.current with
              | none => exact hinv
              | some msg =>
                  simp only
                  cases hp : (processDelivery deps r consumers w.loop.queue msg).2 with
                  | next =>
                      intro _
                      refine ⟨hsuf, hlen, ?_⟩
                      intro q hq
                      have := hcount q hq
                      simp only [System.loopsOf, System.faults, System.setUps] at this ⊢
                      rw [loopsOf_set sys i w none hl q]
                      exact this
                  | panic rc =>
                      intro _
                      refine ⟨?_, ?_, ?_⟩
                      · intro l hl2 remaining hst
                        simp only [List.mem_append, List.mem_singleton] at hl2
                        rcases hl2 with hl2 | hl2
                        · exact hsuf l hl2 remaining hst
                        · subst hl2
                          simp at hst
                      · simp only [System.faults] at hlen ⊢
                        simp only [List.length_append, List.length_singleton,
                          List.filterMap_append, List.filterMap_cons, List.filterMap_nil]
                        omega
                      · intro q hq
                        have h1 := hcount q hq
                        have h3 := filter_eraseIdx_length (fun x : Worker => x.loop.queue == q)
                          sys.loops i w hl
                        simp only [System.loopsOf, System.faults, System.setUps] at h1 ⊢
                        have hw : ([{ origin := some w.loop.queue, stage := .waiting }] :
                            List Listener).filter (fun l => l.stage.passed q) = [] := rfl
                        simp only [List.filterMap_append, List.filterMap_cons,
                          List.filterMap_nil, List.count_append, List.count_singleton,
                          List.filter_append, List.length_append, hw, List.length_nil]
                        simp only at h3
                        split at h3 <;> simp_all
                        all_goals omega
      | enter j =>
          simp only [System.step, hex, Bool.false_eq_true, if_false]
          cases hl : sys.listeners.get? j with
          | none => exact hinv
          | some l =>
              simp only
              cases hst : l.stage with
              | queues rem => exact hinv
              | waiting =>
                  simp only
                  cases he : ch.ExchangeDeclare sys.broker "exchange" "topic" true false false
                      false with
                  | mk res s1 =>
                      cases res with
                      | some e => intro h; simp at h
                      | none =>
                          intro _
                          refine ⟨?_, ?_, ?_⟩
                          · intro l2 hl2 remaining hst2
                            rcases mem_set_cases _ _ _ _ hl2 with h | h
                            · exact hsuf l2 h remaining hst2
                            · subst h
                              simp only [Stage.queues.injEq] at hst2
                              subst hst2
                              exact List.suffix_refl _
                          · simp only [System.faults] at hlen ⊢
                            rw [List.length_set, filterMap_set_origin sys.listeners j l
                              (.queues (consumers.map Prod.fst)) hl]
                            exact hlen
                          · intro q hq
                            have h1 := hcount q hq
                            have h2 : ((sys.listeners.set j
                                { l with stage := .queues (consumers.map Prod.fst) }).filter
                                  (fun x => x.stage.passed q)).length
                                  + (if l.stage.passed q then 1 else 0)
                                = (sys.listeners.filter (fun x => x.stage.passed q)).length
                                  + (if (Stage.queues (consumers.map Prod.fst)).passed q
                                      then 1 else 0) :=
                              filter_set_length (fun x : Listener => x.stage.passed q)
                                sys.listeners j l
                                { l with stage := .queues (consumers.map Prod.fst) } hl
                            have h3 := filterMap_set_origin sys.listeners j l
                              (.queues (consumers.map Prod.fst)) hl
                            simp only [System.loopsOf, System.faults, System.setUps] at h1 ⊢
                            rw [h3]
                            have hx : l.stage.passed q = false := by rw [hst]; rfl
                            have hy : (Stage.queues (consumers.map Prod.fst)).passed q
                                = false := by
                              have hq2 : (consumers.map Prod.fst).contains q = true := by
                                simpa using hq
                              simp only [Stage.passed, hq2, Bool.not_true]
                            rw [hx, hy] at h2
                            simp only [Bool.false_eq_true, if_false] at h2
                            omega
      | setup j =>
          simp only [System.step, hex, Bool.false_eq_true, if_false]
          cases hl : sys.listeners.get? j with
          | none => exact hinv
          | some l =>
              simp only
              cases hst : l.stage with
              | waiting => exact hinv
              | queues rem =>
                  cases rem with
                  | nil => exact hinv
                  | cons queue rest =>
                      simp only
                      cases ho : (listenQueues ch consumers [queue] sys.broker).outcome with
                      | exited => intro h; simp at h
                      | returned =>
                          have hlmem : l ∈ sys.listeners := List.get?_mem hl
                          have hsufl := hsuf l hlmem (queue :: rest) hst
                          have hnd : (queue :: rest).Nodup :=
                            List.Nodup.sublist hsufl.sublist hnodup
                          have hsp := listenQueues_spawned ch consumers [queue] sys.broker ho
                          intro _
                          refine ⟨?_, ?_, ?_⟩
                          · intro l2 hl2 remaining hst2
                            rcases mem_set_cases _ _ _ _ hl2 with h | h
                            · exact hsuf l2 h remaining hst2
                            · subst h
                              simp only [Stage.queues.injEq] at hst2
                              subst hst2
                              exact (List.suffix_cons queue rest).trans hsufl
                          · simp only [System.faults] at hlen ⊢
                            rw [List.length_set, filterMap_set_origin sys.listeners j l
                              (.queues rest) hl]
                            exact hlen
                          · intro q hq
                            have h1 := hcount q hq
                            have h2 : ((sys.listeners.set j
                                { l with stage := .queues rest }).filter
                                  (fun x => x.stage.passed q)).length
                                  + (if l.stage.passed q then 1 else 0)
                                = (sys.listeners.filter (fun x => x.stage.passed q)).length
                                  + (if (Stage.queues rest).passed q then 1 else 0) :=
                              filter_set_length (fun x : Listener => x.stage.passed q)
                                sys.listeners j l { l with stage := .queues rest } hl
                            have h3 := filterMap_set_origin sys.listeners j l (.queues rest) hl
                            simp only [System.loopsOf, System.faults, System.setUps] at h1 ⊢
                            rw [h3]
                            have hnew : (((spawned (listenQueues ch consumers [queue]
                                sys.broker).trace).map Worker.started).filter
                                (fun w => w.loop.queue == q)).length
                                = if queue = q then 1 else 0 := by
                              rw [filter_started, hsp, List.count_singleton]
                              by_cases hqq : queue = q <;> simp [hqq]
                            simp only [List.filter_append, List.length_append, hnew]
                            have hq0 : queue ∉ rest := (List.nodup_cons.mp hnd).1
                            by_cases hqq : queue = q
                            · subst hqq
                              have hx : l.stage.passed queue = false := by
                                rw [hst]; simp [Stage.passed]
                              have hy : (Stage.queues rest).passed queue = true := by
                                simpa [Stage.passed] using hq0
                              rw [hx, hy] at h2
                              simp only [Bool.false_eq_true, if_false, if_true] at h2 ⊢
                              omega
                            · have hx : l.stage.passed q = (Stage.queues rest).passed q := by
                                rw [hst]
                                have hne : (q == queue) = false := by
                                  simpa using fun h => hqq h.symm
                                simp [Stage.passed, hne]
                                intro _ h
                                exact hqq h.symm
                              rw [hx] at h2
                              simp only [hqq, if_false]
                              omega

theorem run_invariant {α σ : Type} (deps : Deps α) (r : rbt) (ch : Channel σ)
    (consumers : GoRabbitConsumerMessages) (hnodup : (consumers.map Prod.fst).Nodup)
    (schedule : List Step) :
    ∀ sys : System σ, loopInvariant consumers sys →
      loopInvariant consumers (System.run deps r ch consumers sys schedule) := by
  induction schedule with
  | nil => intro sys h; exact h
  | cons e rest ih =>
      intro sys h
      exact ih _ (step_invariant deps r ch consumers hnodup sys e h)

/-- The deliveries of a queue in processing are at most as many as its dispatch loops. -/
theorem inFlight_le {σ : Type} (sys : System σ) (q : String) :
    sys.inFlight q ≤ sys.loopsOf q := by
  unfold System.inFlight System.loopsOf
  have : sys.loops.filter (fun w => w.loop.queue == q && w.current.isSome)
      = (sys.loops.filter (fun w => w.loop.queue == q)).filter
          (fun w => w.current.isSome) := by
    rw [List.filter_filter]
    congr 1
    funext w
    exact Bool.and_comm _ _
  rw [this]
  exact List.length_filter_le _ _

/-- The runs of `Listen` that have set up a queue are among the runs there are. -/
theorem setUps_le {σ : Type} (sys : System σ) (q : String) :
    sys.setUps q ≤ sys.listeners.length :=
  List.length_filter_le _ _

/-! ### The steps of a run of `Listen` make up `Listen` -/

theorem set_self {β : Type} (l : List β) :
    ∀ (i : Nat) (x : β), l.get? i = some x → l.set i x = l := by
  induction l with
  | nil => intro i x h; simp at h
  | cons a l ih =>
      intro i x h
      cases i with
      | zero =>
          simp only [List.get?_cons_zero, Option.some.injEq] at h
          subst h
          rfl
      | succ i =>
          simp only [List.get?_cons_succ] at h
          simp only [List.set_cons_succ, ih i x h]

theorem get?_set_self {β : Type} (l : List β) :
    ∀ (i : Nat) (x y : β), l.get? i = some x → (l.set i y).get? i = some y := by
  induction l with
  | nil => intro i x y h; simp at h
  | cons a l ih =>
      intro i x y h
      cases i with
      | zero => rfl
      | succ i =>
          simp only [List.get?_cons_succ] at h
          simp only [List.set_cons_succ, List.get?_cons_succ, ih i x y h]

/-- The loop over the queues, one pass at a time: the pass for the first queue, and, when
it has not ended the process, the passes for the other queues on the broker that it
left. -/
theorem listenQueues_cons {σ : Type} (ch : Channel σ) (consumers : GoRabbitConsumerMessages)
    (queue : String) (rest : List String) (s : σ) :
    listenQueues ch consumers (queue :: rest) s
      = match (listenQueues ch consumers [queue] s).outcome with
        | .exited => listenQueues ch consumers [queue] s
        | .returned =>
            { outcome := (listenQueues ch consumers rest
                (listenQueues ch consumers [queue] s).broker).outcome,
              broker := (listenQueues ch consumers rest
                (listenQueues ch consumers [queue] s).broker).broker,
              trace := (listenQueues ch consumers [queue] s).trace ++
                (listenQueues ch consumers rest
                  (listenQueues ch consumers [queue] s).broker).trace } := by
  simp only [listenQueues]
  cases hd : ch.QueueDeclare s queue true false false false with
  | mk res s1 =>
      cases res with
      | error e => rfl
      | ok qName =>
          simp only
          cases hb : (bindTopics ch qName (topicsOf consumers queue) s1).outcome with
          | exited => rfl
          | returned =>
              simp only
              cases hc : ch.Consume (bindTopics ch qName (topicsOf consumers queue) s1).broker
                  qName "" true false false false with
              | mk res2 s2 =>
                  cases res2 with
                  | error e => rfl
                  | ok messages => simp

theorem step_exited {α σ : Type} (deps : Deps α) (r : rbt) (ch : Channel σ)
    (consumers : GoRabbitConsumerMessages) (sys : System σ) (h : sys.exited = true)
    (step : Step) : System.step deps r ch consumers sys step = sys := by
  cases step <;> simp [System.step, h]

theorem run_exited {α σ : Type} (deps : Deps α) (r : rbt) (ch : Channel σ)
    (consumers : GoRabbitConsumerMessages) (schedule : List Step) :
    ∀ sys : System σ, sys.exited = true →
      System.run deps r ch consumers sys schedule = sys := by
  induction schedule with
  | nil => intro sys _; rfl
  | cons e rest ih =>
      intro sys h
      rw [System.run, step_exited deps r ch consumers sys h e]
      exact ih sys h

/-- The passes of a run of `Listen` through the body of its loop, taken one after the
other without another step in between, do what the loop over the queues does. -/
theorem run_setups {α σ : Type} (deps : Deps α) (r : rbt) (ch : Channel σ)
    (consumers : GoRabbitConsumerMessages) (j : Nat) (qs : List String) :
    ∀ (sys : System σ) (l : Listener), sys.exited = false →
      sys.listeners.get? j = some l → l.stage = .queues qs →
      ((listenQueues ch consumers qs sys.broker).outcome = .returned →
        (System.run deps r ch consumers sys
            (List.replicate qs.length (Step.setup j))).exited = false ∧
        (System.run deps r ch consumers sys
            (List.replicate qs.length (Step.setup j))).broker
          = (listenQueues ch consumers qs sys.broker).broker ∧
        (System.run deps r ch consumers sys
            (List.replicate qs.length (Step.setup j))).loops
          = sys.loops ++
              (spawned (listenQueues ch consumers qs sys.broker).trace).map Worker.started ∧
        (System.run deps r ch consumers sys
            (List.replicate qs.length (Step.setup j))).listeners
          = sys.listeners.set j { l with stage := .queues [] }) ∧
      ((listenQueues ch consumers qs sys.broker).outcome = .exited →
        (System.run deps r ch consumers sys
            (List.replicate qs.length (Step.setup j))).exited = true ∧
        (System.run deps r ch consumers sys
            (List.replicate qs.length (Step.setup j))).broker
          = (listenQueues ch consumers qs sys.broker).broker) := by
  induction qs with
  | nil =>
      intro sys l hex hl hst
      refine ⟨?_, ?_⟩
      · intro _
        refine ⟨hex, rfl, ?_, ?_⟩
        · simp [System.run, listenQueues, spawned]
        · have : ({ l with stage := .queues [] } : Listener) = l := by
            cases l
            simp only at hst
            subst hst
            rfl
          rw [this, set_self _ _ _ hl]
          rfl
      · intro h
        simp [listenQueues] at h
  | cons queue rest ih =>
      intro sys l hex hl hst
      simp only [List.length_cons, List.replicate_succ, System.run]
      rw [listenQueues_cons]
      have hstep : System.step deps r ch consumers sys (Step.setup j)
          = match (listenQueues ch consumers [queue] sys.broker).outcome with
            | .exited =>
                { broker := (listenQueues ch consumers [queue] sys.broker).broker,
                  loops := [], listeners := [], exited := true }
            | .returned =>
                { broker := (listenQueues ch consumers [queue] sys.broker).broker,
                  loops := sys.loops ++
                    (spawned (listenQueues ch consumers [queue] sys.broker).trace).map
                      Worker.started,
                  listeners := sys.listeners.set j { l with stage := .queues rest },
                  exited := false } := by
        simp only [System.step, hex, Bool.false_eq_true, if_false, hl, hst]
      rw [hstep]
      cases ho : (listenQueues ch consumers [queue] sys.broker).outcome with
      | exited =>
          simp only
          rw [run_exited deps r ch consumers _ _ rfl]
          refine ⟨?_, ?_⟩
          · intro h
            rw [ho] at h
            simp at h
          · intro _
            exact ⟨rfl, rfl⟩
      | returned =>
          simp only
          obtain ⟨h1, h2⟩ := ih
            { broker := (listenQueues ch consumers [queue] sys.broker).broker,
              loops := sys.loops ++
                (spawned (listenQueues ch consumers [queue] sys.broker).trace).map
                  Worker.started,
              listeners := sys.listeners.set j { l with stage := .queues rest },
              exited := false }
            { l with stage := .queues rest } rfl (get?_set_self _ _ _ _ hl) rfl
          refine ⟨?_, ?_⟩
          · intro h
            obtain ⟨a, b, c, d⟩ := h1 h
            refine ⟨a, b, ?_, ?_⟩
            · rw [c]
              simp only [spawned_append, List.map_append, List.append_assoc]
            · rw [d]
              simp only [List.set_set]
          · intro h
            exact h2 h

/-- A run of `Listen`, taken from its entry to its end without another step in between,
does what `Listen` does: it leaves the broker as `Listen` leaves it, and when `Listen`
returns it has added the dispatch loops that `Listen` starts, and when `Listen` ends the
process the process is ended. -/
theorem run_listen {α σ : Type} (deps : Deps α) (r : rbt) (ch : Channel σ)
    (consumers : GoRabbitConsumerMessages) (j : Nat) (sys : System σ) (l : Listener)
    (hex : sys.exited = false) (hl : sys.listeners.get? j = some l)
    (hst : l.stage = .waiting) :
    ((r.Listen ch consumers sys.broker).outcome = .returned →
      (System.run deps r ch consumers sys (listenSteps j consumers.length)).exited = false ∧
      (System.run deps r ch consumers sys (listenSteps j consumers.length)).broker
        = (r.Listen ch consumers sys.broker).broker ∧
      (System.run deps r ch consumers sys (listenSteps j consumers.length)).loops
        = sys.loops ++ (spawned (r.Listen ch consumers sys.broker).trace).map Worker.started ∧
      (System.run deps r ch consumers sys (listenSteps j consumers.length)).listeners
        = sys.listeners.set j { l with stage := .queues [] }) ∧
    ((r.Listen ch consumers sys.broker).outcome = .exited →
      (System.run deps r ch consumers sys (listenSteps j consumers.length)).exited = true ∧
      (System.run deps r ch consumers sys (listenSteps j consumers.length)).broker
        = (r.Listen ch consumers sys.broker).broker) := by
  simp only [listenSteps, System.run]
  have hstep : System.step deps r ch consumers sys (Step.enter j)
      = match ch.ExchangeDeclare sys.broker "exchange" "topic" true false false false with
        | (some _, s1) => { broker := s1, loops := [], listeners := [], exited := true }
        | (none, s1) =>
            { sys with
              broker := s1,
              listeners := sys.listeners.set j
                { l with stage := .queues (consumers.map Prod.fst) } } := by
    simp only [System.step, hex, Bool.false_eq_true, if_false, hl, hst]
  rw [hstep]
  unfold rbt.Listen
  cases he : ch.ExchangeDeclare sys.broker "exchange" "topic" true false false false with
  | mk res s1 =>
      cases res with
      | some e =>
          simp only
          rw [run_exited deps r ch consumers _ _ rfl]
          exact ⟨fun h => by simp at h, fun _ => ⟨rfl, rfl⟩⟩
      | none =>
          simp only
          have hlen : consumers.length = (consumers.map Prod.fst).length := by simp
          rw [hlen]
          obtain ⟨h1, h2⟩ := run_setups deps r ch consumers j (consumers.map Prod.fst)
            { sys with
              broker := s1,
              listeners := sys.listeners.set j
                { l with stage := .queues (consumers.map Prod.fst) } }
            { l with stage := .queues (consumers.map Prod.fst) } hex
            (get?_set_self _ _ _ _ hl) rfl
          refine ⟨?_, ?_⟩
          · intro h
            obtain ⟨a, b, c, d⟩ := h1 h
            refine ⟨a, b, ?_, ?_⟩
            · rw [c]
              simp [spawned]
            · rw [d]
              simp only [List.set_set]
          · intro h
            exact h2 h

end gorabbit

namespace gorabbit

open GoStd

/-- C10 as stated fails: on the two-queue table, when the loop of "orders" has panicked,
queue "orders" has no dispatch loop during the cooldown of the recovery; and when the
recovery has run `Listen` again, the process is alive, queue "audit" has two running
dispatch loops, and two deliveries of "audit" are in processing at the same time. -/
theorem C10_counterexample :
    (System.run Demo.deps Demo.cipherClient Demo.acceptAll Demo.table (System.start 0)
        (Demo.faultSchedule.take 5)).exited = false ∧
    (System.run Demo.deps Demo.cipherClient Demo.acceptAll Demo.table (System.start 0)
        (Demo.faultSchedule.take 5)).loopsOf "orders" = 0 ∧
    (System.run Demo.deps Demo.cipherClient Demo.acceptAll Demo.table (System.start 0)
        Demo.faultSchedule).exited = false ∧
    (System.run Demo.deps Demo.cipherClient Demo.acceptAll Demo.table (System.start 0)
        Demo.faultSchedule).loops.map Worker.loop
      = [{ queue := "audit", messages := 7 }, { queue := "orders", messages := 12 },
         { queue := "audit", messages := 15 }] ∧
    (System.run Demo.deps Demo.cipherClient Demo.acceptAll Demo.table (System.start 0)
        Demo.faultSchedule).loopsOf "audit" = 2 ∧
    (System.run Demo.deps Demo.cipherClient Demo.acceptAll Demo.table (System.start 0)
        Demo.faultSchedule).inFlight "audit" = 2 := by
  decide

/-- C10 as amended: in every state reached from a call of `Listen` through deliveries and
fault recoveries in which the process is alive, every queue of a table with distinct queue
names has one running dispatch loop for every run of `Listen` that has set it up, less one
for every fault of a loop of its own; there is one run of `Listen` for the initial call
and one for every fault, so that when all of them have returned the queue has one loop
plus one for every fault of a loop of another queue; the deliveries of the queue in
processing are at most as many as its loops; and as long as no loop has faulted the queue
has at most one loop and at most one delivery in processing. -/
theorem C10_loops_per_queue {α σ : Type} (deps : Deps α) (r : rbt) (ch : Channel σ)
    (consumers : GoRabbitConsumerMessages) (s : σ) (schedule : List Step)
    (hnodup : (consumers.map Prod.fst).Nodup)
    (halive : (System.run deps r ch consumers (System.start s) schedule).exited = false) :
    ∀ q ∈ consumers.map Prod.fst,
      (System.run deps r ch consumers (System.start s) schedule).loopsOf q
          + (System.run deps r ch consumers (System.start s) schedule).faults.count q
        = (System.run deps r ch consumers (System.start s) schedule).setUps q ∧
      (System.run deps r ch consumers (System.start s) schedule).setUps q
        ≤ 1 + (System.run deps r ch consumers (System.start s) schedule).faults.length ∧
      ((∀ l ∈ (System.run deps r ch consumers (System.start s) schedule).listeners,
          l.stage = .queues []) →
        (System.run deps r ch consumers (System.start s) schedule).loopsOf q
            + (System.run deps r ch consumers (System.start s) schedule).faults.count q
          = 1 + (System.run deps r ch consumers (System.start s) schedule).faults.length) ∧
      (System.run deps r ch consumers (System.start s) schedule).inFlight q
        ≤ (System.run deps r ch consumers (System.start s) schedule).loopsOf q ∧
      ((System.run deps r ch consumers (System.start s) schedule).faults = [] →
        (System.run deps r ch consumers (System.start s) schedule).loopsOf q ≤ 1 ∧
        (System.run deps r ch consumers (System.start s) schedule).inFlight q ≤ 1) := by
  intro q hq
  obtain ⟨_, hlen, hcount⟩ := run_invariant deps r ch consumers hnodup schedule
    (System.start s) (start_invariant consumers s) halive
  have h1 := hcount q hq
  have h2 := setUps_le (System.run deps r ch consumers (System.start s) schedule) q
  have h3 := inFlight_le (System.run deps r ch consumers (System.start s) schedule) q
  refine ⟨h1, by omega, ?_, h3, ?_⟩
  · intro hall
    have hset : (System.run deps r ch consumers (System.start s) schedule).setUps q
        = (System.run deps r ch consumers (System.start s) schedule).listeners.length := by
      unfold System.setUps
      rw [List.filter_eq_self.mpr]
      intro l hl
      rw [hall l hl]
      rfl
    omega
  · intro hnone
    rw [hnone] at h1 hlen
    simp only [List.count_nil, List.length_nil, Nat.add_zero] at h1 hlen
    omega

/-- Worked instance of C10 as amended: queue "audit" of the two-queue table after one fault
of the loop of "orders" and its recovery: two runs of `Listen` have set the queue up, none
of its loops has faulted, it has two loops, and two of its deliveries are in processing. -/
theorem C10_loops_per_queue_witness :
    ((System.run Demo.deps Demo.cipherClient Demo.acceptAll Demo.table (System.start 0)
        Demo.faultSchedule).loopsOf "audit"
        + (System.run Demo.deps Demo.cipherClient Demo.acceptAll Demo.table (System.start 0)
            Demo.faultSchedule).faults.count "audit"
      = (System.run Demo.deps Demo.cipherClient Demo.acceptAll Demo.table (System.start 0)
          Demo.faultSchedule).setUps "audit" ∧
    (System.run Demo.deps Demo.cipherClient Demo.acceptAll Demo.table (System.start 0)
        Demo.faultSchedule).setUps "audit"
      ≤ 1 + (System.run Demo.deps Demo.cipherClient Demo.acceptAll Demo.table (System.start 0)
          Demo.faultSchedule).faults.length ∧
    (System.run Demo.deps Demo.cipherClient Demo.acceptAll Demo.table (System.start 0)
        Demo.faultSchedule).loopsOf "audit"
        + (System.run Demo.deps Demo.cipherClient Demo.acceptAll Demo.table (System.start 0)
            Demo.faultSchedule).faults.count "audit"
      = 1 + (System.run Demo.deps Demo.cipherClient Demo.acceptAll Demo.table (System.start 0)
          Demo.faultSchedule).faults.length ∧
    (System.run Demo.deps Demo.cipherClient Demo.acceptAll Demo.table (System.start 0)
        Demo.faultSchedule).inFlight "audit"
      ≤ (System.run Demo.deps Demo.cipherClient Demo.acceptAll Demo.table (System.start 0)
          Demo.faultSchedule).loopsOf "audit") ∧
    (System.run Demo.deps Demo.cipherClient Demo.acceptAll Demo.table (System.start 0)
        Demo.faultSchedule).faults = ["orders"] ∧
    (System.run Demo.deps Demo.cipherClient Demo.acceptAll Demo.table (System.start 0)
        Demo.faultSchedule).setUps "audit" = 2 := by
  have h := C10_loops_per_queue Demo.deps Demo.cipherClient Demo.acceptAll Demo.table 0
    Demo.faultSchedule (by decide) (by decide) "audit" (by decide)
  exact ⟨⟨h.1, h.2.1, h.2.2.1 (by decide), h.2.2.2.1⟩, by decide, by decide⟩

end gorabbit

namespace gorabbit

open GoStd

/-! ### Sleeps and deadline of `Publish` -/

theorem sleepTotal_append {α : Type} (a b : List (PublishEvent α)) :
    sleepTotal (a ++ b) = sleepTotal a + sleepTotal b := by
  induction a with
  | nil => simp [sleepTotal]
  | cons e a ih => cases e <;> simp [sleepTotal, ih, Int.add_assoc]

theorem attemptStartsFrom_append {α : Type} (a b : List (PublishEvent α)) :
    ∀ elapsed : Int, attemptStartsFrom elapsed (a ++ b)
      = attemptStartsFrom elapsed a ++ attemptStartsFrom (elapsed + sleepTotal a) b := by
  induction a with
  | nil => intro elapsed; simp [attemptStartsFrom, sleepTotal]
  | cons e a ih =>
      intro elapsed
      cases e <;> simp [attemptStartsFrom, sleepTotal, ih, Int.add_assoc]

theorem attemptHead_sleepTotal {α : Type} (r : rbt) (uid : String)
    (opt : GoRabbitPublisherOption α) (message : α) (idx : Int) :
    sleepTotal (attemptHead r uid opt message idx) = 0 := by
  unfold attemptHead
  cases r.conf.Debug <;> simp [sleepTotal]

theorem attemptHead_starts {α : Type} (r : rbt) (uid : String)
    (opt : GoRabbitPublisherOption α) (message : α) (idx : Int) (elapsed : Int) :
    attemptStartsFrom elapsed (attemptHead r uid opt message idx) = [elapsed] := by
  unfold attemptHead
  cases r.conf.Debug <;> simp [attemptStartsFrom]

theorem attemptHead_sleeps {α : Type} (r : rbt) (uid : String)
    (opt : GoRabbitPublisherOption α) (message : α) (idx : Int) :
    countEvents PublishEvent.isSleep (attemptHead r uid opt message idx) = 0 := by
  unfold attemptHead countEvents
  cases r.conf.Debug <;> simp [PublishEvent.isSleep]

/-- What a failing attempt adds to the trace: one attempt line, no sleep before it, and one
sleep of the retry interval as its last event. -/
theorem publishAttempt_fails_segment {α : Type} (deps : Deps α) (r : rbt)
    (transport : Transport) (uid : String) (opt : GoRabbitPublisherOption α) (message : α)
    (sbInterval : Int) (st : PublishState α)
    (hf : everyAttemptFails deps r transport uid opt message) :
    ∃ seg, (publishAttempt deps r transport uid opt message sbInterval st).trace
        = st.trace ++ (seg ++ [PublishEvent.sleep sbInterval]) ∧
      sleepTotal seg = 0 ∧ countEvents PublishEvent.isSleep seg = 0 ∧
      (∀ elapsed, attemptStartsFrom elapsed seg = [elapsed]) ∧
      (publishAttempt deps r transport uid opt message sbInterval st).err.isSome = true := by
  unfold everyAttemptFails at hf
  cases hp : payload deps r message with
  | error e =>
      rw [publishAttempt_error deps r transport uid opt message sbInterval st e hp]
      refine ⟨attemptHead r uid opt message st.idxProcess ++
        [if r.withMessageEncryption then PublishEvent.logEncryptError st.idxProcess uid e
          else PublishEvent.logToBytesError st.idxProcess uid e], by simp, ?_, ?_, ?_, rfl⟩
      · rw [sleepTotal_append, attemptHead_sleepTotal]
        cases r.withMessageEncryption <;> simp [sleepTotal]
      · rw [countEvents_append, attemptHead_sleeps]
        cases r.withMessageEncryption <;> simp [countEvents, PublishEvent.isSleep]
      · intro elapsed
        rw [attemptStartsFrom_append, attemptHead_starts]
        cases r.withMessageEncryption <;> simp [attemptStartsFrom]
  | ok body =>
      rw [hp] at hf
      cases ht : transport st.calls "exchange" opt.Topic false false (publishingOf uid body) with
      | none => exact absurd ht (hf st.calls)
      | some e =>
          rw [publishAttempt_fail deps r transport uid opt message sbInterval st body e hp ht]
          refine ⟨attemptHead r uid opt message st.idxProcess ++
            [PublishEvent.publishWithContext "exchange" opt.Topic false false
               (publishingOf uid body),
             PublishEvent.logPublishError st.idxProcess uid e], by simp, ?_, ?_, ?_, rfl⟩
          · rw [sleepTotal_append, attemptHead_sleepTotal]
            simp [sleepTotal]
          · rw [countEvents_append, attemptHead_sleeps]
            simp [countEvents, PublishEvent.isSleep]
          · intro elapsed
            rw [attemptStartsFrom_append, attemptHead_starts]
            simp [attemptStartsFrom]

/-- The run of the loop when every attempt fails: what it adds to the trace ends with a
sleep, holds one sleep of the retry interval per attempt, and every attempt after the
first starts one more interval later. -/
theorem publishLoop_all_fail_trace {α : Type} (deps : Deps α) (r : rbt)
    (transport : Transport) (uid : String) (opt : GoRabbitPublisherOption α) (message : α)
    (sb sbInterval : Int) (hf : everyAttemptFails deps r transport uid opt message)
    (fuel : Nat) : ∀ (st : PublishState α),
    st.success = false → st.idxProcess + (fuel + 1) = sb →
    ∃ tail, (publishLoop deps r transport uid opt message sb sbInterval (fuel + 1) st).trace
        = st.trace ++ (tail ++ [PublishEvent.sleep sbInterval]) ∧
      sleepTotal (tail ++ [PublishEvent.sleep sbInterval])
        = ((fuel + 1 : Nat) : Int) * sleepTime sbInterval ∧
      countEvents PublishEvent.isSleep (tail ++ [PublishEvent.sleep sbInterval]) = fuel + 1 ∧
      (∀ elapsed, attemptStartsFrom elapsed (tail ++ [PublishEvent.sleep sbInterval])
        = startTimes (sleepTime sbInterval) (fuel + 1) elapsed) ∧
      (publishLoop deps r transport uid opt message sb sbInterval (fuel + 1) st).err.isSome
        = true ∧
      (publishLoop deps r transport uid opt message sb sbInterval (fuel + 1) st).success
        = false ∧
      (publishLoop deps r transport uid opt message sb sbInterval (fuel + 1) st).idxProcess
        = sb := by
  induction fuel with
  | zero =>
      intro st hs hi
      rw [publishLoop_succ]
      have h2 := publishAttempt_of_fails deps r transport uid opt message sbInterval st hf
      obtain ⟨seg, htr, hz, hc, hst, herr⟩ :=
        publishAttempt_fails_segment deps r transport uid opt message sbInterval st hf
      have hcnd : ¬ ((publishAttempt deps r transport uid opt message sbInterval st).idxProcess
          < sb) := by rw [h2.2]; omega
      simp only [hcnd, decide_False, Bool.false_and, Bool.false_eq_true, if_false]
      refine ⟨seg, htr, ?_, ?_, ?_, herr, by rw [h2.1]; exact hs, by rw [h2.2]; omega⟩
      · rw [sleepTotal_append, hz]
        simp [sleepTotal]
      · rw [countEvents_append, hc]
        simp [countEvents, PublishEvent.isSleep]
      · intro elapsed
        rw [attemptStartsFrom_append, hst]
        simp [attemptStartsFrom, startTimes]
  | succ k ih =>
      intro st hs hi
      rw [publishLoop_succ]
      have h2 := publishAttempt_of_fails deps r transport uid opt message sbInterval st hf
      obtain ⟨seg, htr, hz, hc, hst, _⟩ :=
        publishAttempt_fails_segment deps r transport uid opt message sbInterval st hf
      have hcnd : ((publishAttempt deps r transport uid opt message sbInterval st).idxProcess
          < sb) := by rw [h2.2]; omega
      have hs1 : (publishAttempt deps r transport uid opt message sbInterval st).success
          = false := by rw [h2.1]; exact hs
      simp only [hcnd, hs1, decide_True, Bool.not_false, Bool.and_self, if_true]
      obtain ⟨tail, htr2, hz2, hc2, hst2, herr2, hsu2, hidx2⟩ :=
        ih (publishAttempt deps r transport uid opt message sbInterval st) hs1
          (by rw [h2.2]; omega)
      refine ⟨seg ++ [PublishEvent.sleep sbInterval] ++ tail, ?_, ?_, ?_, ?_, herr2, hsu2,
        hidx2⟩
      · rw [htr2, htr]
        simp
      · have hseg : sleepTotal (seg ++ [PublishEvent.sleep sbInterval]) = sleepTime sbInterval := by
          rw [sleepTotal_append, hz]
          simp [sleepTotal]
        rw [List.append_assoc, sleepTotal_append, hseg, hz2]
        push_cast
        ring
      · have hseg : countEvents PublishEvent.isSleep (seg ++ [PublishEvent.sleep sbInterval])
            = 1 := by
          rw [countEvents_append, hc]
          simp [countEvents, PublishEvent.isSleep]
        rw [List.append_assoc, countEvents_append, hseg, hc2]
        omega
      · intro elapsed
        have hseg : sleepTotal (seg ++ [PublishEvent.sleep sbInterval]) = sleepTime sbInterval := by
          rw [sleepTotal_append, hz]
          simp [sleepTotal]
        rw [List.append_assoc, attemptStartsFrom_append, hseg, hst2]
        rw [attemptStartsFrom_append, hst, hz]
        simp [attemptStartsFrom, startTimes]

end gorabbit

namespace gorabbit

open GoStd

theorem startTimes_eq_map (d : Int) (n : Nat) : ∀ elapsed : Int,
    startTimes d n elapsed = (List.range n).map (fun k : Nat => elapsed + (k : Int) * d) := by
  induction n with
  | zero => intro elapsed; rfl
  | succ n ih =>
      intro elapsed
      rw [startTimes, ih, List.range_succ_eq_map, List.map_cons, List.map_map]
      have h0 : elapsed + ((0 : Nat) : Int) * d = elapsed := by simp
      rw [h0]
      congr 1
      apply List.map_congr_left
      intro k _
      simp only [Function.comp_apply, Nat.cast_succ]
      ring

/-- The trace of a valid call in which every attempt fails: the opening line, what the
loop adds, ending with a sleep, and the closing line that reports the exhausted
attempts. -/
theorem Publish_all_fail_trace {α : Type} (deps : Deps α) (r : rbt)
    (transport : Transport) (uid : String) (opt : GoRabbitPublisherOption α) (message : α)
    (ht : blank opt.Topic = false) (hm : opt.Message = some message)
    (hf : everyAttemptFails deps r transport uid opt message) :
    ∃ tail, (r.Publish deps transport uid opt).trace
        = [PublishEvent.logPublishing] ++ (tail ++ [PublishEvent.sleep
            (retryInterval opt.RetryDelay)]) ++
          [PublishEvent.logExhausted uid (attemptBound opt.Retries) (attemptBound opt.Retries)] ∧
      sleepTotal (tail ++ [PublishEvent.sleep (retryInterval opt.RetryDelay)])
        = attemptBound opt.Retries * sleepTime (retryInterval opt.RetryDelay) ∧
      ((countEvents PublishEvent.isSleep
          (tail ++ [PublishEvent.sleep (retryInterval opt.RetryDelay)]) : Nat) : Int)
        = attemptBound opt.Retries ∧
      (∀ elapsed, attemptStartsFrom elapsed
          (tail ++ [PublishEvent.sleep (retryInterval opt.RetryDelay)])
        = startTimes (sleepTime (retryInterval opt.RetryDelay))
            (attemptBound opt.Retries).toNat elapsed) := by
  have hsb : (1 : Int) ≤ attemptBound opt.Retries := by
    rw [attemptBound_eq_max]; omega
  obtain ⟨f, hfuel⟩ : ∃ f, (attemptBound opt.Retries).toNat = f + 1 :=
    ⟨(attemptBound opt.Retries).toNat - 1, by omega⟩
  have hcast : ((f + 1 : Nat) : Int) = attemptBound opt.Retries := by
    rw [← hfuel]; exact Int.toNat_of_nonneg (by omega)
  obtain ⟨tail, htr, hz, hc, hst, herr, hsu, hidx⟩ :=
    publishLoop_all_fail_trace deps r transport uid opt message (attemptBound opt.Retries)
      (retryInterval opt.RetryDelay) hf f
      { idxProcess := 0, success := false, err := none, calls := 0,
        trace := [PublishEvent.logPublishing] } rfl (by simp only; omega)
  refine ⟨tail, ?_, ?_, ?_, ?_⟩
  · rw [Publish_valid deps r transport uid opt message ht hm]
    simp only [publishRun, finalLog, hfuel, htr, herr, hsu, hidx, Bool.not_false,
      Bool.and_self, if_true]
  · rw [hz, hcast]
  · rw [hc, hcast]
  · intro elapsed
    rw [hst, hfuel]

end gorabbit

namespace gorabbit

open GoStd

/-- C11 as stated fails: with Retries = 3, RetryDelay = 6000 ms and a transport that
rejects every call, the sleeps of the call add up to 18 seconds, more than the 10 seconds
of the deadline, and the third attempt starts after 12 seconds of sleep. -/
theorem C11_counterexample :
    sleepTotal (Demo.plainClient.Publish Demo.deps Demo.rejectAll "id-1"
        (Demo.request "orders.created" (some (Demo.Value.text "x")) 3 6000)).trace
      = 18 * Second ∧
    publishTimeout < sleepTotal (Demo.plainClient.Publish Demo.deps Demo.rejectAll "id-1"
        (Demo.request "orders.created" (some (Demo.Value.text "x")) 3 6000)).trace ∧
    attemptStarts (Demo.plainClient.Publish Demo.deps Demo.rejectAll "id-1"
        (Demo.request "orders.created" (some (Demo.Value.text "x")) 3 6000)).trace
      = [0, 6 * Second, 12 * Second] ∧
    publishTimeout < 12 * Second := by
  decide

/-- C11 as amended: the deadline does not bound the sleeps or stop the loop. When every
attempt of a valid request fails and RetryDelay is at most 9223372036854 ms, the sleeps of
the call add up to max(1, Retries) times the configured delay (RetryDelay ms, or 2000 ms
when RetryDelay is not positive), and the k-th attempt starts after k - 1 configured
delays of sleep, whatever the 10 seconds of the deadline: the total exceeds the deadline
as soon as max(1, Retries) times the configured delay does. -/
theorem C11_sleeps_ignore_deadline {α : Type} (deps : Deps α) (r : rbt)
    (transport : Transport) (uid : String) (opt : GoRabbitPublisherOption α) (message : α)
    (ht : blank opt.Topic = false) (hm : opt.Message = some message)
    (hf : everyAttemptFails deps r transport uid opt message)
    (hd : opt.RetryDelay ≤ 9223372036854) :
    sleepTotal (r.Publish deps transport uid opt).trace
      = max 1 opt.Retries * configuredDelay opt.RetryDelay ∧
    attemptStarts (r.Publish deps transport uid opt).trace
      = (List.range (max 1 opt.Retries).toNat).map
          (fun k : Nat => (k : Int) * configuredDelay opt.RetryDelay) ∧
    (publishTimeout < max 1 opt.Retries * configuredDelay opt.RetryDelay →
      publishTimeout < sleepTotal (r.Publish deps transport uid opt).trace) := by
  have hint : retryInterval opt.RetryDelay = configuredDelay opt.RetryDelay := by
    unfold retryInterval configuredDelay
    split
    · exact retry_in_range _ (by omega) hd
    · rfl
  have hpos : sleepTime (retryInterval opt.RetryDelay) = configuredDelay opt.RetryDelay := by
    rw [hint]
    unfold sleepTime configuredDelay Millisecond
    split <;> omega
  obtain ⟨tail, htr, hz, _, hst⟩ :=
    Publish_all_fail_trace deps r transport uid opt message ht hm hf
  have htotal : sleepTotal (r.Publish deps transport uid opt).trace
      = max 1 opt.Retries * configuredDelay opt.RetryDelay := by
    rw [htr, ← attemptBound_eq_max, sleepTotal_append, sleepTotal_append, hz, hpos]
    simp [sleepTotal]
  refine ⟨htotal, ?_, ?_⟩
  · rw [htr, ← attemptBound_eq_max]
    unfold attemptStarts
    have h0 : attemptStartsFrom 0 ([PublishEvent.logPublishing] : List (PublishEvent α))
        = [] := rfl
    have h1 : sleepTotal ([PublishEvent.logPublishing] : List (PublishEvent α)) = 0 := rfl
    have h2 : ∀ e : Int, attemptStartsFrom e ([PublishEvent.logExhausted uid
        (attemptBound opt.Retries) (attemptBound opt.Retries)] : List (PublishEvent α))
        = [] := fun _ => rfl
    rw [attemptStartsFrom_append, attemptStartsFrom_append, hst, startTimes_eq_map, h0, h1,
      h2, hpos]
    simp
  · intro h
    rw [htotal]
    exact h

/-- Worked instance of C11 as amended: a client with message encryption, three retries,
6000 ms, every call rejected: 18 seconds of sleep, and the third attempt starts after 12
seconds of sleep. -/
theorem C11_sleeps_ignore_deadline_witness :
    sleepTotal (Demo.cipherClient.Publish Demo.deps Demo.rejectAll "id-1"
        (Demo.request "orders.created" (some (Demo.Value.text "x")) 3 6000)).trace
      = max 1 (Demo.request "orders.created" (some (Demo.Value.text "x")) 3 6000).Retries
          * configuredDelay
            (Demo.request "orders.created" (some (Demo.Value.text "x")) 3 6000).RetryDelay ∧
    attemptStarts (Demo.cipherClient.Publish Demo.deps Demo.rejectAll "id-1"
        (Demo.request "orders.created" (some (Demo.Value.text "x")) 3 6000)).trace
      = (List.range (max 1
            (Demo.request "orders.created" (some (Demo.Value.text "x")) 3 6000).Retries).toNat).map
          (fun k : Nat => (k : Int) * configuredDelay
            (Demo.request "orders.created" (some (Demo.Value.text "x")) 3 6000).RetryDelay) ∧
    publishTimeout < sleepTotal (Demo.cipherClient.Publish Demo.deps Demo.rejectAll "id-1"
        (Demo.request "orders.created" (some (Demo.Value.text "x")) 3 6000)).trace := by
  have h := C11_sleeps_ignore_deadline Demo.deps Demo.cipherClient Demo.rejectAll "id-1"
    (Demo.request "orders.created" (some (Demo.Value.text "x")) 3 6000) (Demo.Value.text "x")
    (by decide) rfl (by unfold everyAttemptFails; intro k; simp [Demo.rejectAll])
    (by decide)
  exact ⟨h.1, h.2.1, h.2.2 (by decide)⟩

end gorabbit

namespace gorabbit

open GoStd

/-- C12 as stated fails: with Retries = 3 and a transport that rejects every call there
are three sleeps, not two, and the last sleep comes after the last failed attempt, right
before the closing log line. -/
theorem C12_counterexample :
    countEvents PublishEvent.isSleep (Demo.plainClient.Publish Demo.deps Demo.rejectAll "id-1"
        (Demo.request "orders.created" (some (Demo.Value.text "x")) 3 10)).trace = 3 ∧
    (3 : Int) ≠ max 1 (Demo.request "orders.created" (some (Demo.Value.text "x")) 3 10).Retries
      - 1 ∧
    (Demo.plainClient.Publish Demo.deps Demo.rejectAll "id-1"
        (Demo.request "orders.created" (some (Demo.Value.text "x")) 3 10)).trace.drop 11
      = [PublishEvent.logPublishError 2 "id-1" "channel/connection is not open",
         PublishEvent.sleep (10 * Millisecond), PublishEvent.logExhausted "id-1" 3 3] := by
  decide

/-- C12 as amended: when every attempt of a valid request fails, Publish sleeps after
every failed attempt, the final one included: there are max(1, Retries) sleeps, and the
last one is the event right before the closing log line. -/
theorem C12_sleep_after_every_failure {α : Type} (deps : Deps α) (r : rbt)
    (transport : Transport) (uid : String) (opt : GoRabbitPublisherOption α) (message : α)
    (ht : blank opt.Topic = false) (hm : opt.Message = some message)
    (hf : everyAttemptFails deps r transport uid opt message) :
    ((countEvents PublishEvent.isSleep (r.Publish deps transport uid opt).trace : Nat) : Int)
      = max 1 opt.Retries ∧
    ∃ before, (r.Publish deps transport uid opt).trace
      = before ++ [PublishEvent.sleep (retryInterval opt.RetryDelay),
          PublishEvent.logExhausted uid (max 1 opt.Retries) (max 1 opt.Retries)] := by
  obtain ⟨tail, htr, _, hc, _⟩ :=
    Publish_all_fail_trace deps r transport uid opt message ht hm hf
  rw [htr, ← attemptBound_eq_max]
  constructor
  · rw [countEvents_append, countEvents_append]
    have h0 : countEvents PublishEvent.isSleep
        ([PublishEvent.logPublishing] : List (PublishEvent α)) = 0 := by
      simp [countEvents, PublishEvent.isSleep]
    have h1 : countEvents PublishEvent.isSleep
        ([PublishEvent.logExhausted uid (attemptBound opt.Retries)
          (attemptBound opt.Retries)] : List (PublishEvent α)) = 0 := by
      simp [countEvents, PublishEvent.isSleep]
    rw [h0, h1]
    omega
  · exact ⟨[PublishEvent.logPublishing] ++ tail, by simp⟩

/-- Worked instance of C12 as amended: three retries, every call rejected. -/
theorem C12_sleep_after_every_failure_witness :
    ((countEvents PublishEvent.isSleep (Demo.plainClient.Publish Demo.deps Demo.rejectAll
        "id-1" (Demo.request "orders.created" (some (Demo.Value.text "x")) 3 10)).trace : Nat)
        : Int)
      = max 1 (Demo.request "orders.created" (some (Demo.Value.text "x")) 3 10).Retries ∧
    ∃ before, (Demo.plainClient.Publish Demo.deps Demo.rejectAll "id-1"
        (Demo.request "orders.created" (some (Demo.Value.text "x")) 3 10)).trace
      = before ++ [PublishEvent.sleep (retryInterval
            (Demo.request "orders.created" (some (Demo.Value.text "x")) 3 10).RetryDelay),
          PublishEvent.logExhausted "id-1"
            (max 1 (Demo.request "orders.created" (some (Demo.Value.text "x")) 3 10).Retries)
            (max 1 (Demo.request "orders.created" (some (Demo.Value.text "x")) 3 10).Retries)] :=
  C12_sleep_after_every_failure Demo.deps Demo.plainClient Demo.rejectAll "id-1"
    (Demo.request "orders.created" (some (Demo.Value.text "x")) 3 10) (Demo.Value.text "x")
    (by decide) rfl (by unfold everyAttemptFails; intro k; simp [Demo.rejectAll])

end gorabbit

namespace gorabbit

open GoStd

/-! ### The correlation id of `Publish` -/

theorem idsAre_append {α : Type} (uid : String) (a b : List (PublishEvent α))
    (ha : idsAre uid a) (hb : idsAre uid b) : idsAre uid (a ++ b) := by
  intro e he
  rcases List.mem_append.mp he with h | h
  · exact ha e h
  · exact hb e h

theorem attemptHead_ids {α : Type} (r : rbt) (uid : String)
    (opt : GoRabbitPublisherOption α) (message : α) (idx : Int) :
    idsAre uid (attemptHead r uid opt message idx) := by
  unfold attemptHead
  cases r.conf.Debug with
  | false =>
      intro e he id hid
      simp at he
      subst he
      simp [PublishEvent.correlationId] at hid
      exact hid.symm
  | true =>
      intro e he id hid
      simp at he
      rcases he with he | he
      · subst he
        simp [PublishEvent.correlationId] at hid
        exact hid.symm
      · subst he
        simp [PublishEvent.correlationId] at hid

theorem attemptHead_filter_attempt {α : Type} (r : rbt) (uid : String)
    (opt : GoRabbitPublisherOption α) (message : α) (idx : Int) :
    (attemptHead r uid opt message idx).filter PublishEvent.isAttempt
      = [PublishEvent.logAttempt idx uid opt.Topic] := by
  unfold attemptHead
  cases r.conf.Debug <;> simp [PublishEvent.isAttempt]

/-- One iteration of the loop body adds one attempt line, with the current index, the
correlation id and the topic, and only events whose id is the correlation id. -/
theorem publishAttempt_ids {α : Type} (deps : Deps α) (r : rbt)
    (transport : Transport) (uid : String) (opt : GoRabbitPublisherOption α) (message : α)
    (sbInterval : Int) (st : PublishState α) (hst : idsAre uid st.trace) :
    idsAre uid (publishAttempt deps r transport uid opt message sbInterval st).trace ∧
    (publishAttempt deps r transport uid opt message sbInterval st).trace.filter
        PublishEvent.isAttempt
      = st.trace.filter PublishEvent.isAttempt ++
          [PublishEvent.logAttempt st.idxProcess uid opt.Topic] := by
  cases hp : payload deps r message with
  | error e =>
      rw [publishAttempt_error deps r transport uid opt message sbInterval st e hp]
      constructor
      · apply idsAre_append
        · exact idsAre_append uid _ _ hst (attemptHead_ids r uid opt message st.idxProcess)
        · intro x hx id hid
          cases hw : r.withMessageEncryption <;> simp [hw] at hx <;>
            rcases hx with hx | hx <;> subst hx <;>
            simp [PublishEvent.correlationId] at hid <;> exact hid.symm
      · simp only [List.filter_append, attemptHead_filter_attempt]
        cases r.withMessageEncryption <;> simp [PublishEvent.isAttempt]
  | ok body =>
      cases ht : transport st.calls "exchange" opt.Topic false false (publishingOf uid body) with
      | some e =>
          rw [publishAttempt_fail deps r transport uid opt message sbInterval st body e hp ht]
          constructor
          · apply idsAre_append
            · exact idsAre_append uid _ _ hst (attemptHead_ids r uid opt message st.idxProcess)
            · intro x hx id hid
              simp at hx
              rcases hx with hx | hx | hx <;> subst hx <;>
                simp [PublishEvent.correlationId, publishingOf] at hid <;> exact hid.symm
          · simp only [List.filter_append, attemptHead_filter_attempt]
            simp [PublishEvent.isAttempt]
      | none =>
          rw [publishAttempt_success deps r transport uid opt message sbInterval st body hp ht]
          constructor
          · apply idsAre_append
            · exact idsAre_append uid _ _ hst (attemptHead_ids r uid opt message st.idxProcess)
            · intro x hx id hid
              simp at hx
              subst hx
              simp [PublishEvent.correlationId, publishingOf] at hid
              exact hid.symm
          · simp only [List.filter_append, attemptHead_filter_attempt]
            simp [PublishEvent.isAttempt]

/-- The loop adds only events whose id is the correlation id, and its attempt lines are
numbered consecutively from the index it starts with. -/
theorem publishLoop_ids {α : Type} (deps : Deps α) (r : rbt)
    (transport : Transport) (uid : String) (opt : GoRabbitPublisherOption α) (message : α)
    (sb sbInterval : Int) (fuel : Nat) : ∀ (st : PublishState α), idsAre uid st.trace →
    idsAre uid (publishLoop deps r transport uid opt message sb sbInterval fuel st).trace ∧
    ∃ n, (publishLoop deps r transport uid opt message sb sbInterval fuel st).trace.filter
        PublishEvent.isAttempt
      = st.trace.filter PublishEvent.isAttempt ++ attemptLines uid opt.Topic n st.idxProcess := by
  induction fuel with
  | zero =>
      intro st hst
      exact ⟨hst, 0, by simp [publishLoop, attemptLines]⟩
  | succ k ih =>
      intro st hst
      rw [publishLoop_succ]
      obtain ⟨h1, h2⟩ := publishAttempt_ids deps r transport uid opt message sbInterval st hst
      by_cases hc : ((publishAttempt deps r transport uid opt message sbInterval st).idxProcess
          < sb && !(publishAttempt deps r transport uid opt message sbInterval st).success) = true
      · rw [if_pos hc]
        simp only [Bool.and_eq_true, decide_eq_true_eq, Bool.not_eq_true'] at hc
        have hidx := publishAttempt_not_success deps r transport uid opt message sbInterval st hc.2
        obtain ⟨h3, n, h4⟩ := ih _ h1
        refine ⟨h3, n + 1, ?_⟩
        rw [h4, h2, hidx]
        simp [attemptLines]
      · rw [if_neg hc]
        exact ⟨h1, 1, by rw [h2]; simp [attemptLines]⟩

theorem attemptLines_length {α : Type} (uid topic : String) (n : Nat) : ∀ idx : Int,
    (attemptLines uid topic n idx : List (PublishEvent α)).length = n := by
  induction n with
  | zero => intro idx; rfl
  | succ n ih => intro idx; simp [attemptLines, ih]

/-- C13: in every call of Publish, every event that carries a correlation id carries the
one id of the call (so every message handed to the transport has it as its MessageId), and
the attempt lines of the call are one line per attempt, numbered 0, 1, 2, ..., each with
that id and the topic of the request. -/
theorem C13_publish_correlation_id {α : Type} (deps : Deps α) (r : rbt)
    (transport : Transport) (uid : String) (opt : GoRabbitPublisherOption α) :
    (∀ e ∈ (r.Publish deps transport uid opt).trace, ∀ id,
      e.correlationId = some id → id = uid) ∧
    (∀ exchange key mandatory immediate msg,
      PublishEvent.publishWithContext exchange key mandatory immediate msg
        ∈ (r.Publish deps transport uid opt).trace → msg.MessageId = uid) ∧
    (r.Publish deps transport uid opt).trace.filter PublishEvent.isAttempt
      = attemptLines uid opt.Topic
          (countEvents PublishEvent.isAttempt (r.Publish deps transport uid opt).trace) 0 := by
  have key : idsAre uid (r.Publish deps transport uid opt).trace ∧
      ∃ n, (r.Publish deps transport uid opt).trace.filter PublishEvent.isAttempt
        = attemptLines uid opt.Topic n 0 := by
    have hinit : idsAre uid ([PublishEvent.logPublishing] : List (PublishEvent α)) := by
      intro e he id hid
      simp at he
      subst he
      simp [PublishEvent.correlationId] at hid
    by_cases hb : blank opt.Topic = true
    · have ht := (blank_iff opt.Topic).mp hb
      simp only [rbt.Publish, rbt.trimSpace, ht, if_true]
      exact ⟨hinit, 0, by simp [attemptLines, PublishEvent.isAttempt]⟩
    · cases hm : opt.Message with
      | none =>
          have ht : ¬ TrimSpace opt.Topic = "" := fun hh => hb ((blank_iff opt.Topic).mpr hh)
          simp only [rbt.Publish, rbt.trimSpace, ht, if_false, hm]
          exact ⟨hinit, 0, by simp [attemptLines, PublishEvent.isAttempt]⟩
      | some message =>
          rw [Publish_valid deps r transport uid opt message (by simpa using hb) hm]
          obtain ⟨h1, n, h2⟩ := publishLoop_ids deps r transport uid opt message
            (attemptBound opt.Retries) (retryInterval opt.RetryDelay)
            (attemptBound opt.Retries).toNat
            { idxProcess := 0, success := false, err := none, calls := 0,
              trace := [PublishEvent.logPublishing] } hinit
          have hfin := finalLog_not_attempt uid (attemptBound opt.Retries)
            (publishRun deps r transport uid opt message)
          constructor
          · apply idsAre_append uid _ _ h1
            intro e he id hid
            simp only [List.mem_singleton] at he
            subst he
            unfold finalLog at hid
            split at hid <;> simp [PublishEvent.correlationId] at hid <;> exact hid.symm
          · refine ⟨n, ?_⟩
            have h2b : (publishRun deps r transport uid opt message).trace.filter
                PublishEvent.isAttempt = attemptLines uid opt.Topic n 0 := by
              have : ([PublishEvent.logPublishing] : List (PublishEvent α)).filter
                  PublishEvent.isAttempt = [] := by simp [PublishEvent.isAttempt]
              rw [this] at h2
              simpa [publishRun] using h2
            simp only [List.filter_append, h2b, List.filter_cons, hfin.1, List.filter_nil]
            simp
  obtain ⟨hids, n, hn⟩ := key
  refine ⟨hids, ?_, ?_⟩
  · intro exchange key mandatory immediate msg hmem
    exact hids _ hmem msg.MessageId rfl
  · have hlen : countEvents PublishEvent.isAttempt (r.Publish deps transport uid opt).trace
        = n := by
      unfold countEvents
      rw [hn, attemptLines_length]
    rw [hlen, hn]

end gorabbit

namespace gorabbit

open GoStd

/-! ### The dispatch of deliveries -/

theorem invocations_append (a b : List Event) :
    invocations (a ++ b) = invocations a ++ invocations b := by
  induction a with
  | nil => rfl
  | cons e a ih => cases e <;> simp [invocations, ih]

/-- C14: a delivery whose routing key has no handler under the queue of the loop, whatever
is registered under the other queues, is only logged: the processing does not depend on
the codec (nothing is decrypted), calls no handler, and the loop goes on with the next
delivery. -/
theorem C14_unregistered_dropped {α σ : Type} (deps : Deps α) (r : rbt) (ch : Channel σ)
    (consumers : GoRabbitConsumerMessages) (queue : String) (msg : Delivery)
    (rest : List Delivery) (s : σ)
    (hnone : (topicsOf consumers queue).lookup msg.RoutingKey = none) :
    processDelivery deps r consumers queue msg
      = ([Event.logConsuming msg.MessageId msg.RoutingKey,
          Event.logNotFound msg.MessageId msg.RoutingKey], .next) ∧
    invocations (processDelivery deps r consumers queue msg).1 = [] ∧
    (r.consumeMessages deps ch consumers queue (msg :: rest) s).trace
      = [Event.logConsuming msg.MessageId msg.RoutingKey,
          Event.logNotFound msg.MessageId msg.RoutingKey] ++
        (r.consumeMessages deps ch consumers queue rest s).trace ∧
    (r.consumeMessages deps ch consumers queue (msg :: rest) s).outcome
      = (r.consumeMessages deps ch consumers queue rest s).outcome := by
  have hp : processDelivery deps r consumers queue msg
      = ([Event.logConsuming msg.MessageId msg.RoutingKey,
          Event.logNotFound msg.MessageId msg.RoutingKey], .next) := by
    unfold processDelivery
    simp only [hnone]
  refine ⟨hp, ?_, ?_, ?_⟩
  · rw [hp]; rfl
  · rw [consumeMessages_cons_next deps r ch consumers queue msg rest s _ hp]
  · rw [consumeMessages_cons_next deps r ch consumers queue msg rest s _ hp]

/-- Worked instance of C14: the loop of queue "orders" receives a delivery with routing key
"audit.logged", which is registered under queue "audit" only. -/
theorem C14_unregistered_dropped_witness :
    processDelivery Demo.deps Demo.cipherClient Demo.table "orders"
        (Demo.delivery "m1" "audit.logged" [])
      = ([Event.logConsuming (Demo.delivery "m1" "audit.logged" []).MessageId
            (Demo.delivery "m1" "audit.logged" []).RoutingKey,
          Event.logNotFound (Demo.delivery "m1" "audit.logged" []).MessageId
            (Demo.delivery "m1" "audit.logged" []).RoutingKey], .next) ∧
    invocations (processDelivery Demo.deps Demo.cipherClient Demo.table "orders"
        (Demo.delivery "m1" "audit.logged" [])).1 = [] ∧
    (Demo.cipherClient.consumeMessages Demo.deps Demo.acceptAll Demo.table "orders"
        (Demo.delivery "m1" "audit.logged" [] :: [Demo.delivery "m2" "orders.created" []])
        0).trace
      = [Event.logConsuming (Demo.delivery "m1" "audit.logged" []).MessageId
            (Demo.delivery "m1" "audit.logged" []).RoutingKey,
          Event.logNotFound (Demo.delivery "m1" "audit.logged" []).MessageId
            (Demo.delivery "m1" "audit.logged" []).RoutingKey] ++
        (Demo.cipherClient.consumeMessages Demo.deps Demo.acceptAll Demo.table "orders"
          [Demo.delivery "m2" "orders.created" []] 0).trace ∧
    (Demo.cipherClient.consumeMessages Demo.deps Demo.acceptAll Demo.table "orders"
        (Demo.delivery "m1" "audit.logged" [] :: [Demo.delivery "m2" "orders.created" []])
        0).outcome
      = (Demo.cipherClient.consumeMessages Demo.deps Demo.acceptAll Demo.table "orders"
          [Demo.delivery "m2" "orders.created" []] 0).outcome :=
  C14_unregistered_dropped Demo.deps Demo.cipherClient Demo.acceptAll Demo.table "orders"
    (Demo.delivery "m1" "audit.logged" []) [Demo.delivery "m2" "orders.created" []] 0
    (by rfl)

/-- C15: with encryption enabled, a delivery with a registered routing key whose body does
not decrypt is only logged: no handler is called for it, it is not processed again, and
the loop goes on with the next delivery. -/
theorem C15_undecryptable_dropped {α σ : Type} (deps : Deps α) (r : rbt) (ch : Channel σ)
    (consumers : GoRabbitConsumerMessages) (queue : String) (msg : Delivery)
    (rest : List Delivery) (s : σ) (consumer : GoRabbitConsumer) (err : String)
    (hreg : (topicsOf consumers queue).lookup msg.RoutingKey = some consumer)
    (henc : r.withMessageEncryption = true)
    (hdec : r.cr.decrypt deps msg.Body = .error err) :
    processDelivery deps r consumers queue msg
      = ([Event.logConsuming msg.MessageId msg.RoutingKey,
          Event.logDecryptError msg.MessageId msg.RoutingKey err], .next) ∧
    invocations (processDelivery deps r consumers queue msg).1 = [] ∧
    (r.consumeMessages deps ch consumers queue (msg :: rest) s).trace
      = [Event.logConsuming msg.MessageId msg.RoutingKey,
          Event.logDecryptError msg.MessageId msg.RoutingKey err] ++
        (r.consumeMessages deps ch consumers queue rest s).trace ∧
    (r.consumeMessages deps ch consumers queue (msg :: rest) s).outcome
      = (r.consumeMessages deps ch consumers queue rest s).outcome := by
  have hp : processDelivery deps r consumers queue msg
      = ([Event.logConsuming msg.MessageId msg.RoutingKey,
          Event.logDecryptError msg.MessageId msg.RoutingKey err], .next) := by
    unfold processDelivery
    simp only [hreg, henc, if_true, hdec]
  refine ⟨hp, ?_, ?_, ?_⟩
  · rw [hp]; rfl
  · rw [consumeMessages_cons_next deps r ch consumers queue msg rest s _ hp]
  · rw [consumeMessages_cons_next deps r ch consumers queue msg rest s _ hp]

/-- Worked instance of C15: a body that is not base64 text. -/
theorem C15_undecryptable_dropped_witness :
    processDelivery Demo.deps Demo.cipherClient Demo.table "orders"
        (Demo.delivery "m1" "orders.created" (bytes "!"))
      = ([Event.logConsuming (Demo.delivery "m1" "orders.created" (bytes "!")).MessageId
            (Demo.delivery "m1" "orders.created" (bytes "!")).RoutingKey,
          Event.logDecryptError (Demo.delivery "m1" "orders.created" (bytes "!")).MessageId
            (Demo.delivery "m1" "orders.created" (bytes "!")).RoutingKey
            "illegal base64 data at input byte 0"], .next) ∧
    invocations (processDelivery Demo.deps Demo.cipherClient Demo.table "orders"
        (Demo.delivery "m1" "orders.created" (bytes "!"))).1 = [] ∧
    (Demo.cipherClient.consumeMessages Demo.deps Demo.acceptAll Demo.table "orders"
        (Demo.delivery "m1" "orders.created" (bytes "!") ::
          [Demo.delivery "m2" "orders.created" (bytes "EkgS")]) 0).trace
      = [Event.logConsuming (Demo.delivery "m1" "orders.created" (bytes "!")).MessageId
            (Demo.delivery "m1" "orders.created" (bytes "!")).RoutingKey,
          Event.logDecryptError (Demo.delivery "m1" "orders.created" (bytes "!")).MessageId
            (Demo.delivery "m1" "orders.created" (bytes "!")).RoutingKey
            "illegal base64 data at input byte 0"] ++
        (Demo.cipherClient.consumeMessages Demo.deps Demo.acceptAll Demo.table "orders"
          [Demo.delivery "m2" "orders.created" (bytes "EkgS")] 0).trace ∧
    (Demo.cipherClient.consumeMessages Demo.deps Demo.acceptAll Demo.table "orders"
        (Demo.delivery "m1" "orders.created" (bytes "!") ::
          [Demo.delivery "m2" "orders.created" (bytes "EkgS")]) 0).outcome
      = (Demo.cipherClient.consumeMessages Demo.deps Demo.acceptAll Demo.table "orders"
          [Demo.delivery "m2" "orders.created" (bytes "EkgS")] 0).outcome :=
  C15_undecryptable_dropped Demo.deps Demo.cipherClient Demo.acceptAll Demo.table "orders"
    (Demo.delivery "m1" "orders.created" (bytes "!"))
    [Demo.delivery "m2" "orders.created" (bytes "EkgS")] 0 Demo.handleOk
    "illegal base64 data at input byte 0" (by rfl) (by rfl) (by rfl)

/-- The processing of a delivery that reaches a handler: the opening line, the debug line
when enabled, and the handler call with what it leads to. -/
theorem processDelivery_handed {α : Type} (deps : Deps α) (r : rbt)
    (consumers : GoRabbitConsumerMessages) (queue : String) (msg handed : Delivery)
    (consumer : GoRabbitConsumer)
    (hreg : (topicsOf consumers queue).lookup msg.RoutingKey = some consumer)
    (hh : handedOver deps r consumers queue msg = some (msg.RoutingKey, handed)) :
    processDelivery deps r consumers queue msg
      = (Event.logConsuming msg.MessageId msg.RoutingKey ::
          (dispatch r consumer msg.MessageId msg.RoutingKey handed).1,
         (dispatch r consumer msg.MessageId msg.RoutingKey handed).2) := by
  unfold handedOver at hh
  unfold processDelivery
  simp only [hreg] at hh ⊢
  cases henc : r.withMessageEncryption with
  | false =>
      simp only [henc, Bool.false_eq_true, if_false, Option.some.injEq, Prod.mk.injEq,
        true_and] at hh
      simp only [henc, Bool.false_eq_true, if_false, hh]
  | true =>
      simp only [henc, if_true] at hh ⊢
      cases hd : r.cr.decrypt deps msg.Body with
      | error e => rw [hd] at hh; simp at hh
      | ok decrypted =>
          rw [hd] at hh
          simp only [Option.some.injEq, Prod.mk.injEq, true_and] at hh
          simp only [hh]

/-- C16: when the handler of a delivery returns an error, the delivery has been handed to
the handler exactly once, the error is logged, and the loop neither stops nor recovers: it
goes on with the next delivery, and its run on the later deliveries is the same as if it
had started with them. -/
theorem C16_handler_error_continues {α σ : Type} (deps : Deps α) (r : rbt) (ch : Channel σ)
    (consumers : GoRabbitConsumerMessages) (queue : String) (msg handed : Delivery)
    (rest : List Delivery) (s : σ) (consumer : GoRabbitConsumer) (f : ConsumerFunc)
    (err : String)
    (hreg : (topicsOf consumers queue).lookup msg.RoutingKey = some consumer)
    (hh : handedOver deps r consumers queue msg = some (msg.RoutingKey, handed))
    (hf : consumer.Consume = some f) (herr : f handed = .error err) :
    (processDelivery deps r consumers queue msg).2 = .next ∧
    invocations (processDelivery deps r consumers queue msg).1 = [(msg.RoutingKey, handed)] ∧
    countEvents Event.isSleep (processDelivery deps r consumers queue msg).1 = 0 ∧
    (∃ before, (processDelivery deps r consumers queue msg).1
      = before ++ [Event.invoke msg.RoutingKey handed,
          Event.logHandlerError msg.MessageId msg.RoutingKey err]) ∧
    (r.consumeMessages deps ch consumers queue (msg :: rest) s).trace
      = (processDelivery deps r consumers queue msg).1 ++
        (r.consumeMessages deps ch consumers queue rest s).trace ∧
    (r.consumeMessages deps ch consumers queue (msg :: rest) s).outcome
      = (r.consumeMessages deps ch consumers queue rest s).outcome := by
  have hp := processDelivery_handed deps r consumers queue msg handed consumer hreg hh
  have hd : dispatch r consumer msg.MessageId msg.RoutingKey handed
      = ((if r.conf.Debug then [Event.logDebugBody handed.Body] else []) ++
          [Event.invoke msg.RoutingKey handed,
           Event.logHandlerError msg.MessageId msg.RoutingKey err], .next) := by
    unfold dispatch
    simp only [hf, herr]
  rw [hd] at hp
  have hnext : processDelivery deps r consumers queue msg
      = ((processDelivery deps r consumers queue msg).1, .next) := by
    rw [hp]
  refine ⟨by rw [hp], ?_, processDelivery_no_sleep deps r consumers queue msg, ?_, ?_, ?_⟩
  · rw [hp]
    cases r.conf.Debug <;> simp [invocations]
  · rw [hp]
    exact ⟨Event.logConsuming msg.MessageId msg.RoutingKey ::
      (if r.conf.Debug then [Event.logDebugBody handed.Body] else []), by simp⟩
  · rw [consumeMessages_cons_next deps r ch consumers queue msg rest s _ hnext]
  · rw [consumeMessages_cons_next deps r ch consumers queue msg rest s _ hnext]

/-- Worked instance of C16: a handler that rejects the order. -/
theorem C16_handler_error_continues_witness :
    (processDelivery Demo.deps Demo.plainClient Demo.errorTable "orders"
        (Demo.delivery "m1" "orders.created" [])).2 = .next ∧
    invocations (processDelivery Demo.deps Demo.plainClient Demo.errorTable "orders"
        (Demo.delivery "m1" "orders.created" [])).1
      = [((Demo.delivery "m1" "orders.created" []).RoutingKey,
          Demo.delivery "m1" "orders.created" [])] ∧
    countEvents Event.isSleep (processDelivery Demo.deps Demo.plainClient Demo.errorTable
        "orders" (Demo.delivery "m1" "orders.created" [])).1 = 0 ∧
    (∃ before, (processDelivery Demo.deps Demo.plainClient Demo.errorTable "orders"
        (Demo.delivery "m1" "orders.created" [])).1
      = before ++ [Event.invoke (Demo.delivery "m1" "orders.created" []).RoutingKey
            (Demo.delivery "m1" "orders.created" []),
          Event.logHandlerError (Demo.delivery "m1" "orders.created" []).MessageId
            (Demo.delivery "m1" "orders.created" []).RoutingKey "order rejected"]) ∧
    (Demo.plainClient.consumeMessages Demo.deps Demo.acceptAll Demo.errorTable "orders"
        (Demo.delivery "m1" "orders.created" [] :: [Demo.delivery "m2" "orders.created" []])
        0).trace
      = (processDelivery Demo.deps Demo.plainClient Demo.errorTable "orders"
          (Demo.delivery "m1" "orders.created" [])).1 ++
        (Demo.plainClient.consumeMessages Demo.deps Demo.acceptAll Demo.errorTable "orders"
          [Demo.delivery "m2" "orders.created" []] 0).trace ∧
    (Demo.plainClient.consumeMessages Demo.deps Demo.acceptAll Demo.errorTable "orders"
        (Demo.delivery "m1" "orders.created" [] :: [Demo.delivery "m2" "orders.created" []])
        0).outcome
      = (Demo.plainClient.consumeMessages Demo.deps Demo.acceptAll Demo.errorTable "orders"
          [Demo.delivery "m2" "orders.created" []] 0).outcome :=
  C16_handler_error_continues Demo.deps Demo.plainClient Demo.acceptAll Demo.errorTable
    "orders" (Demo.delivery "m1" "orders.created" []) (Demo.delivery "m1" "orders.created" [])
    [Demo.delivery "m2" "orders.created" []] 0 Demo.handleError
    (fun _ => HandlerResult.error "order rejected") "order rejected"
    (by rfl) (by rfl) (by rfl) (by rfl)

end gorabbit

namespace gorabbit

open GoStd

theorem dispatch_invocations (r : rbt) (consumer : GoRabbitConsumer)
    (messageId topic : String) (msg : Delivery)
    (hnext : (dispatch r consumer messageId topic msg).2 = .next) :
    invocations (dispatch r consumer messageId topic msg).1 = [(topic, msg)] := by
  unfold dispatch at hnext ⊢
  cases hc : consumer.Consume with
  | none => simp [hc] at hnext
  | some f =>
      simp only [hc] at hnext ⊢
      cases hf : f msg with
      | ok => cases r.conf.Debug <;> simp [invocations]
      | error e => cases r.conf.Debug <;> simp [invocations]
      | panic v => simp [hf] at hnext

/-- A delivery whose processing does not panic leads to exactly the handler call that the
description of the dispatch gives for it, or to none. -/
theorem processDelivery_invocations {α : Type} (deps : Deps α) (r : rbt)
    (consumers : GoRabbitConsumerMessages) (queue : String) (msg : Delivery)
    (hnext : (processDelivery deps r consumers queue msg).2 = .next) :
    invocations (processDelivery deps r consumers queue msg).1
      = (handedOver deps r consumers queue msg).toList := by
  unfold processDelivery handedOver at *
  cases hl : (topicsOf consumers queue).lookup msg.RoutingKey with
  | none => simp [hl, invocations]
  | some consumer =>
      simp only [hl] at hnext ⊢
      cases henc : r.withMessageEncryption with
      | false =>
          simp only [henc, Bool.false_eq_true, if_false] at hnext ⊢
          have := dispatch_invocations r consumer msg.MessageId msg.RoutingKey msg hnext
          simp [invocations, this]
      | true =>
          simp only [henc, if_true] at hnext ⊢
          cases hd : r.cr.decrypt deps msg.Body with
          | error e => simp [invocations]
          | ok decrypted =>
              simp only [hd] at hnext ⊢
              have := dispatch_invocations r consumer msg.MessageId msg.RoutingKey
                { msg with Body := decrypted } hnext
              simp [invocations, this]

/-- What the description of the dispatch hands over is the delivery itself but for its
body, under its own routing key, for which a handler is registered. -/
theorem handedOver_spec {α : Type} (deps : Deps α) (r : rbt)
    (consumers : GoRabbitConsumerMessages) (queue : String) (msg : Delivery)
    (p : String × Delivery) (h : handedOver deps r consumers queue msg = some p) :
    ((topicsOf consumers queue).lookup p.1).isSome = true ∧ p.1 = msg.RoutingKey ∧
    p.2 = { msg with Body := p.2.Body } ∧
    (if r.withMessageEncryption then r.cr.decrypt deps msg.Body = .ok p.2.Body
      else p.2.Body = msg.Body) := by
  unfold handedOver at h
  cases hl : (topicsOf consumers queue).lookup msg.RoutingKey with
  | none => simp [hl] at h
  | some consumer =>
      simp only [hl] at h
      cases henc : r.withMessageEncryption with
      | false =>
          simp only [henc, Bool.false_eq_true, if_false, Option.some.injEq] at h ⊢
          subst h
          simp [hl]
      | true =>
          simp only [henc, if_true] at h ⊢
          cases hd : r.cr.decrypt deps msg.Body with
          | error e => simp [hd] at h
          | ok decrypted =>
              simp only [hd, Option.some.injEq] at h
              subst h
              simp [hl]

/-- C17: on a finite stream of deliveries none of whose processing panics, the handler
calls of the dispatch loop of a queue are, in the order of the deliveries, exactly the
deliveries with a routing key registered for the queue and, with encryption enabled, a
body that decrypts; each is handed to the handler registered for its routing key, with its
body replaced by the decryption when encryption is enabled and nothing else changed. -/
theorem C17_handler_invocations {α σ : Type} (deps : Deps α) (r : rbt) (ch : Channel σ)
    (consumers : GoRabbitConsumerMessages) (queue : String) (msgs : List Delivery) (s : σ)
    (hnp : ∀ msg ∈ msgs, (processDelivery deps r consumers queue msg).2 = .next) :
    invocations (r.consumeMessages deps ch consumers queue msgs s).trace
      = msgs.filterMap (handedOver deps r consumers queue) ∧
    (r.consumeMessages deps ch consumers queue msgs s).outcome = .streamClosed ∧
    (∀ p ∈ invocations (r.consumeMessages deps ch consumers queue msgs s).trace,
      ∃ msg ∈ msgs, ((topicsOf consumers queue).lookup p.1).isSome = true ∧
        p.1 = msg.RoutingKey ∧ p.2 = { msg with Body := p.2.Body } ∧
        (if r.withMessageEncryption then r.cr.decrypt deps msg.Body = .ok p.2.Body
          else p.2.Body = msg.Body)) := by
  have key : invocations (r.consumeMessages deps ch consumers queue msgs s).trace
      = msgs.filterMap (handedOver deps r consumers queue) ∧
      (r.consumeMessages deps ch consumers queue msgs s).outcome = .streamClosed := by
    induction msgs with
    | nil => exact ⟨rfl, rfl⟩
    | cons msg rest ih =>
        have hnext := hnp msg (List.mem_cons_self msg rest)
        obtain ⟨h1, h2⟩ := ih (fun x hx => hnp x (List.mem_cons_of_mem msg hx))
        have hp : processDelivery deps r consumers queue msg
            = ((processDelivery deps r consumers queue msg).1, .next) := by
          rw [← hnext]
        rw [consumeMessages_cons_next deps r ch consumers queue msg rest s _ hp]
        refine ⟨?_, h2⟩
        simp only [invocations_append, h1,
          processDelivery_invocations deps r consumers queue msg hnext, List.filterMap_cons]
        cases handedOver deps r consumers queue msg <;> simp
  refine ⟨key.1, key.2, ?_⟩
  intro p hp
  rw [key.1, List.mem_filterMap] at hp
  obtain ⟨msg, hmem, hh⟩ := hp
  exact ⟨msg, hmem, handedOver_spec deps r consumers queue msg p hh⟩

/-- Worked instance of C17: with encryption enabled the loop of "orders" receives a
delivery for another queue, one that does not decrypt, and one that decrypts; only the
last reaches its handler, with the decrypted body. -/
theorem C17_handler_invocations_witness :
    invocations (Demo.cipherClient.consumeMessages Demo.deps Demo.acceptAll Demo.table
        "orders"
        [Demo.delivery "m1" "audit.logged" (bytes "EkgS"),
         Demo.delivery "m2" "orders.created" (bytes "!"),
         Demo.delivery "m3" "orders.created" (bytes "EkgS")] 0).trace
      = [Demo.delivery "m1" "audit.logged" (bytes "EkgS"),
         Demo.delivery "m2" "orders.created" (bytes "!"),
         Demo.delivery "m3" "orders.created" (bytes "EkgS")].filterMap
          (handedOver Demo.deps Demo.cipherClient Demo.table "orders") ∧
    (Demo.cipherClient.consumeMessages Demo.deps Demo.acceptAll Demo.table "orders"
        [Demo.delivery "m1" "audit.logged" (bytes "EkgS"),
         Demo.delivery "m2" "orders.created" (bytes "!"),
         Demo.delivery "m3" "orders.created" (bytes "EkgS")] 0).outcome = .streamClosed ∧
    (∀ p ∈ invocations (Demo.cipherClient.consumeMessages Demo.deps Demo.acceptAll Demo.table
        "orders"
        [Demo.delivery "m1" "audit.logged" (bytes "EkgS"),
         Demo.delivery "m2" "orders.created" (bytes "!"),
         Demo.delivery "m3" "orders.created" (bytes "EkgS")] 0).trace,
      ∃ msg ∈ [Demo.delivery "m1" "audit.logged" (bytes "EkgS"),
         Demo.delivery "m2" "orders.created" (bytes "!"),
         Demo.delivery "m3" "orders.created" (bytes "EkgS")],
        ((topicsOf Demo.table "orders").lookup p.1).isSome = true ∧
        p.1 = msg.RoutingKey ∧ p.2 = { msg with Body := p.2.Body } ∧
        (if Demo.cipherClient.withMessageEncryption
          then Demo.cipherClient.cr.decrypt Demo.deps msg.Body = .ok p.2.Body
          else p.2.Body = msg.Body)) :=
  C17_handler_invocations Demo.deps Demo.cipherClient Demo.acceptAll Demo.table "orders"
    [Demo.delivery "m1" "audit.logged" (bytes "EkgS"),
     Demo.delivery "m2" "orders.created" (bytes "!"),
     Demo.delivery "m3" "orders.created" (bytes "EkgS")] 0
    (by
      intro msg hmsg
      simp only [List.mem_cons, List.mem_singleton, List.not_mem_nil, or_false] at hmsg
      rcases hmsg with h | h | h <;> subst h <;> rfl)

end gorabbit

namespace gorabbit

open GoStd

/-! ### The operations of the setup -/

theorem bindOps_cons (qName : String) (t : String × GoRabbitConsumer)
    (topics : List (String × GoRabbitConsumer)) :
    bindOps qName (t :: topics)
      = Event.queueBind qName t.1 "exchange" false :: bindOps qName topics := rfl

/-- The operations of a completed binding loop: one binding per topic, in order. -/
theorem bindTopics_ops {σ : Type} (ch : Channel σ) (qName : String)
    (topics : List (String × GoRabbitConsumer)) :
    ∀ s, (bindTopics ch qName topics s).outcome = .returned →
      (bindTopics ch qName topics s).trace.filter Event.isOp = bindOps qName topics := by
  induction topics with
  | nil => intro s _; rfl
  | cons t rest ih =>
      intro s
      obtain ⟨topic, c⟩ := t
      unfold bindTopics
      cases hb : ch.QueueBind s qName topic "exchange" false with
      | mk res s1 =>
          cases res with
          | some e => intro h; simp at h
          | none =>
              intro h
              simp only [bindOps_cons]
              rw [← ih s1 h]
              simp [Event.isOp]

/-- The operations of a completed loop over the queues: the setup of every queue, in
order, with the answers of the broker. -/
theorem listenQueues_ops {σ : Type} (ch : Channel σ)
    (consumers : GoRabbitConsumerMessages) (queues : List String) :
    ∀ s, (listenQueues ch consumers queues s).outcome = .returned →
      ∃ answers : List (String × Nat), answers.length = queues.length ∧
        (listenQueues ch consumers queues s).trace.filter Event.isOp
          = queuesOps consumers queues answers := by
  induction queues with
  | nil => intro s _; exact ⟨[], rfl, rfl⟩
  | cons queue rest ih =>
      intro s
      unfold listenQueues
      cases hd : ch.QueueDeclare s queue true false false false with
      | mk res s1 =>
          cases res with
          | error e => intro h; simp at h
          | ok qName =>
              simp only
              cases hbo : (bindTopics ch qName (topicsOf consumers queue) s1).outcome with
              | exited => intro h; simp [hbo] at h
              | returned =>
                  simp only
                  cases hc : ch.Consume (bindTopics ch qName (topicsOf consumers queue) s1).broker
                      qName "" true false false false with
                  | mk res2 s2 =>
                      cases res2 with
                      | error e => intro h; simp at h
                      | ok messages =>
                          intro h
                          obtain ⟨answers, hlen, hops⟩ := ih s2 h
                          refine ⟨(qName, messages) :: answers, by simp [hlen], ?_⟩
                          have hb := bindTopics_ops ch qName (topicsOf consumers queue) s1 hbo
                          simp only [List.filter_append, hb, hops, queuesOps, queueOps]
                          simp [Event.isOp]

theorem Listen_returned_of_no_fatal {σ : Type} (r : rbt) (ch : Channel σ)
    (consumers : GoRabbitConsumerMessages) (s : σ)
    (hsetup : (r.Listen ch consumers s).trace.any Event.isFatal = false) :
    (r.Listen ch consumers s).outcome = .returned := by
  cases ho : (r.Listen ch consumers s).outcome with
  | returned => rfl
  | exited =>
      have := (Listen_exited_iff r ch consumers s).mp ho
      rw [hsetup] at this
      exact absurd this (by simp)

/-- The operations of a completed run of `Listen`. -/
theorem Listen_ops {σ : Type} (r : rbt) (ch : Channel σ)
    (consumers : GoRabbitConsumerMessages) (s : σ)
    (h : (r.Listen ch consumers s).outcome = .returned) :
    ∃ answers : List (String × Nat), answers.length = consumers.length ∧
      (r.Listen ch consumers s).trace.filter Event.isOp = setupOps consumers answers := by
  unfold rbt.Listen at h ⊢
  cases he : ch.ExchangeDeclare s "exchange" "topic" true false false false with
  | mk res s1 =>
      cases res with
      | some e => rw [he] at h; simp at h
      | none =>
          rw [he] at h
          simp only at h ⊢
          obtain ⟨answers, hlen, hops⟩ := listenQueues_ops ch consumers _ s1 h
          refine ⟨answers, by simpa using hlen, ?_⟩
          simp only [setupOps, List.filter_cons, Event.isOp, if_true, hops]

theorem bindOps_counts (qName : String) (topics : List (String × GoRabbitConsumer)) :
    countEvents Event.isExchangeDeclare (bindOps qName topics) = 0 ∧
    (bindOps qName topics).filter Event.isQueueDeclare = [] ∧
    countEvents Event.isQueueBind (bindOps qName topics) = topics.length ∧
    countEvents Event.isConsume (bindOps qName topics) = 0 := by
  induction topics with
  | nil => exact ⟨rfl, rfl, rfl, rfl⟩
  | cons t rest ih =>
      obtain ⟨h1, h2, h3, h4⟩ := ih
      unfold countEvents at h1 h3 h4 ⊢
      simp only [bindOps_cons, List.filter_cons, Event.isExchangeDeclare, Event.isQueueDeclare,
        Event.isQueueBind, Event.isConsume, Bool.false_eq_true, if_false, if_true,
        List.length_cons, h1, h2, h3, h4, and_self]

/-- Counts of the operations of the setup of a list of queues. -/
theorem queuesOps_counts (consumers : GoRabbitConsumerMessages) (queues : List String) :
    ∀ answers : List (String × Nat), answers.length = queues.length →
      countEvents Event.isExchangeDeclare (queuesOps consumers queues answers) = 0 ∧
      (queuesOps consumers queues answers).filter Event.isQueueDeclare
        = queues.map (fun q => Event.queueDeclare q true false false false) ∧
      countEvents Event.isQueueBind (queuesOps consumers queues answers)
        = topicCount consumers queues ∧
      countEvents Event.isConsume (queuesOps consumers queues answers) = queues.length := by
  induction queues with
  | nil =>
      intro answers _
      cases answers <;> exact ⟨rfl, rfl, rfl, rfl⟩
  | cons queue rest ih =>
      intro answers hlen
      cases answers with
      | nil => simp at hlen
      | cons a answers =>
          obtain ⟨qName, messages⟩ := a
          obtain ⟨h1, h2, h3, h4⟩ := ih answers (by simpa using hlen)
          obtain ⟨b1, b2, b3, b4⟩ := bindOps_counts qName (topicsOf consumers queue)
          unfold countEvents at h1 h3 h4 b1 b3 b4 ⊢
          simp only [queuesOps, queueOps, List.filter_append, List.length_append, h1, h2, h3,
            h4, b1, b2, b3, b4, topicCount, List.map_cons]
          simp [Event.isExchangeDeclare, Event.isQueueDeclare, Event.isQueueBind,
            Event.isConsume]
          omega

theorem filter_filter_of_imp (p q : Event → Bool) (h : ∀ e, p e = true → q e = true)
    (l : List Event) : (l.filter q).filter p = l.filter p := by
  rw [List.filter_filter]
  apply List.filter_congr
  intro e _
  cases hp : p e
  · simp
  · simp [h e hp]

/-- C18: a run of `Listen` whose setup succeeds consists, log lines aside, of exactly the
declaration of the durable topic exchange followed, for every queue of the table, by one
durable declaration of the queue, one binding of the declared queue to the exchange per
topic registered under it with the topic as routing key, the opening of one consumption
stream and the start of one dispatch loop. So there is one exchange declaration, one
declaration per queue, as many bindings as registered topics, one stream and one loop per
queue. -/
theorem C18_listen_setup {σ : Type} (r : rbt) (ch : Channel σ)
    (consumers : GoRabbitConsumerMessages) (s : σ)
    (hsetup : (r.Listen ch consumers s).trace.any Event.isFatal = false) :
    (∃ answers : List (String × Nat), answers.length = consumers.length ∧
      (r.Listen ch consumers s).trace.filter Event.isOp = setupOps consumers answers) ∧
    countEvents Event.isExchangeDeclare (r.Listen ch consumers s).trace = 1 ∧
    (r.Listen ch consumers s).trace.filter Event.isQueueDeclare
      = (consumers.map Prod.fst).map (fun q => Event.queueDeclare q true false false false) ∧
    countEvents Event.isQueueBind (r.Listen ch consumers s).trace
      = topicCount consumers (consumers.map Prod.fst) ∧
    countEvents Event.isConsume (r.Listen ch consumers s).trace = consumers.length ∧
    (spawned (r.Listen ch consumers s).trace).map Loop.queue = consumers.map Prod.fst := by
  have hret := Listen_returned_of_no_fatal r ch consumers s hsetup
  obtain ⟨answers, hlen, hops⟩ := Listen_ops r ch consumers s hret
  obtain ⟨h1, h2, h3, h4⟩ := queuesOps_counts consumers (consumers.map Prod.fst) answers
    (by simpa using hlen)
  refine ⟨⟨answers, hlen, hops⟩, ?_, ?_, ?_, ?_, Listen_spawned r ch consumers s hret⟩
  · rw [← countEvents_filter_of_imp Event.isExchangeDeclare Event.isOp
      (by intro e he; cases e <;> simp_all [Event.isExchangeDeclare, Event.isOp]), hops]
    unfold countEvents at h1 ⊢
    simp only [setupOps, List.filter_cons, Event.isExchangeDeclare, if_true, List.length_cons,
      h1]
  · rw [← filter_filter_of_imp Event.isQueueDeclare Event.isOp
      (by intro e he; cases e <;> simp_all [Event.isQueueDeclare, Event.isOp]), hops]
    simp only [setupOps, List.filter_cons, Event.isQueueDeclare, Bool.false_eq_true, if_false,
      h2]
  · rw [← countEvents_filter_of_imp Event.isQueueBind Event.isOp
      (by intro e he; cases e <;> simp_all [Event.isQueueBind, Event.isOp]), hops]
    unfold countEvents at h3 ⊢
    simp only [setupOps, List.filter_cons, Event.isQueueBind, Bool.false_eq_true, if_false, h3]
  · rw [← countEvents_filter_of_imp Event.isConsume Event.isOp
      (by intro e he; cases e <;> simp_all [Event.isConsume, Event.isOp]), hops]
    unfold countEvents at h4 ⊢
    simp only [setupOps, List.filter_cons, Event.isConsume, Bool.false_eq_true, if_false, h4,
      List.length_map]

/-- Worked instance of C18: the two-queue table on a broker that accepts every call. -/
theorem C18_listen_setup_witness :
    (∃ answers : List (String × Nat), answers.length = Demo.table.length ∧
      (Demo.plainClient.Listen Demo.acceptAll Demo.table 0).trace.filter Event.isOp
        = setupOps Demo.table answers) ∧
    countEvents Event.isExchangeDeclare
      (Demo.plainClient.Listen Demo.acceptAll Demo.table 0).trace = 1 ∧
    (Demo.plainClient.Listen Demo.acceptAll Demo.table 0).trace.filter Event.isQueueDeclare
      = (Demo.table.map Prod.fst).map (fun q => Event.queueDeclare q true false false false) ∧
    countEvents Event.isQueueBind (Demo.plainClient.Listen Demo.acceptAll Demo.table 0).trace
      = topicCount Demo.table (Demo.table.map Prod.fst) ∧
    countEvents Event.isConsume (Demo.plainClient.Listen Demo.acceptAll Demo.table 0).trace
      = Demo.table.length ∧
    (spawned (Demo.plainClient.Listen Demo.acceptAll Demo.table 0).trace).map Loop.queue
      = Demo.table.map Prod.fst :=
  C18_listen_setup Demo.plainClient Demo.acceptAll Demo.table 0 (by decide)

end gorabbit

namespace gorabbit

open GoStd

/-! ### A setup that fails -/

theorem mem_spawned (trace : List Event) (queue : String) (messages : Nat) :
    Event.spawn queue messages ∈ trace ↔
      ({ queue := queue, messages := messages } : Loop) ∈ spawned trace := by
  induction trace with
  | nil => simp [spawned]
  | cons e trace ih => cases e <;> simp [spawned, ih]

/-- A binding loop that ends the process stops right after the failed binding. -/
theorem bindTopics_exited {σ : Type} (ch : Channel σ) (qName : String)
    (topics : List (String × GoRabbitConsumer)) :
    ∀ s, (bindTopics ch qName topics s).outcome = .exited →
      ∃ before topic msg,
        (bindTopics ch qName topics s).trace
          = before ++ [Event.queueBind qName topic "exchange" false, Event.logFatal msg] ∧
        topic ∈ topics.map Prod.fst := by
  induction topics with
  | nil => intro s h; simp [bindTopics] at h
  | cons t rest ih =>
      intro s
      obtain ⟨topic0, c⟩ := t
      unfold bindTopics
      cases hb : ch.QueueBind s qName topic0 "exchange" false with
      | mk res s1 =>
          cases res with
          | some e =>
              intro _
              exact ⟨[], topic0, _, rfl, by simp⟩
          | none =>
              intro h
              obtain ⟨before, topic, msg, htr, hmem⟩ := ih s1 h
              refine ⟨[Event.queueBind qName topic0 "exchange" false,
                Event.logQueueBinded qName topic0] ++ before, topic, msg, ?_, ?_⟩
              · simp only [htr]
                simp
              · simp [hmem]

/-- A loop over the queues that ends the process stops right after the failed operation,
which belongs to the setup of the first queue for which no dispatch loop was started. -/
theorem listenQueues_exited {σ : Type} (ch : Channel σ)
    (consumers : GoRabbitConsumerMessages) (queues : List String) :
    ∀ s, (listenQueues ch consumers queues s).outcome = .exited →
      ∃ before op msg done q rest,
        (listenQueues ch consumers queues s).trace = before ++ [op, Event.logFatal msg] ∧
        op.isBrokerCall = true ∧ queues = done ++ q :: rest ∧
        (spawned (listenQueues ch consumers queues s).trace).map Loop.queue = done ∧
        setupOpOf consumers q op := by
  induction queues with
  | nil => intro s h; simp [listenQueues] at h
  | cons queue rest ih =>
      intro s
      unfold listenQueues
      cases hd : ch.QueueDeclare s queue true false false false with
      | mk res s1 =>
          cases res with
          | error e =>
              intro _
              exact ⟨[], Event.queueDeclare queue true false false false, _, [], queue, rest,
                rfl, rfl, rfl, rfl, Or.inl rfl⟩
          | ok qName =>
              simp only
              cases hbo : (bindTopics ch qName (topicsOf consumers queue) s1).outcome with
              | exited =>
                  intro _
                  obtain ⟨before, topic, msg, htr, hmem⟩ :=
                    bindTopics_exited ch qName (topicsOf consumers queue) s1 hbo
                  have hsp := bindTopics_spawned ch qName (topicsOf consumers queue) s1
                  refine ⟨[Event.queueDeclare queue true false false false,
                    Event.logQueueDeclared qName] ++ before,
                    Event.queueBind qName topic "exchange" false, msg, [], queue, rest, ?_,
                    rfl, rfl, ?_, Or.inr (Or.inl ⟨qName, topic, hmem, rfl⟩)⟩
                  · simp only [htr]
                    simp
                  · simp only [spawned_append, hsp]
                    rfl
              | returned =>
                  simp only
                  have hsp := bindTopics_spawned ch qName (topicsOf consumers queue) s1
                  cases hc : ch.Consume (bindTopics ch qName (topicsOf consumers queue) s1).broker
                      qName "" true false false false with
                  | mk res2 s2 =>
                      cases res2 with
                      | error e =>
                          intro _
                          refine ⟨[Event.queueDeclare queue true false false false,
                            Event.logQueueDeclared qName] ++
                            (bindTopics ch qName (topicsOf consumers queue) s1).trace,
                            Event.consume qName "" true false false false, _, [], queue, rest,
                            rfl, rfl, rfl, ?_, Or.inr (Or.inr ⟨qName, rfl⟩)⟩
                          simp only [spawned_append, hsp]
                          rfl
                      | ok messages =>
                          intro h
                          obtain ⟨before, op, msg, done, q, rest2, htr, hop, hq, hspn, hof⟩ :=
                            ih s2 h
                          refine ⟨[Event.queueDeclare queue true false false false,
                            Event.logQueueDeclared qName] ++
                            (bindTopics ch qName (topicsOf consumers queue) s1).trace ++
                            [Event.consume qName "" true false false false,
                             Event.spawn queue messages, Event.logQueueStarted queue] ++ before,
                            op, msg, queue :: done, q, rest2, ?_, hop, ?_, ?_, hof⟩
                          · simp only [htr]
                            simp
                          · simp [hq]
                          · have h1 : spawned [Event.queueDeclare queue true false false false,
                                Event.logQueueDeclared qName] = [] := rfl
                            have h2 : spawned [Event.consume qName "" true false false false,
                                Event.spawn queue messages, Event.logQueueStarted queue]
                                = [{ queue := queue, messages := messages }] := rfl
                            simp only [spawned_append, h1, h2, hsp, List.nil_append,
                              List.map_append, List.map_cons, List.map_nil,
                              List.singleton_append, hspn]

/-- C19: when an operation of the setup fails, the run of `Listen` ends the process right
after the failed call of the broker and its fatal log line: nothing follows them in the
trace. Dispatch loops have been started only for the queues that come before the queue
whose setup failed (for none when the exchange declaration failed): with distinct queue
names no loop is started for that queue or for any later queue of the table. -/
theorem C19_listen_abort {σ : Type} (r : rbt) (ch : Channel σ)
    (consumers : GoRabbitConsumerMessages) (s : σ)
    (hfail : (r.Listen ch consumers s).outcome = .exited) :
    ∃ before op msg done pending,
      (r.Listen ch consumers s).trace = before ++ [op, Event.logFatal msg] ∧
      op.isBrokerCall = true ∧
      consumers.map Prod.fst = done ++ pending ∧
      (spawned (r.Listen ch consumers s).trace).map Loop.queue = done ∧
      ((op = Event.exchangeDeclare "exchange" "topic" true false false false ∧ done = []) ∨
        (∃ q rest, pending = q :: rest ∧ setupOpOf consumers q op)) ∧
      ((consumers.map Prod.fst).Nodup →
        ∀ q ∈ pending, ∀ messages, Event.spawn q messages ∉ (r.Listen ch consumers s).trace) := by
  have key : ∃ before op msg done pending,
      (r.Listen ch consumers s).trace = before ++ [op, Event.logFatal msg] ∧
      op.isBrokerCall = true ∧
      consumers.map Prod.fst = done ++ pending ∧
      (spawned (r.Listen ch consumers s).trace).map Loop.queue = done ∧
      ((op = Event.exchangeDeclare "exchange" "topic" true false false false ∧ done = []) ∨
        (∃ q rest, pending = q :: rest ∧ setupOpOf consumers q op)) := by
    unfold rbt.Listen at hfail ⊢
    cases he : ch.ExchangeDeclare s "exchange" "topic" true false false false with
    | mk res s1 =>
        cases res with
        | some e =>
            exact ⟨[], Event.exchangeDeclare "exchange" "topic" true false false false, _, [],
              consumers.map Prod.fst, rfl, rfl, rfl, rfl, Or.inl ⟨rfl, rfl⟩⟩
        | none =>
            rw [he] at hfail
            simp only at hfail ⊢
            obtain ⟨before, op, msg, done, q, rest, htr, hop, hq, hspn, hof⟩ :=
              listenQueues_exited ch consumers _ s1 hfail
            refine ⟨Event.exchangeDeclare "exchange" "topic" true false false false :: before,
              op, msg, done, q :: rest, ?_, hop, hq, ?_, Or.inr ⟨q, rest, rfl, hof⟩⟩
            · simp only [htr]
              simp
            · simp only [spawned]
              exact hspn
  obtain ⟨before, op, msg, done, pending, htr, hop, hq, hspn, hcase⟩ := key
  refine ⟨before, op, msg, done, pending, htr, hop, hq, hspn, hcase, ?_⟩
  intro hnodup q hqp messages hmem
  have h1 : ({ queue := q, messages := messages } : Loop)
      ∈ spawned (r.Listen ch consumers s).trace :=
    (mem_spawned _ q messages).mp hmem
  have h2 : q ∈ (spawned (r.Listen ch consumers s).trace).map Loop.queue :=
    List.mem_map.mpr ⟨_, h1, rfl⟩
  rw [hspn] at h2
  rw [hq] at hnodup
  exact (List.disjoint_of_nodup_append hnodup) h2 hqp

/-- Worked instance of C19: on the two-queue table the broker refuses the binding of
"orders" under "orders.failed". -/
theorem C19_listen_abort_witness :
    ∃ before op msg done pending,
      (Demo.plainClient.Listen Demo.rejectBind Demo.table 0).trace
        = before ++ [op, Event.logFatal msg] ∧
      op.isBrokerCall = true ∧
      Demo.table.map Prod.fst = done ++ pending ∧
      (spawned (Demo.plainClient.Listen Demo.rejectBind Demo.table 0).trace).map Loop.queue
        = done ∧
      ((op = Event.exchangeDeclare "exchange" "topic" true false false false ∧ done = []) ∨
        (∃ q rest, pending = q :: rest ∧ setupOpOf Demo.table q op)) ∧
      ((Demo.table.map Prod.fst).Nodup →
        ∀ q ∈ pending, ∀ messages,
          Event.spawn q messages ∉ (Demo.plainClient.Listen Demo.rejectBind Demo.table 0).trace) :=
  C19_listen_abort Demo.plainClient Demo.rejectBind Demo.table 0 (by decide)

end gorabbit

namespace gorabbit

open GoStd

/-! ### Closing the client -/

/-- The close calls of one invocation of `Close`: one on the channel when the client holds
one, then one on the connection when the client holds one, whatever the library returns. -/
theorem Close_calls (r : rbt) (chErr connErr : Option String) :
    (r.Close chErr connErr).trace.filter CloseEvent.isCloseCall
      = r.ach.toList.map CloseEvent.channelClose
          ++ r.acn.toList.map CloseEvent.connectionClose := by
  unfold rbt.Close
  cases r.ach <;> cases r.acn <;> cases chErr <;> cases connErr <;> rfl

/-- C20, refuted as stated: on a client that holds a channel and a connection, the second
call of `Close` calls `Close` on the channel and on the connection again (the library
answers the repeated close of the connection with an error, which the method logs), so two
calls in a row close each of them twice and the trace of two calls is not the trace of
one. -/
theorem C20_counterexample :
    ((Demo.plainClient.Close none none).client.Close none
        (some "channel/connection is not open")).trace
      = [CloseEvent.channelClose 1, CloseEvent.logChannelClosed,
         CloseEvent.connectionClose 1,
         CloseEvent.logConnectionCloseError "channel/connection is not open"] ∧
    (closeTwice Demo.plainClient none none none
        (some "channel/connection is not open")).trace.filter CloseEvent.isCloseCall
      = [CloseEvent.channelClose 1, CloseEvent.connectionClose 1,
         CloseEvent.channelClose 1, CloseEvent.connectionClose 1] ∧
    (closeTwice Demo.plainClient none none none
        (some "channel/connection is not open")).trace
      ≠ (Demo.plainClient.Close none none).trace := by
  decide

/-- C20, amended: `Close` changes no state of the client, after one call and after two; and
because it keeps the channel and the connection it holds, every call issues the same close
calls, one on the channel and one on the connection it holds, so two calls in a row issue
each of them twice. Two calls issue no more close calls than one only on a client that
holds neither a channel nor a connection. -/
theorem C20_close_repeats (r : rbt) (chErr1 connErr1 chErr2 connErr2 : Option String) :
    (r.Close chErr1 connErr1).client = r ∧
    (closeTwice r chErr1 connErr1 chErr2 connErr2).client = r ∧
    (closeTwice r chErr1 connErr1 chErr2 connErr2).trace
      = (r.Close chErr1 connErr1).trace ++ (r.Close chErr2 connErr2).trace ∧
    (r.Close chErr2 connErr2).trace.filter CloseEvent.isCloseCall
      = r.ach.toList.map CloseEvent.channelClose
          ++ r.acn.toList.map CloseEvent.connectionClose ∧
    (closeTwice r chErr1 connErr1 chErr2 connErr2).trace.filter CloseEvent.isCloseCall
      = (r.ach.toList.map CloseEvent.channelClose
          ++ r.acn.toList.map CloseEvent.connectionClose)
        ++ (r.ach.toList.map CloseEvent.channelClose
          ++ r.acn.toList.map CloseEvent.connectionClose) ∧
    ((closeTwice r chErr1 connErr1 chErr2 connErr2).trace.filter CloseEvent.isCloseCall
        = (r.Close chErr1 connErr1).trace.filter CloseEvent.isCloseCall
      ↔ r.ach = none ∧ r.acn = none) := by
  have ht : (closeTwice r chErr1 connErr1 chErr2 connErr2).trace
      = (r.Close chErr1 connErr1).trace ++ (r.Close chErr2 connErr2).trace := rfl
  refine ⟨rfl, rfl, ht, Close_calls r chErr2 connErr2, ?_, ?_⟩
  · rw [ht, List.filter_append, Close_calls, Close_calls]
  · rw [ht, List.filter_append, Close_calls, Close_calls]
    cases r.ach <;> cases r.acn <;> simp

end gorabbit

namespace gorabbit

open GoStd

/-! ### Construction of the codec -/

theorem flatMap_length_sublist {α β : Type} (f : α → List β) {l₁ l₂ : List α}
    (h : l₁.Sublist l₂) : (l₁.flatMap f).length ≤ (l₂.flatMap f).length := by
  induction h with
  | slnil => simp
  | cons a _ ih => simp only [List.flatMap_cons, List.length_append]; omega
  | cons₂ a _ ih => simp only [List.flatMap_cons, List.length_append]; omega

/-- Trimming never makes a string longer. -/
theorem len_TrimSpace_le (s : String) : len (TrimSpace s) ≤ len s := by
  unfold len bytes TrimSpace trimRight
  apply flatMap_length_sublist
  have h1 : ((s.data.dropWhile isSpace).reverse.dropWhile isSpace).reverse.Sublist
      (s.data.dropWhile isSpace) := by
    have := (List.dropWhile_sublist isSpace
      (l := (s.data.dropWhile isSpace).reverse)).reverse
    simpa using this
  exact h1.trans (List.dropWhile_sublist isSpace)

/-- C21 as stated fails: a secret of 24 bytes that ends in a space is rejected by both
constructors, because the check is made on the trimmed secret; and a secret of 12
two-byte characters is accepted, because the check counts bytes. -/
theorem C21_counterexample :
    len "0123456789abcdefghijklm " = 24 ∧
    initCrypto (fun _ => 0) "0123456789abcdefghijklm "
      = .error "secret for encryption must be at least 24 characters long" ∧
    goencrypt.New (fun _ => 0) "0123456789abcdefghijklm "
      = .error "secret for invt_cryptography must be at least 16 characters long" ∧
    ("éééééééééééé" : String).length = 12 ∧
    (∃ c, initCrypto (fun _ => 0) "éééééééééééé" = .ok c) := by
  refine ⟨by decide, by decide, by decide, by decide, ⟨_, rfl⟩⟩

/-- C21 as amended: both constructors panic exactly when the trimmed secret has fewer than
24 bytes. Every secret of fewer than 24 bytes is among those. For every other secret they
return a codec that holds the secret as it was given, untrimmed, and the 16 bytes that
the random source delivered as initialization vector. -/
theorem C21_codec_construction (rand : Fin 16 → UInt8) (secret : String) :
    (len (TrimSpace secret) < 24 →
      initCrypto rand secret
        = .error "secret for encryption must be at least 24 characters long" ∧
      goencrypt.New rand secret
        = .error "secret for invt_cryptography must be at least 16 characters long") ∧
    (24 ≤ len (TrimSpace secret) →
      ∃ c k, initCrypto rand secret = .ok c ∧ goencrypt.New rand secret = .ok k ∧
        c.secret = secret ∧ k.secret = secret ∧ c.size = List.ofFn rand ∧
        k.size = List.ofFn rand ∧ c.size.length = 16 ∧ k.size.length = 16) ∧
    (len secret < 24 → len (TrimSpace secret) < 24) := by
  refine ⟨?_, ?_, ?_⟩
  · intro h
    simp [initCrypto, goencrypt.New, goencrypt.trimSpace, h]
  · intro h
    have h2 : ¬ len (TrimSpace secret) < 24 := by omega
    refine ⟨{ secret := secret, size := List.ofFn rand, size_len := List.length_ofFn rand },
      { secret := secret, size := List.ofFn rand, size_len := List.length_ofFn rand },
      ?_, ?_, rfl, rfl, rfl, rfl, List.length_ofFn rand, List.length_ofFn rand⟩
    · simp [initCrypto, h2]
    · simp [goencrypt.New, goencrypt.trimSpace, h2]
  · intro h
    have := len_TrimSpace_le secret
    omega

/-- Worked instance of C21 as amended: the 24-byte secret with a space on either side is
accepted and kept with its spaces. -/
theorem C21_codec_construction_witness :
    ∃ c k, initCrypto Demo.sevens " 0123456789abcdefghijklmn " = .ok c ∧
      goencrypt.New Demo.sevens " 0123456789abcdefghijklmn " = .ok k ∧
      c.secret = " 0123456789abcdefghijklmn " ∧ k.secret = " 0123456789abcdefghijklmn " ∧
      c.size = List.ofFn Demo.sevens ∧ k.size = List.ofFn Demo.sevens ∧
      c.size.length = 16 ∧ k.size.length = 16 :=
  (C21_codec_construction Demo.sevens " 0123456789abcdefghijklmn ").2.1 (by decide)

end gorabbit

namespace gorabbit

open GoStd

/-! ### Decryption of arbitrary input -/

/-- The stream produces one output byte per input byte. -/
theorem XORKeyStream_length (src : List UInt8) :
    ∀ x : cfb, (XORKeyStream x src).length = src.length := by
  induction src with
  | nil => intro x; rfl
  | cons s src ih => intro x; simp [XORKeyStream, ih]

/-- With a secret that the cipher accepts, `getBlock` gives the block function of the
secret. -/
theorem getBlock_of_validKey {α : Type} (deps : Deps α) (c : crypto)
    (hkey : validKey c.secret) :
    c.getBlock deps = .ok (deps.aesEncrypt (bytes c.secret)) := by
  unfold crypto.getBlock NewCipher
  unfold validKey len at hkey
  rw [if_pos hkey]

/-- C22: for a codec whose secret is a valid cipher key, `decrypt` fails exactly when the
base64 decoding of its input fails, with the error of the decoding; on every input that
decodes, it returns the CFB decryption of the decoded bytes, which has as many bytes as
they have. Nothing else about the input is checked. -/
theorem C22_decrypt_unauthenticated {α : Type} (deps : Deps α) (c : crypto)
    (message : List UInt8) (hkey : validKey c.secret) :
    (∀ e, c.decrypt deps message = .error e ↔ DecodeString message = .error e) ∧
    (∀ cText, DecodeString message = .ok cText →
      ∃ plain, c.decrypt deps message = .ok plain ∧ plain.length = cText.length ∧
        plain = XORKeyStream (NewCFBDecrypter (deps.aesEncrypt (bytes c.secret)) c.size)
          cText) := by
  have hb := getBlock_of_validKey deps c hkey
  constructor
  · intro e
    unfold crypto.decrypt
    rw [hb]
    simp only [crypto.decode]
    cases DecodeString message <;> simp
  · intro cText hd
    refine ⟨_, ?_, XORKeyStream_length cText _, rfl⟩
    unfold crypto.decrypt
    rw [hb]
    simp only [crypto.decode, hd]

/-- Worked instance of C22: the ciphertext "EkgS" of the text "x" with its last character
changed still decrypts, to three bytes. -/
theorem C22_decrypt_unauthenticated_witness :
    (∀ e, Demo.codec24.decrypt Demo.deps (bytes "EkgT") = .error e ↔
      DecodeString (bytes "EkgT") = .error e) ∧
    (∀ cText, DecodeString (bytes "EkgT") = .ok cText →
      ∃ plain, Demo.codec24.decrypt Demo.deps (bytes "EkgT") = .ok plain ∧
        plain.length = cText.length ∧
        plain = XORKeyStream
          (NewCFBDecrypter (Demo.deps.aesEncrypt (bytes Demo.codec24.secret))
            Demo.codec24.size) cText) :=
  C22_decrypt_unauthenticated Demo.deps Demo.codec24 (bytes "EkgT") (by decide)

end gorabbit

namespace gorabbit

open GoStd

/-! ### The bodies that `Publish` hands to the transport -/

theorem transportCalls_append {α : Type} (a b : List (PublishEvent α)) :
    transportCalls (a ++ b) = transportCalls a ++ transportCalls b := by
  induction a with
  | nil => rfl
  | cons e a ih => cases e <;> simp [transportCalls, ih]

theorem attemptHead_calls {α : Type} (r : rbt) (uid : String)
    (opt : GoRabbitPublisherOption α) (message : α) (idx : Int) :
    transportCalls (attemptHead r uid opt message idx) = [] := by
  unfold attemptHead
  cases r.conf.Debug <;> rfl

/-- One iteration of the loop body makes at most one call of the transport: on the exchange
"exchange", under the topic of the request, with the payload of the message as body. -/
theorem publishAttempt_calls {α : Type} (deps : Deps α) (r : rbt)
    (transport : Transport) (uid : String) (opt : GoRabbitPublisherOption α) (message : α)
    (sbInterval : Int) (st : PublishState α) :
    transportCalls (publishAttempt deps r transport uid opt message sbInterval st).trace
      = transportCalls st.trace ++
        (match payload deps r message with
          | .ok body => [("exchange", opt.Topic, false, false, publishingOf uid body)]
          | .error _ => []) := by
  cases hp : payload deps r message with
  | error e =>
      rw [publishAttempt_error deps r transport uid opt message sbInterval st e hp]
      simp only [transportCalls_append, attemptHead_calls, List.append_nil]
      cases r.withMessageEncryption <;> simp [transportCalls]
  | ok body =>
      cases ht : transport st.calls "exchange" opt.Topic false false (publishingOf uid body) with
      | some e =>
          rw [publishAttempt_fail deps r transport uid opt message sbInterval st body e hp ht]
          simp only [transportCalls_append, attemptHead_calls, List.append_nil]
          simp [transportCalls]
      | none =>
          rw [publishAttempt_success deps r transport uid opt message sbInterval st body hp ht]
          simp only [transportCalls_append, attemptHead_calls, List.append_nil]
          simp [transportCalls]

/-- The calls of the transport that the loop adds are all the same call. -/
theorem publishLoop_calls {α : Type} (deps : Deps α) (r : rbt)
    (transport : Transport) (uid : String) (opt : GoRabbitPublisherOption α) (message : α)
    (sb sbInterval : Int) (fuel : Nat) : ∀ (st : PublishState α),
    ∀ c ∈ transportCalls
        (publishLoop deps r transport uid opt message sb sbInterval fuel st).trace,
      c ∈ transportCalls st.trace ∨
        ∃ body, payload deps r message = .ok body ∧
          c = ("exchange", opt.Topic, false, false, publishingOf uid body) := by
  induction fuel with
  | zero =>
      intro st c hc
      exact Or.inl hc
  | succ k ih =>
      intro st c hc
      rw [publishLoop_succ] at hc
      have hstep : ∀ c ∈ transportCalls
          (publishAttempt deps r transport uid opt message sbInterval st).trace,
          c ∈ transportCalls st.trace ∨
            ∃ body, payload deps r message = .ok body ∧
              c = ("exchange", opt.Topic, false, false, publishingOf uid body) := by
        intro c hc
        rw [publishAttempt_calls] at hc
        rcases List.mem_append.mp hc with h | h
        · exact Or.inl h
        · cases hp : payload deps r message with
          | error e => rw [hp] at h; simp at h
          | ok body =>
              rw [hp] at h
              simp only [List.mem_singleton] at h
              exact Or.inr ⟨body, rfl, h⟩
      split at hc
      · rcases ih _ c hc with h | h
        · exact hstep c h
        · exact Or.inr h
      · exact hstep c hc

/-- When the payload of the message can be built, every iteration of the loop body makes
exactly one call of the transport, with the payload as body: the loop makes as many calls
as it makes attempts, at least one when it runs at all. -/
theorem publishLoop_calls_exact {α : Type} (deps : Deps α) (r : rbt)
    (transport : Transport) (uid : String) (opt : GoRabbitPublisherOption α) (message : α)
    (sb sbInterval : Int) (body : List UInt8) (hp : payload deps r message = .ok body)
    (fuel : Nat) : ∀ (st : PublishState α),
    ∃ n, (fuel ≠ 0 → 1 ≤ n) ∧
      countEvents PublishEvent.isAttempt
          (publishLoop deps r transport uid opt message sb sbInterval fuel st).trace
        = countEvents PublishEvent.isAttempt st.trace + n ∧
      transportCalls (publishLoop deps r transport uid opt message sb sbInterval fuel st).trace
        = transportCalls st.trace ++
            List.replicate n ("exchange", opt.Topic, false, false, publishingOf uid body) := by
  induction fuel with
  | zero =>
      intro st
      exact ⟨0, fun h => absurd rfl h, rfl, by simp [publishLoop]⟩
  | succ k ih =>
      intro st
      have hcalls := publishAttempt_calls deps r transport uid opt message sbInterval st
      rw [hp] at hcalls
      simp only at hcalls
      have hatt := publishAttempt_attempts deps r transport uid opt message sbInterval st
      rw [publishLoop_succ]
      split
      · obtain ⟨n, _, h2, h3⟩ :=
          ih (publishAttempt deps r transport uid opt message sbInterval st)
        refine ⟨n + 1, fun _ => by omega, ?_, ?_⟩
        · rw [h2, hatt]
          omega
        · rw [h3, hcalls, List.append_assoc, List.replicate_succ]
          rfl
      · exact ⟨1, fun _ => by omega, hatt, by rw [hcalls]; rfl⟩

/-- C23: when the message encryption of the client is disabled, every call of the
transport that a call of `Publish` makes is a publication on the exchange "exchange" with
the topic of the request as routing key, and the body of its message is the JSON
serialization of the message of the request: this holds for the list of the transport
calls of the trace and, put differently, for every transport event of the trace; and for
a valid request whose message serializes there are such calls, one for every attempt and at
least one. The last part states the same for every client, whatever its setting, with the
body that the setting selects: the `encrypt` of the message when the encryption is
enabled, as it is in the clients that `New` returns. -/
theorem C23_plain_body {α : Type} (deps : Deps α) (r : rbt) (transport : Transport)
    (uid : String) (opt : GoRabbitPublisherOption α) :
    (r.withMessageEncryption = false →
      (∀ c ∈ transportCalls (r.Publish deps transport uid opt).trace,
        ∃ message body, opt.Message = some message ∧ deps.jsonMarshal message = .ok body ∧
          c = ("exchange", opt.Topic, false, false, publishingOf uid body)) ∧
      (∀ exchange key mandatory immediate msg,
        PublishEvent.publishWithContext exchange key mandatory immediate msg
          ∈ (r.Publish deps transport uid opt).trace →
        exchange = "exchange" ∧ key = opt.Topic ∧
        ∃ message, opt.Message = some message ∧ deps.jsonMarshal message = .ok msg.Body) ∧
      (∀ message body, blank opt.Topic = false → opt.Message = some message →
        deps.jsonMarshal message = .ok body →
        1 ≤ countEvents PublishEvent.isAttempt (r.Publish deps transport uid opt).trace ∧
        transportCalls (r.Publish deps transport uid opt).trace
          = List.replicate
              (countEvents PublishEvent.isAttempt (r.Publish deps transport uid opt).trace)
              ("exchange", opt.Topic, false, false, publishingOf uid body))) ∧
    (∀ message body, blank opt.Topic = false → opt.Message = some message →
      (if r.withMessageEncryption then r.cr.encrypt deps message
        else deps.jsonMarshal message) = .ok body →
      1 ≤ countEvents PublishEvent.isAttempt (r.Publish deps transport uid opt).trace ∧
      transportCalls (r.Publish deps transport uid opt).trace
        = List.replicate
            (countEvents PublishEvent.isAttempt (r.Publish deps transport uid opt).trace)
            ("exchange", opt.Topic, false, false, publishingOf uid body)) := by
  have hmem : ∀ (trace : List (PublishEvent α)) exchange key mandatory immediate msg,
      PublishEvent.publishWithContext exchange key mandatory immediate msg ∈ trace →
      (exchange, key, mandatory, immediate, msg) ∈ transportCalls trace := by
    intro trace
    induction trace with
    | nil => intro _ _ _ _ _ h; simp at h
    | cons e trace ih =>
        intro exchange key mandatory immediate msg h
        rcases List.mem_cons.mp h with h | h
        · subst h; simp [transportCalls]
        · have := ih exchange key mandatory immediate msg h
          cases e <;> simp [transportCalls, this]
  have key : r.withMessageEncryption = false →
      ∀ c ∈ transportCalls (r.Publish deps transport uid opt).trace,
      ∃ message body, opt.Message = some message ∧ deps.jsonMarshal message = .ok body ∧
        c = ("exchange", opt.Topic, false, false, publishingOf uid body) := by
    intro hplain c hc
    unfold rbt.Publish at hc
    split at hc
    · simp [transportCalls] at hc
    · cases hm : opt.Message with
      | none => rw [hm] at hc; simp [transportCalls] at hc
      | some message =>
          rw [hm] at hc
          simp only [transportCalls_append] at hc
          rcases List.mem_append.mp hc with h1 | h1
          · rcases publishLoop_calls deps r transport uid opt message _ _ _ _ _ h1 with h2 | h2
            · simp [transportCalls] at h2
            · obtain ⟨body, hp, hc2⟩ := h2
              refine ⟨message, body, rfl, ?_, hc2⟩
              unfold payload at hp
              rw [hplain] at hp
              simpa only [Bool.false_eq_true, if_false, crypto.toBytes] using hp
          · split at h1 <;> simp [transportCalls] at h1
  have exact : ∀ message body, blank opt.Topic = false → opt.Message = some message →
      (if r.withMessageEncryption then r.cr.encrypt deps message
        else deps.jsonMarshal message) = .ok body →
      1 ≤ countEvents PublishEvent.isAttempt (r.Publish deps transport uid opt).trace ∧
      transportCalls (r.Publish deps transport uid opt).trace
        = List.replicate
            (countEvents PublishEvent.isAttempt (r.Publish deps transport uid opt).trace)
            ("exchange", opt.Topic, false, false, publishingOf uid body) := by
    intro message body ht hm hp
    have hp2 : payload deps r message = .ok body := hp
    have hsb : (attemptBound opt.Retries).toNat ≠ 0 := by
      have : (1 : Int) ≤ attemptBound opt.Retries := by
        rw [attemptBound_eq_max]; omega
      omega
    obtain ⟨n, h1, h2, h3⟩ := publishLoop_calls_exact deps r transport uid opt message
      (attemptBound opt.Retries) (retryInterval opt.RetryDelay) body hp2
      (attemptBound opt.Retries).toNat
      { idxProcess := 0, success := false, err := none, calls := 0,
        trace := [PublishEvent.logPublishing] }
    have hfin : transportCalls ([finalLog uid (attemptBound opt.Retries)
        (publishRun deps r transport uid opt message)] : List (PublishEvent α)) = [] := by
      unfold finalLog
      split <;> rfl
    have hcount : countEvents PublishEvent.isAttempt (r.Publish deps transport uid opt).trace
        = n := by
      have hf : countEvents PublishEvent.isAttempt
          ([finalLog uid (attemptBound opt.Retries)
            (publishRun deps r transport uid opt message)] : List (PublishEvent α)) = 0 := by
        simp [countEvents, (finalLog_not_attempt uid _ _).1]
      have h0 : countEvents PublishEvent.isAttempt
          ([PublishEvent.logPublishing] : List (PublishEvent α)) = 0 := by
        simp [countEvents, PublishEvent.isAttempt]
      rw [Publish_valid deps r transport uid opt message ht hm]
      simp only [countEvents_append, hf]
      unfold publishRun
      rw [h2]
      simp only [h0]
      omega
    rw [hcount]
    refine ⟨h1 hsb, ?_⟩
    rw [Publish_valid deps r transport uid opt message ht hm]
    simp only [transportCalls_append, hfin, List.append_nil]
    unfold publishRun
    rw [h3]
    simp [transportCalls]
  refine ⟨?_, exact⟩
  intro hplain
  refine ⟨key hplain, ?_, ?_⟩
  · intro exchange key2 mandatory immediate msg h
    obtain ⟨message, body, hm, hj, hc⟩ := key hplain _ (hmem _ _ _ _ _ _ h)
    simp only [Prod.mk.injEq] at hc
    obtain ⟨he, hk, _, _, hmsg⟩ := hc
    refine ⟨he, hk, message, hm, ?_⟩
    rw [hj, hmsg]
    rfl
  · intro message body ht hm hj
    apply exact message body ht hm
    rw [hplain]
    simpa using hj

/-- Worked instance of C23. A client with the encryption disabled publishes the text "x";
the transport rejects the first call and accepts the second: both calls carry the JSON
text of the message. A client as `New` returns it, with the encryption enabled, does the
same with the text that `encrypt` gives. -/
theorem C23_plain_body_witness :
    transportCalls (Demo.plainClient.Publish Demo.deps Demo.rejectFirst "id-1"
        (Demo.request "orders.created" (some (Demo.Value.text "x")) 3 10)).trace
      = List.replicate
          (countEvents PublishEvent.isAttempt
            (Demo.plainClient.Publish Demo.deps Demo.rejectFirst "id-1"
              (Demo.request "orders.created" (some (Demo.Value.text "x")) 3 10)).trace)
          ("exchange", "orders.created", false, false, publishingOf "id-1" (bytes "\"x\"")) ∧
    countEvents PublishEvent.isAttempt
        (Demo.plainClient.Publish Demo.deps Demo.rejectFirst "id-1"
          (Demo.request "orders.created" (some (Demo.Value.text "x")) 3 10)).trace = 2 ∧
    transportCalls (Demo.cipherClient.Publish Demo.deps Demo.rejectFirst "id-1"
        (Demo.request "orders.created" (some (Demo.Value.text "x")) 3 10)).trace
      = List.replicate
          (countEvents PublishEvent.isAttempt
            (Demo.cipherClient.Publish Demo.deps Demo.rejectFirst "id-1"
              (Demo.request "orders.created" (some (Demo.Value.text "x")) 3 10)).trace)
          ("exchange", "orders.created", false, false, publishingOf "id-1" (bytes "EkgS")) ∧
    New (.ok 1) (fun _ => .ok 1) (fun i => UInt8.ofNat i.val) (Demo.config Demo.secret24)
      = .client Demo.cipherClient :=
  ⟨((C23_plain_body Demo.deps Demo.plainClient Demo.rejectFirst "id-1"
      (Demo.request "orders.created" (some (Demo.Value.text "x")) 3 10)).1 rfl).2.2
      (Demo.Value.text "x") (bytes "\"x\"") (by decide) rfl rfl |>.2,
   by decide,
   (C23_plain_body Demo.deps Demo.cipherClient Demo.rejectFirst "id-1"
      (Demo.request "orders.created" (some (Demo.Value.text "x")) 3 10)).2
      (Demo.Value.text "x") (bytes "EkgS") (by decide) rfl (by decide) |>.2,
   rfl⟩

end gorabbit

namespace gorabbit

open GoStd

/-! ### What triggers the recovery -/

/-- The processing of a delivery panics exactly when a delivery is handed over to a
registered consumer whose handler is nil or panics. -/
theorem panics_iff {α : Type} (deps : Deps α) (r : rbt)
    (consumers : GoRabbitConsumerMessages) (queue : String) (msg : Delivery) :
    panics deps r consumers queue msg = true ↔
      ∃ topic handed consumer,
        handedOver deps r consumers queue msg = some (topic, handed) ∧
        (topicsOf consumers queue).lookup msg.RoutingKey = some consumer ∧
        (consumer.Consume = none ∨
          ∃ f rc, consumer.Consume = some f ∧ f handed = .panic rc) := by
  unfold panics processDelivery handedOver dispatch
  cases hl : (topicsOf consumers queue).lookup msg.RoutingKey with
  | none => simp [hl]
  | some consumer =>
      cases henc : r.withMessageEncryption with
      | false =>
          cases hc : consumer.Consume with
          | none => simp [hl, henc, hc]
          | some f =>
              cases hf : f msg with
              | ok => simp [hl, henc, hc, hf]
              | error e => simp [hl, henc, hc, hf]
              | panic v =>
                  simp [hl, henc, hc, hf]
                  exact ⟨_, _, ⟨rfl, rfl⟩, v, hf⟩
      | true =>
          cases hd : r.cr.decrypt deps msg.Body with
          | error e => simp [hl, henc, hd]
          | ok decrypted =>
              cases hc : consumer.Consume with
              | none => simp [hl, henc, hd, hc]
              | some f =>
                  cases hf : f { msg with Body := decrypted } with
                  | ok => simp [hl, henc, hd, hc, hf]
                  | error e => simp [hl, henc, hd, hc, hf]
                  | panic v =>
                      simp [hl, henc, hd, hc, hf]
                      exact ⟨_, _, ⟨rfl, rfl⟩, v, hf⟩

/-- The loop ends with the recovery exactly when the processing of one of its deliveries
panics; it then sleeps once, and otherwise never. -/
theorem consumeMessages_recovery {α σ : Type} (deps : Deps α) (r : rbt) (ch : Channel σ)
    (consumers : GoRabbitConsumerMessages) (queue : String) (s : σ) :
    ∀ msgs : List Delivery,
      (r.consumeMessages deps ch consumers queue msgs s).outcome.isRecovered
        = msgs.any (panics deps r consumers queue) ∧
      countEvents Event.isSleep (r.consumeMessages deps ch consumers queue msgs s).trace
        = (if msgs.any (panics deps r consumers queue) then 1 else 0) ∧
      (msgs.any (panics deps r consumers queue) = false →
        (r.consumeMessages deps ch consumers queue msgs s).outcome = .streamClosed ∧
        (r.consumeMessages deps ch consumers queue msgs s).broker = s ∧
        (r.consumeMessages deps ch consumers queue msgs s).trace
          = msgs.flatMap (fun d => (processDelivery deps r consumers queue d).1)) := by
  intro msgs
  induction msgs with
  | nil => exact ⟨rfl, rfl, fun _ => ⟨rfl, rfl, rfl⟩⟩
  | cons msg rest ih =>
      obtain ⟨ih1, ih2, ih3⟩ := ih
      have hns := processDelivery_no_sleep deps r consumers queue msg
      cases hp : processDelivery deps r consumers queue msg with
      | mk t o =>
          rw [hp] at hns
          simp only at hns
          cases o with
          | next =>
              have hpan : panics deps r consumers queue msg = false := by
                unfold panics; rw [hp]
              rw [consumeMessages_cons_next deps r ch consumers queue msg rest s t hp]
              simp only [List.any_cons, hpan, Bool.false_or, countEvents_append, hns,
                Nat.zero_add, List.flatMap_cons, hp]
              refine ⟨ih1, ih2, ?_⟩
              intro h
              obtain ⟨h1, h2, h3⟩ := ih3 h
              exact ⟨h1, h2, by rw [h3]⟩
          | panic rc =>
              have hpan : panics deps r consumers queue msg = true := by
                unfold panics; rw [hp]
              rw [consumeMessages_cons_panic deps r ch consumers queue msg rest s t rc hp]
              simp only [List.any_cons, hpan, Bool.true_or, countEvents_append, hns,
                Listen_no_sleep, if_true]
              refine ⟨rfl, ?_, ?_⟩
              · simp [countEvents, Event.isSleep]
              · intro h; simp at h

/-- C24: the dispatch loop runs its recovery (the cooldown sleep and the new run of
`Listen`) exactly when the processing of one of its deliveries panics, and then once. The
processing of a delivery panics only when the delivery is handed over to a registered
consumer whose handler panics or is nil: a handler that returns an error, a body that does
not decrypt and an unregistered routing key do not make it panic. On a stream on which no
processing panics the loop ends when the stream is closed, without any sleep, with the
broker untouched and with nothing in its trace but the traces of the deliveries. -/
theorem C24_recovery_iff_panic {α σ : Type} (deps : Deps α) (r : rbt) (ch : Channel σ)
    (consumers : GoRabbitConsumerMessages) (queue : String) (msgs : List Delivery) (s : σ) :
    ((r.consumeMessages deps ch consumers queue msgs s).outcome.isRecovered
      = msgs.any (panics deps r consumers queue)) ∧
    (countEvents Event.isSleep (r.consumeMessages deps ch consumers queue msgs s).trace
      = (if msgs.any (panics deps r consumers queue) then 1 else 0)) ∧
    (msgs.any (panics deps r consumers queue) = false →
      (r.consumeMessages deps ch consumers queue msgs s).outcome = .streamClosed ∧
      (r.consumeMessages deps ch consumers queue msgs s).broker = s ∧
      (r.consumeMessages deps ch consumers queue msgs s).trace
        = msgs.flatMap (fun d => (processDelivery deps r consumers queue d).1)) ∧
    (∀ msg, panics deps r consumers queue msg = true ↔
      ∃ topic handed consumer,
        handedOver deps r consumers queue msg = some (topic, handed) ∧
        (topicsOf consumers queue).lookup msg.RoutingKey = some consumer ∧
        (consumer.Consume = none ∨
          ∃ f rc, consumer.Consume = some f ∧ f handed = .panic rc)) := by
  obtain ⟨h1, h2, h3⟩ := consumeMessages_recovery deps r ch consumers queue s msgs
  exact ⟨h1, h2, h3, panics_iff deps r consumers queue⟩

/-- Worked instance of C24: with encryption enabled the loop of "orders" on the table whose
handler returns an error receives an unregistered routing key, a body that does not
decrypt and a delivery whose handler returns an error; then its stream is closed. -/
theorem C24_recovery_iff_panic_witness :
    (Demo.cipherClient.consumeMessages Demo.deps Demo.acceptAll Demo.errorTable "orders"
        [Demo.delivery "m1" "audit.logged" (bytes "EkgS"),
         Demo.delivery "m2" "orders.created" (bytes "!"),
         Demo.delivery "m3" "orders.created" (bytes "EkgS")] 0).outcome = .streamClosed ∧
    (Demo.cipherClient.consumeMessages Demo.deps Demo.acceptAll Demo.errorTable "orders"
        [Demo.delivery "m1" "audit.logged" (bytes "EkgS"),
         Demo.delivery "m2" "orders.created" (bytes "!"),
         Demo.delivery "m3" "orders.created" (bytes "EkgS")] 0).broker = 0 ∧
    (Demo.cipherClient.consumeMessages Demo.deps Demo.acceptAll Demo.errorTable "orders"
        [Demo.delivery "m1" "audit.logged" (bytes "EkgS"),
         Demo.delivery "m2" "orders.created" (bytes "!"),
         Demo.delivery "m3" "orders.created" (bytes "EkgS")] 0).trace
      = [Demo.delivery "m1" "audit.logged" (bytes "EkgS"),
         Demo.delivery "m2" "orders.created" (bytes "!"),
         Demo.delivery "m3" "orders.created" (bytes "EkgS")].flatMap
          (fun d => (processDelivery Demo.deps Demo.cipherClient Demo.errorTable "orders" d).1) :=
  (C24_recovery_iff_panic Demo.deps Demo.cipherClient Demo.acceptAll Demo.errorTable "orders"
    [Demo.delivery "m1" "audit.logged" (bytes "EkgS"),
     Demo.delivery "m2" "orders.created" (bytes "!"),
     Demo.delivery "m3" "orders.created" (bytes "EkgS")] 0).2.2.1 (by rfl)

end gorabbit

namespace GoStd

/-! ### Reading and writing arrays -/

theorem Heap.read_write_same (h : Heap) (a : Nat) (v : List UInt8)
    (ha : a < h.arrays.length) : (h.write a v).read a = v := by
  simp [Heap.read, Heap.write, List.getD_eq_getElem?_getD, List.getElem?_set, ha]

theorem Heap.read_write_other (h : Heap) (a b : Nat) (v : List UInt8) (hab : a ≠ b) :
    (h.write a v).read b = h.read b := by
  simp [Heap.read, Heap.write, List.getD_eq_getElem?_getD, List.getElem?_set, hab]

theorem Heap.length_write (h : Heap) (a : Nat) (v : List UInt8) :
    (h.write a v).arrays.length = h.arrays.length := by
  simp [Heap.write]

theorem Heap.read_store_same (h : Heap) (a i : Nat) (b : UInt8)
    (ha : a < h.arrays.length) : (h.store a i b).read a = (h.read a).set i b :=
  Heap.read_write_same h a _ ha

theorem Heap.read_store_other (h : Heap) (a c i : Nat) (b : UInt8) (hac : a ≠ c) :
    (h.store a i b).read c = h.read c :=
  Heap.read_write_other h a c _ hac

theorem Heap.length_store (h : Heap) (a i : Nat) (b : UInt8) :
    (h.store a i b).arrays.length = h.arrays.length :=
  Heap.length_write h a _

theorem Heap.alloc_fst (h : Heap) (v : List UInt8) : (h.alloc v).1 = h.arrays.length := rfl

theorem Heap.length_alloc (h : Heap) (v : List UInt8) :
    (h.alloc v).2.arrays.length = h.arrays.length + 1 := by
  simp [Heap.alloc]

theorem Heap.read_alloc_old (h : Heap) (v : List UInt8) (a : Nat)
    (ha : a < h.arrays.length) : (h.alloc v).2.read a = h.read a := by
  simp [Heap.read, Heap.alloc, List.getD_eq_getElem?_getD, List.getElem?_append_left, ha]

theorem Heap.read_alloc_new (h : Heap) (v : List UInt8) :
    (h.alloc v).2.read h.arrays.length = v := by
  simp [Heap.read, Heap.alloc, List.getD_eq_getElem?_getD]

theorem copyBytes_same_length (dst src : List UInt8) (h : dst.length = src.length) :
    copyBytes dst src = src := by
  unfold copyBytes
  rw [h, List.take_length, ← h, List.drop_length, List.append_nil]

namespace Mem

/-! ### What `XORKeyStream` writes -/

theorem XORKeyStream_cons (h : Heap) (x : cfb) (dst i : Nat) (s : UInt8) (src : List UInt8) :
    XORKeyStream h x dst i (s :: src)
      = XORKeyStream
          (((if x.outUsed = BlockSize then h.write x.out (x.b (h.read x.next)) else h).store
              dst i
              (s ^^^ ((if x.outUsed = BlockSize then h.write x.out (x.b (h.read x.next))
                else h).read x.out).getD (if x.outUsed = BlockSize then 0 else x.outUsed) 0)).store
            x.next (if x.outUsed = BlockSize then 0 else x.outUsed)
            (if x.decrypt then s
              else s ^^^ ((if x.outUsed = BlockSize then h.write x.out (x.b (h.read x.next))
                else h).read x.out).getD (if x.outUsed = BlockSize then 0 else x.outUsed) 0))
          { x with outUsed := (if x.outUsed = BlockSize then 0 else x.outUsed) + 1 }
          dst (i + 1) src := rfl

theorem take_set_append (l : List UInt8) (d : UInt8) (rest : List UInt8) (n : Nat) :
    ∀ (i : Nat), i < l.length →
      (l.set i d).take (i + 1) ++ rest ++ (l.set i d).drop (i + 1 + n)
        = l.take i ++ d :: rest ++ l.drop (i + (n + 1)) := by
  induction l with
  | nil => intro i hi; simp at hi
  | cons a l ih =>
      intro i hi
      cases i with
      | zero =>
          simp only [List.set_cons_zero, List.take_succ_cons, List.take_zero, Nat.zero_add,
            List.cons_append, List.nil_append, List.drop_succ_cons]
          rw [Nat.add_comm 1 n, List.drop_succ_cons]
      | succ i =>
          simp only [List.length_cons, Nat.add_lt_add_iff_right] at hi
          have := ih i hi
          have e1 : i + 1 + 1 + n = (i + 1 + n) + 1 := by omega
          have e2 : i + 1 + (n + 1) = (i + (n + 1)) + 1 := by omega
          simp only [List.set_cons_succ, List.take_succ_cons, List.cons_append, e1, e2,
            List.drop_succ_cons]
          rw [this]

/-- A call of `XORKeyStream` leaves the number of arrays as it is, writes no array other
than `dst` and the two buffers of the stream, and puts into `dst`, from offset `i` on, the
bytes that the stream as a value computes from `src`. -/
theorem XORKeyStream_spec (dst : Nat) (src : List UInt8) :
    ∀ (h : Heap) (x : cfb) (i : Nat),
      dst < h.arrays.length → x.next < h.arrays.length → x.out < h.arrays.length →
      dst ≠ x.next → dst ≠ x.out → x.next ≠ x.out →
      (XORKeyStream h x dst i src).2.arrays.length = h.arrays.length ∧
      (∀ a, a ≠ dst → a ≠ x.next → a ≠ x.out →
        (XORKeyStream h x dst i src).2.read a = h.read a) ∧
      (i + src.length ≤ (h.read dst).length →
        (XORKeyStream h x dst i src).2.read dst
          = (h.read dst).take i ++ GoStd.XORKeyStream (x.value h) src ++
              (h.read dst).drop (i + src.length)) := by
  induction src with
  | nil =>
      intro h x i _ _ _ _ _ _
      refine ⟨rfl, fun _ _ _ _ => rfl, fun _ => ?_⟩
      simp [XORKeyStream, GoStd.XORKeyStream]
  | cons s src ih =>
      intro h x i hd hn ho hdn hdo hno
      rw [XORKeyStream_cons]
      obtain ⟨h1, hh1⟩ : ∃ h1 : Heap,
          h1 = (if x.outUsed = BlockSize then h.write x.out (x.b (h.read x.next)) else h) :=
        ⟨_, rfl⟩
      rw [← hh1]
      have l1 : h1.arrays.length = h.arrays.length := by
        rw [hh1]; split
        · exact Heap.length_write _ _ _
        · rfl
      have r1 : ∀ a, a ≠ x.out → h1.read a = h.read a := by
        intro a ha
        rw [hh1]; split
        · exact Heap.read_write_other _ _ _ _ (Ne.symm ha)
        · rfl
      have o1 : h1.read x.out
          = if x.outUsed = BlockSize then x.b (h.read x.next) else h.read x.out := by
        rw [hh1]; split
        · exact Heap.read_write_same _ _ _ ho
        · rfl
      obtain ⟨used, hused⟩ : ∃ used : Nat,
          used = (if x.outUsed = BlockSize then 0 else x.outUsed) := ⟨_, rfl⟩
      rw [← hused]
      obtain ⟨d, hdd⟩ : ∃ d : UInt8, d = s ^^^ (h1.read x.out).getD used 0 := ⟨_, rfl⟩
      rw [← hdd]
      obtain ⟨v, hv⟩ : ∃ v : UInt8, v = (if x.decrypt then s else d) := ⟨_, rfl⟩
      rw [← hv]
      have l2 : (h1.store dst i d).arrays.length = h.arrays.length := by
        rw [Heap.length_store, l1]
      have l3 : ((h1.store dst i d).store x.next used v).arrays.length = h.arrays.length := by
        rw [Heap.length_store, l2]
      obtain ⟨a1, a2, a3⟩ := ih ((h1.store dst i d).store x.next used v)
        { x with outUsed := used + 1 } (i + 1) (by rw [l3]; exact hd) (by rw [l3]; exact hn)
        (by rw [l3]; exact ho) hdn hdo hno
      have rd : ((h1.store dst i d).store x.next used v).read dst = (h.read dst).set i d := by
        rw [Heap.read_store_other _ _ _ _ _ (Ne.symm hdn),
          Heap.read_store_same _ _ _ _ (by rw [l1]; exact hd), r1 dst hdo]
      have rn : ((h1.store dst i d).store x.next used v).read x.next
          = (h.read x.next).set used v := by
        rw [Heap.read_store_same _ _ _ _ (by rw [l2]; exact hn),
          Heap.read_store_other _ _ _ _ _ hdn, r1 x.next hno]
      have ro : ((h1.store dst i d).store x.next used v).read x.out = h1.read x.out := by
        rw [Heap.read_store_other _ _ _ _ _ hno, Heap.read_store_other _ _ _ _ _ hdo]
      refine ⟨by rw [a1, l3], ?_, ?_⟩
      · intro a had han hao
        rw [a2 a had han hao, Heap.read_store_other _ _ _ _ _ (Ne.symm han),
          Heap.read_store_other _ _ _ _ _ (Ne.symm had), r1 a hao]
      · intro hlen
        simp only [List.length_cons] at hlen
        have hlen2 : i + 1 + src.length
            ≤ (((h1.store dst i d).store x.next used v).read dst).length := by
          rw [rd, List.length_set]; omega
        rw [a3 hlen2, rd]
        have hval : cfb.value ((h1.store dst i d).store x.next used v)
            { x with outUsed := used + 1 }
            = { x.value h with
                next := (x.value h).next.set used v,
                out := (if (x.value h).outUsed = BlockSize then (x.value h).b (x.value h).next
                        else (x.value h).out),
                outUsed := used + 1 } := by
          simp only [cfb.value, rn, ro, o1]
        have hpure : GoStd.XORKeyStream (x.value h) (s :: src)
            = d :: GoStd.XORKeyStream
                { x.value h with
                  next := (x.value h).next.set used v,
                  out := (if (x.value h).outUsed = BlockSize
                          then (x.value h).b (x.value h).next else (x.value h).out),
                  outUsed := used + 1 } src := by
          rw [GoStd.XORKeyStream]
          simp only [hdd, hv, hused, o1, cfb.value]
        rw [hval, hpure]
        exact take_set_append (h.read dst) d _ src.length i (by omega)

/-- The stream that `newCFB` returns has two new arrays as buffers; `next` holds a copy of
the bytes of `iv`; no array that was there before is written. -/
theorem newCFB_spec (h : Heap) (blk : Block) (iv : Nat) (decrypt : Bool)
    (hiv : iv < h.arrays.length) (hlen : (h.read iv).length = 16) :
    (newCFB h blk iv decrypt).2.arrays.length = h.arrays.length + 2 ∧
    (newCFB h blk iv decrypt).1.out = h.arrays.length ∧
    (newCFB h blk iv decrypt).1.next = h.arrays.length + 1 ∧
    (∀ a, a < h.arrays.length → (newCFB h blk iv decrypt).2.read a = h.read a) ∧
    (newCFB h blk iv decrypt).1.value (newCFB h blk iv decrypt).2
      = { b := blk, next := h.read iv, out := List.replicate BlockSize 0,
          outUsed := BlockSize, decrypt := decrypt } := by
  have e1 : (h.make BlockSize).1 = h.arrays.length := rfl
  have l1 : (h.make BlockSize).2.arrays.length = h.arrays.length + 1 :=
    Heap.length_alloc _ _
  have e2 : ((h.make BlockSize).2.make BlockSize).1 = h.arrays.length + 1 := l1
  have l2 : ((h.make BlockSize).2.make BlockSize).2.arrays.length = h.arrays.length + 2 := by
    rw [Heap.make, Heap.length_alloc, l1]
  have rold : ∀ a, a < h.arrays.length →
      ((h.make BlockSize).2.make BlockSize).2.read a = h.read a := by
    intro a ha
    rw [Heap.make, Heap.read_alloc_old _ _ _ (by rw [l1]; omega), Heap.make,
      Heap.read_alloc_old _ _ _ ha]
  have rnext : ((h.make BlockSize).2.make BlockSize).2.read (h.arrays.length + 1)
      = List.replicate BlockSize 0 := by
    have := Heap.read_alloc_new (h.make BlockSize).2 (List.replicate BlockSize 0)
    rw [l1] at this
    exact this
  have rout : ((h.make BlockSize).2.make BlockSize).2.read h.arrays.length
      = List.replicate BlockSize 0 := by
    rw [Heap.make, Heap.read_alloc_old _ _ _ (by rw [l1]; omega)]
    exact Heap.read_alloc_new h (List.replicate BlockSize 0)
  have hcopy : copyBytes (List.replicate BlockSize 0) (h.read iv) = h.read iv :=
    copyBytes_same_length _ _ (by rw [List.length_replicate, hlen]; rfl)
  unfold newCFB
  simp only [e2, rnext, rold iv hiv, hcopy, e1]
  refine ⟨by rw [Heap.length_write, l2], trivial, trivial, ?_, ?_⟩
  · intro a ha
    rw [Heap.read_write_other _ _ _ _ (by omega), rold a ha]
  · simp only [cfb.value]
    rw [Heap.read_write_same _ _ _ (by rw [l2]; omega),
      Heap.read_write_other _ _ _ _ (by omega), rout]

end Mem

end GoStd

namespace gorabbit

open GoStd

namespace Mem

/-! ### The initialization vector of a codec -/

/-- What the two methods share after their error checks: a stream is made from the block
and the vector, `make` gives the destination, and `XORKeyStream` fills it from the source
array. The destination then holds what the stream as a value computes from the source, and
no array that was there before the call of the method is written. -/
theorem stream_spec (h : Heap) (blk : Block) (iv src : Nat) (decrypt : Bool)
    (hiv : iv < h.arrays.length) (hsrc : src < h.arrays.length)
    (hlen : (h.read iv).length = 16) :
    (GoStd.Mem.XORKeyStream
        ((GoStd.Mem.newCFB h blk iv decrypt).2.make
          ((GoStd.Mem.newCFB h blk iv decrypt).2.read src).length).2
        (GoStd.Mem.newCFB h blk iv decrypt).1
        ((GoStd.Mem.newCFB h blk iv decrypt).2.make
          ((GoStd.Mem.newCFB h blk iv decrypt).2.read src).length).1 0
        (((GoStd.Mem.newCFB h blk iv decrypt).2.make
          ((GoStd.Mem.newCFB h blk iv decrypt).2.read src).length).2.read src)).2.read
        ((GoStd.Mem.newCFB h blk iv decrypt).2.make
          ((GoStd.Mem.newCFB h blk iv decrypt).2.read src).length).1
      = GoStd.XORKeyStream
          { b := blk, next := h.read iv, out := List.replicate BlockSize 0,
            outUsed := BlockSize, decrypt := decrypt } (h.read src) ∧
    (∀ a, a < h.arrays.length →
      (GoStd.Mem.XORKeyStream
        ((GoStd.Mem.newCFB h blk iv decrypt).2.make
          ((GoStd.Mem.newCFB h blk iv decrypt).2.read src).length).2
        (GoStd.Mem.newCFB h blk iv decrypt).1
        ((GoStd.Mem.newCFB h blk iv decrypt).2.make
          ((GoStd.Mem.newCFB h blk iv decrypt).2.read src).length).1 0
        (((GoStd.Mem.newCFB h blk iv decrypt).2.make
          ((GoStd.Mem.newCFB h blk iv decrypt).2.read src).length).2.read src)).2.read a
        = h.read a) ∧
    h.arrays.length ≤
      (GoStd.Mem.XORKeyStream
        ((GoStd.Mem.newCFB h blk iv decrypt).2.make
          ((GoStd.Mem.newCFB h blk iv decrypt).2.read src).length).2
        (GoStd.Mem.newCFB h blk iv decrypt).1
        ((GoStd.Mem.newCFB h blk iv decrypt).2.make
          ((GoStd.Mem.newCFB h blk iv decrypt).2.read src).length).1 0
        (((GoStd.Mem.newCFB h blk iv decrypt).2.make
          ((GoStd.Mem.newCFB h blk iv decrypt).2.read src).length).2.read src)).2.arrays.length := by
  have spec := GoStd.Mem.newCFB_spec h blk iv decrypt hiv hlen
  generalize GoStd.Mem.newCFB h blk iv decrypt = res at spec ⊢
  obtain ⟨x, hC⟩ := res
  simp only at spec ⊢
  obtain ⟨n1, n2, n3, n4, n5⟩ := spec
  have rsrc : hC.read src = h.read src := n4 src hsrc
  rw [rsrc]
  have m1 : (hC.make (h.read src).length).1 = h.arrays.length + 2 := by
    rw [Heap.make, Heap.alloc_fst, n1]
  have ml : (hC.make (h.read src).length).2.arrays.length = h.arrays.length + 3 := by
    rw [Heap.make, Heap.length_alloc, n1]
  have mold : ∀ a, a < h.arrays.length + 2 →
      (hC.make (h.read src).length).2.read a = hC.read a := by
    intro a ha
    rw [Heap.make, Heap.read_alloc_old _ _ _ (by rw [n1]; exact ha)]
  have mnew : (hC.make (h.read src).length).2.read (h.arrays.length + 2)
      = List.replicate (h.read src).length 0 := by
    have := Heap.read_alloc_new hC (List.replicate (h.read src).length 0)
    rw [n1] at this
    exact this
  rw [m1, mold src (by omega), rsrc]
  obtain ⟨a1, a2, a3⟩ := GoStd.Mem.XORKeyStream_spec (h.arrays.length + 2) (h.read src)
    (hC.make (h.read src).length).2 x 0 (by rw [ml]; omega) (by rw [ml, n3]; omega)
    (by rw [ml, n2]; omega) (by rw [n3]; omega) (by rw [n2]; omega) (by rw [n2, n3]; omega)
  have hval : x.value (hC.make (h.read src).length).2 = x.value hC := by
    simp only [GoStd.Mem.cfb.value, n2, n3]
    rw [mold _ (by omega), mold _ (by omega)]
  refine ⟨?_, ?_, ?_⟩
  · rw [a3 (by rw [mnew, List.length_replicate]; omega), mnew, hval, n5]
    simp
  · intro a ha
    rw [a2 a (by omega) (by rw [n3]; omega) (by rw [n2]; omega), mold a (by omega), n4 a ha]
  · rw [a1, ml]
    omega

/-- A call of `encrypt` returns what `encrypt` computes from the secret and the contents of
the vector, and writes no array that was there before the call. -/
theorem encrypt_spec {α : Type} (deps : Deps α) (c : crypto) (h : Heap) (x : α)
    (hc : c.size < h.arrays.length) (hlen : (h.read c.size).length = 16) :
    (c.encrypt deps h x).1 = (c.value h hlen).encrypt deps x ∧
    (∀ a, a < h.arrays.length → (c.encrypt deps h x).2.read a = h.read a) ∧
    h.arrays.length ≤ (c.encrypt deps h x).2.arrays.length := by
  unfold crypto.encrypt gorabbit.crypto.encrypt gorabbit.crypto.toBytes
    gorabbit.crypto.getBlock gorabbit.crypto.encode crypto.value
  cases hj : deps.jsonMarshal x with
  | error e => exact ⟨rfl, fun _ _ => rfl, Nat.le_refl _⟩
  | ok serialized =>
      simp only
      have lb : (h.alloc serialized).2.arrays.length = h.arrays.length + 1 :=
        Heap.length_alloc _ _
      have rb : ∀ a, a < h.arrays.length → (h.alloc serialized).2.read a = h.read a :=
        fun a ha => Heap.read_alloc_old _ _ _ ha
      cases hk : NewCipher deps.aesEncrypt (bytes c.secret) with
      | error e =>
          exact ⟨rfl, rb, by rw [lb]; omega⟩
      | ok blk =>
          simp only
          obtain ⟨s1, s2, s3⟩ := stream_spec (h.alloc serialized).2 blk c.size
            (h.alloc serialized).1 false (by rw [lb]; omega)
            (by rw [lb, Heap.alloc_fst]; omega) (by rw [rb _ hc]; exact hlen)
          refine ⟨?_, ?_, ?_⟩
          · unfold GoStd.Mem.NewCFBEncrypter
            rw [s1, rb _ hc, Heap.alloc_fst, Heap.read_alloc_new]
            rfl
          · intro a ha
            unfold GoStd.Mem.NewCFBEncrypter
            rw [s2 a (by rw [lb]; omega), rb a ha]
          · unfold GoStd.Mem.NewCFBEncrypter
            rw [lb] at s3
            omega

/-- A call of `decrypt` returns what `decrypt` computes from the secret and the contents of
the vector, and writes no array that was there before the call. -/
theorem decrypt_spec {α : Type} (deps : Deps α) (c : crypto) (h : Heap)
    (message : List UInt8) (hc : c.size < h.arrays.length)
    (hlen : (h.read c.size).length = 16) :
    (c.decrypt deps h message).1 = (c.value h hlen).decrypt deps message ∧
    (∀ a, a < h.arrays.length → (c.decrypt deps h message).2.read a = h.read a) ∧
    h.arrays.length ≤ (c.decrypt deps h message).2.arrays.length := by
  unfold crypto.decrypt gorabbit.crypto.decrypt gorabbit.crypto.getBlock
    gorabbit.crypto.decode crypto.value
  cases hk : NewCipher deps.aesEncrypt (bytes c.secret) with
  | error e => exact ⟨rfl, fun _ _ => rfl, Nat.le_refl _⟩
  | ok blk =>
      simp only
      cases hd : DecodeString message with
      | error e => exact ⟨rfl, fun _ _ => rfl, Nat.le_refl _⟩
      | ok decoded =>
          simp only
          have lb : (h.alloc decoded).2.arrays.length = h.arrays.length + 1 :=
            Heap.length_alloc _ _
          have rb : ∀ a, a < h.arrays.length → (h.alloc decoded).2.read a = h.read a :=
            fun a ha => Heap.read_alloc_old _ _ _ ha
          obtain ⟨s1, s2, s3⟩ := stream_spec (h.alloc decoded).2 blk c.size
            (h.alloc decoded).1 true (by rw [lb]; omega)
            (by rw [lb, Heap.alloc_fst]; omega) (by rw [rb _ hc]; exact hlen)
          refine ⟨?_, ?_, ?_⟩
          · unfold GoStd.Mem.NewCFBDecrypter
            rw [s1, rb _ hc, Heap.alloc_fst, Heap.read_alloc_new]
            rfl
          · intro a ha
            unfold GoStd.Mem.NewCFBDecrypter
            rw [s2 a (by rw [lb]; omega), rb a ha]
          · unfold GoStd.Mem.NewCFBDecrypter
            rw [lb] at s3
            omega

/-- A sequence of calls writes no array that was there before it, and each of its calls
returns what the method computes from the secret and the contents that the vector had
before the sequence. -/
theorem calls_spec {α : Type} (deps : Deps α) (c : crypto) (ks : List (CodecCall α)) :
    ∀ (h : Heap), c.size < h.arrays.length → ∀ (hlen : (h.read c.size).length = 16),
      (∀ a, a < h.arrays.length → (c.calls deps h ks).2.read a = h.read a) ∧
      h.arrays.length ≤ (c.calls deps h ks).2.arrays.length ∧
      (c.calls deps h ks).1
        = ks.map (fun k =>
            match k with
            | .encrypt x => (c.value h hlen).encrypt deps x
            | .decrypt m => (c.value h hlen).decrypt deps m) := by
  induction ks with
  | nil => intro h _ _; exact ⟨fun _ _ => rfl, Nat.le_refl _, rfl⟩
  | cons k ks ih =>
      intro h hc hlen
      have hstep : (c.call deps h k).1
            = (match k with
              | .encrypt x => (c.value h hlen).encrypt deps x
              | .decrypt m => (c.value h hlen).decrypt deps m) ∧
          (∀ a, a < h.arrays.length → (c.call deps h k).2.read a = h.read a) ∧
          h.arrays.length ≤ (c.call deps h k).2.arrays.length := by
        cases k with
        | encrypt x => exact encrypt_spec deps c h x hc hlen
        | decrypt m => exact decrypt_spec deps c h m hc hlen
      obtain ⟨e1, e2, e3⟩ := hstep
      have hc2 : c.size < (c.call deps h k).2.arrays.length := by omega
      have hr2 : (c.call deps h k).2.read c.size = h.read c.size := e2 _ hc
      have hlen2 : ((c.call deps h k).2.read c.size).length = 16 := by rw [hr2]; exact hlen
      obtain ⟨i1, i2, i3⟩ := ih (c.call deps h k).2 hc2 hlen2
      have hv : c.value (c.call deps h k).2 hlen2 = c.value h hlen := by
        simp only [crypto.value, hr2]
      refine ⟨?_, ?_, ?_⟩
      · intro a ha
        simp only [crypto.calls]
        rw [i1 a (by omega), e2 a ha]
      · simp only [crypto.calls]
        omega
      · simp only [crypto.calls, List.map_cons, i3, e1, hv]

/-- The codec that `initCrypto` returns refers to a new array of 16 bytes, filled by the
random source; no array that was there before is written. -/
theorem initCrypto_spec (h : Heap) (rand : Fin 16 → UInt8) (secret : String) (c : crypto)
    (hnew : (initCrypto h rand secret).1 = .ok c) :
    c.secret = secret ∧
    c.size < (initCrypto h rand secret).2.arrays.length ∧
    (initCrypto h rand secret).2.read c.size = List.ofFn rand ∧
    ((initCrypto h rand secret).2.read c.size).length = 16 ∧
    (∀ a, a < h.arrays.length → (initCrypto h rand secret).2.read a = h.read a) := by
  unfold initCrypto at hnew ⊢
  have l1 : (h.make 16).2.arrays.length = h.arrays.length + 1 := Heap.length_alloc _ _
  have e1 : (h.make 16).1 = h.arrays.length := rfl
  split at hnew
  · simp at hnew
  · simp only [Except.ok.injEq] at hnew
    subst hnew
    rename_i hsec
    simp only [hsec, if_false, e1]
    have hr : ((h.make 16).2.write h.arrays.length (List.ofFn rand)).read h.arrays.length
        = List.ofFn rand := Heap.read_write_same _ _ _ (by rw [l1]; omega)
    refine ⟨trivial, by rw [Heap.length_write, l1]; omega, hr, by rw [hr]; simp, ?_⟩
    intro a ha
    rw [Heap.read_write_other _ _ _ _ (by omega), Heap.make,
      Heap.read_alloc_old _ _ _ ha]

/-- C25: the initialization vector of a codec is the array that construction made and
filled, and through any sequence of `encrypt` and `decrypt` calls on the codec no byte of
it is written: every write of the two methods goes to an array that the call itself has
made. So every `encrypt` call of the sequence returns what `encrypt` computes from the
secret and the vector as constructed, and two `encrypt` calls of the sequence with the
same value return the same result. -/
theorem C25_iv_fixed {α : Type} (deps : Deps α) (c : crypto) (h : Heap)
    (ks : List (CodecCall α)) (hc : c.size < h.arrays.length)
    (hlen : (h.read c.size).length = 16) :
    (c.calls deps h ks).2.read c.size = h.read c.size ∧
    (∀ a, a < h.arrays.length → (c.calls deps h ks).2.read a = h.read a) ∧
    (∀ (i : Nat) (x : α), ks[i]? = some (CodecCall.encrypt x) →
      (c.calls deps h ks).1[i]? = some ((c.value h hlen).encrypt deps x)) ∧
    (∀ (i j : Nat) (x : α), ks[i]? = some (CodecCall.encrypt x) →
      ks[j]? = some (CodecCall.encrypt x) →
      (c.calls deps h ks).1[i]? = (c.calls deps h ks).1[j]?) := by
  obtain ⟨h1, _, h3⟩ := calls_spec deps c ks h hc hlen
  have hi : ∀ (i : Nat) (x : α), ks[i]? = some (CodecCall.encrypt x) →
      (c.calls deps h ks).1[i]? = some ((c.value h hlen).encrypt deps x) := by
    intro i x hx
    rw [h3]
    simp only [List.getElem?_map, hx, Option.map_some']
  refine ⟨h1 _ hc, h1, hi, ?_⟩
  intro i j x hx hy
  rw [hi i x hx, hi j x hy]

/-- Worked instance of C25: `initCrypto` makes a codec on an empty heap; the text "x" is
encrypted, a ciphertext is decrypted, and the text "x" is encrypted again. The vector
holds after the three calls what the random source put into it, and both `encrypt` calls
return the same text. -/
theorem C25_iv_fixed_witness :
    (initCrypto Heap.empty (fun i => UInt8.ofNat i.val) Demo.secret24).1
      = .ok { secret := Demo.secret24, size := 0 } ∧
    ((crypto.mk Demo.secret24 0).calls Demo.deps
        (initCrypto Heap.empty (fun i => UInt8.ofNat i.val) Demo.secret24).2
        [CodecCall.encrypt (Demo.Value.text "x"), CodecCall.decrypt (bytes "EkgS"),
         CodecCall.encrypt (Demo.Value.text "x")]).2.read 0
      = (initCrypto Heap.empty (fun i => UInt8.ofNat i.val) Demo.secret24).2.read 0 ∧
    ((crypto.mk Demo.secret24 0).calls Demo.deps
        (initCrypto Heap.empty (fun i => UInt8.ofNat i.val) Demo.secret24).2
        [CodecCall.encrypt (Demo.Value.text "x"), CodecCall.decrypt (bytes "EkgS"),
         CodecCall.encrypt (Demo.Value.text "x")]).1[0]?
      = ((crypto.mk Demo.secret24 0).calls Demo.deps
        (initCrypto Heap.empty (fun i => UInt8.ofNat i.val) Demo.secret24).2
        [CodecCall.encrypt (Demo.Value.text "x"), CodecCall.decrypt (bytes "EkgS"),
         CodecCall.encrypt (Demo.Value.text "x")]).1[2]? ∧
    ((crypto.mk Demo.secret24 0).calls Demo.deps
        (initCrypto Heap.empty (fun i => UInt8.ofNat i.val) Demo.secret24).2
        [CodecCall.encrypt (Demo.Value.text "x"), CodecCall.decrypt (bytes "EkgS"),
         CodecCall.encrypt (Demo.Value.text "x")]).1
      = [.ok (bytes "EkgS"), .ok (bytes "\"x\""), .ok (bytes "EkgS")] ∧
    (initCrypto Heap.empty (fun i => UInt8.ofNat i.val) Demo.secret24).2.read 0
      = Demo.iv := by
  have h := C25_iv_fixed Demo.deps (crypto.mk Demo.secret24 0)
    (initCrypto Heap.empty (fun i => UInt8.ofNat i.val) Demo.secret24).2
    [CodecCall.encrypt (Demo.Value.text "x"), CodecCall.decrypt (bytes "EkgS"),
     CodecCall.encrypt (Demo.Value.text "x")] (by decide) (by decide)
  exact ⟨by decide, h.1, h.2.2.2 0 2 (Demo.Value.text "x") rfl rfl, by decide, by decide⟩

end Mem

end gorabbit

namespace goencrypt

open GoStd

/-! ### The length check of `New` -/

/-- C26 on the code: `New` panics on a secret of 16 characters and on a secret of 23
characters, with the message that asks for at least 16 characters; it checks the trimmed
secret against 24. -/
theorem C26_new_sixteen_panics (rand : Fin 16 → UInt8) :
    len "0123456789abcdef" = 16 ∧
    New rand "0123456789abcdef"
      = .error "secret for invt_cryptography must be at least 16 characters long" ∧
    len "0123456789abcdefghijklm" = 23 ∧
    New rand "0123456789abcdefghijklm"
      = .error "secret for invt_cryptography must be at least 16 characters long" ∧
    (∃ k, New rand Demo.secret24 = .ok k) := by
  refine ⟨by decide, rfl, by decide, rfl, ⟨_, rfl⟩⟩

/-! ### The standalone codec and the codec of the broker client -/

/-- C29: a standalone codec and a codec of the broker client that hold the same secret and
the same initialization vector compute the same functions: `Encrypt` and `encrypt` return
the same text or the same error on every value, `Decrypt` and `decrypt` return the same
bytes or the same error on every input, and `DecryptFromBytes` returns on the bytes of a
text what `Decrypt` returns on the text. -/
theorem C29_codecs_agree {α : Type} (deps : gorabbit.Deps α) (k : cryp)
    (c : gorabbit.crypto) (hs : k.secret = c.secret) (hv : k.size = c.size) :
    (∀ x, k.Encrypt deps x = c.encrypt deps x) ∧
    (∀ s, k.Decrypt deps s = c.decrypt deps s) ∧
    (∀ b, k.DecryptFromBytes deps b = k.Decrypt deps b) := by
  refine ⟨?_, ?_, ?_⟩
  · intro x
    simp only [cryp.Encrypt, gorabbit.crypto.encrypt, cryp.toBytes, gorabbit.crypto.toBytes,
      cryp.getBlock, gorabbit.crypto.getBlock, cryp.encode, gorabbit.crypto.encode, hs, hv]
  · intro s
    simp only [cryp.Decrypt, gorabbit.crypto.decrypt, cryp.getBlock,
      gorabbit.crypto.getBlock, cryp.decode, gorabbit.crypto.decode, hs, hv]
  · intro b
    unfold cryp.DecryptFromBytes
    cases k.Decrypt deps b <;> rfl

/-- Worked instance of C29: the two codecs with the 24-byte secret and the vector
0, ..., 15. -/
theorem C29_codecs_agree_witness :
    (∀ x, Demo.cryp24.Encrypt Demo.deps x = Demo.codec24.encrypt Demo.deps x) ∧
    (∀ s, Demo.cryp24.Decrypt Demo.deps s = Demo.codec24.decrypt Demo.deps s) ∧
    (∀ b, Demo.cryp24.DecryptFromBytes Demo.deps b = Demo.cryp24.Decrypt Demo.deps b) :=
  C29_codecs_agree Demo.deps Demo.cryp24 Demo.codec24 rfl rfl

end goencrypt

namespace gorabbit

open GoStd

/-! ### Decryption under another initialization vector -/

/-- The output for an input in two parts: the second part is processed from the state that
the first part leaves. -/
theorem XORKeyStream_append (a rest : List UInt8) :
    ∀ x : cfb, XORKeyStream x (a ++ rest)
      = XORKeyStream x a ++ XORKeyStream (streamAfter x a) rest := by
  induction a with
  | nil => intro x; rfl
  | cons s a ih =>
      intro x
      simp only [List.cons_append, XORKeyStream, streamAfter, List.cons.injEq, true_and]
      exact ih _

theorem take_set_succ (l : List UInt8) (u : Nat) (s : UInt8) (h : u < l.length) :
    (l.set u s).take (u + 1) = l.take u ++ [s] := by
  induction l generalizing u with
  | nil => simp at h
  | cons a l ih =>
      cases u with
      | zero => simp
      | succ u =>
          simp only [List.length_cons, Nat.add_lt_add_iff_right] at h
          simp [ih u h]

/-- A decrypting stream inside a block: the input bytes fill `next` from the current
offset, and nothing else changes until the block is full. -/
theorem streamAfter_fill (blk : Block) (a : List UInt8) :
    ∀ (next out : List UInt8) (u : Nat), next.length = 16 → u + a.length = 16 →
      streamAfter { b := blk, next := next, out := out, outUsed := u, decrypt := true } a
        = { b := blk, next := next.take u ++ a, out := out, outUsed := 16,
            decrypt := true } := by
  induction a with
  | nil =>
      intro next out u hn hu
      simp only [List.length_nil, Nat.add_zero] at hu
      subst hu
      simp [streamAfter, ← hn]
  | cons s a ih =>
      intro next out u hn hu
      simp only [List.length_cons] at hu
      have hu16 : ¬ u = BlockSize := by unfold BlockSize; omega
      simp only [streamAfter, hu16, if_false, if_true]
      rw [ih _ _ (u + 1) (by simp [hn]) (by omega), take_set_succ next u s (by omega)]
      simp

/-- After one full block of input a decrypting stream holds that block as `next`, whatever
its initialization vector was. -/
theorem streamAfter_block (blk : Block) (iv a : List UInt8) (hiv : iv.length = 16)
    (ha : a.length = 16) :
    streamAfter (NewCFBDecrypter blk iv) a
      = { b := blk, next := a, out := blk iv, outUsed := 16, decrypt := true } := by
  cases a with
  | nil => simp at ha
  | cons s a =>
      simp only [List.length_cons] at ha
      simp only [NewCFBDecrypter, streamAfter, if_true]
      rw [streamAfter_fill blk a _ _ 1 (by simp [hiv]) (by omega)]
      have : (iv.set 0 s).take 1 = [s] := by
        cases iv with
        | nil => simp at hiv
        | cons i iv => simp
      simp [this]

/-- At the start of a block the old key-stream block is not used. -/
theorem XORKeyStream_out (blk : Block) (next out1 out2 src : List UInt8) (d : Bool) :
    XORKeyStream
        { b := blk, next := next, out := out1, outUsed := BlockSize, decrypt := d } src
      = XORKeyStream
        { b := blk, next := next, out := out2, outUsed := BlockSize, decrypt := d } src := by
  cases src with
  | nil => rfl
  | cons s src => simp only [XORKeyStream, if_true]

/-- From the second block on, the decryption of a ciphertext does not depend on the
initialization vector. -/
theorem XORKeyStream_drop_block (blk : Block) (iv1 iv2 ct : List UInt8)
    (h1 : iv1.length = 16) (h2 : iv2.length = 16) :
    (XORKeyStream (NewCFBDecrypter blk iv1) ct).drop 16
      = (XORKeyStream (NewCFBDecrypter blk iv2) ct).drop 16 := by
  by_cases hlen : ct.length < 16
  · rw [List.drop_of_length_le (by rw [XORKeyStream_length]; omega),
      List.drop_of_length_le (by rw [XORKeyStream_length]; omega)]
  · have hsplit : ct = ct.take 16 ++ ct.drop 16 := (List.take_append_drop 16 ct).symm
    have htake : (ct.take 16).length = 16 := by simp; omega
    rw [hsplit, XORKeyStream_append, XORKeyStream_append,
      List.drop_left' (by rw [XORKeyStream_length, htake]),
      List.drop_left' (by rw [XORKeyStream_length, htake]),
      streamAfter_block blk iv1 _ h1 htake, streamAfter_block blk iv2 _ h2 htake]
    exact XORKeyStream_out blk _ _ _ _ true

/-- C28: two codecs hold the same secret, a valid cipher key, and any initialization
vectors. When the first encrypts a value that serializes, the second decrypts the result
without error, to as many bytes as the serialization has, and from offset 16 on these
bytes are those of the serialization. -/
theorem C28_cross_iv {α : Type} (deps : Deps α) (c1 c2 : crypto) (x : α) (b : List UInt8)
    (hs : c1.secret = c2.secret) (hkey : validKey c1.secret)
    (hb : c1.toBytes deps x = .ok b) :
    ∃ ct plain, c1.encrypt deps x = .ok ct ∧ c2.decrypt deps ct = .ok plain ∧
      plain.length = b.length ∧ plain.drop 16 = b.drop 16 := by
  have hk1 := getBlock_of_validKey deps c1 hkey
  have hk2 := getBlock_of_validKey deps c2 (hs ▸ hkey)
  rw [← hs] at hk2
  refine ⟨c1.encode (XORKeyStream (NewCFBEncrypter (deps.aesEncrypt (bytes c1.secret))
      c1.size) b),
    XORKeyStream (NewCFBDecrypter (deps.aesEncrypt (bytes c1.secret)) c2.size)
      (XORKeyStream (NewCFBEncrypter (deps.aesEncrypt (bytes c1.secret)) c1.size) b),
    ?_, ?_, ?_, ?_⟩
  · unfold crypto.encrypt
    rw [hb, hk1]
  · unfold crypto.decrypt
    rw [hk2]
    simp only [crypto.decode, crypto.encode, DecodeString_EncodeToString]
  · rw [XORKeyStream_length, XORKeyStream_length]
  · rw [XORKeyStream_drop_block _ c2.size c1.size _ c2.size_len c1.size_len, cfb_roundtrip]

/-- Worked instance of C28: the text "x" is encrypted under the vector 0, ..., 15 and
decrypted under the vector 16, ..., 31; the three bytes that come out are not the
serialization. -/
theorem C28_cross_iv_witness :
    (∃ ct plain, Demo.codec24.encrypt Demo.deps (Demo.Value.text "x") = .ok ct ∧
      Demo.codec24b.decrypt Demo.deps ct = .ok plain ∧
      plain.length = (bytes "\"x\"").length ∧ plain.drop 16 = (bytes "\"x\"").drop 16) ∧
    Demo.codec24b.decrypt Demo.deps (bytes "EkgS") ≠ .ok (bytes "\"x\"") :=
  ⟨C28_cross_iv Demo.deps Demo.codec24 Demo.codec24b (Demo.Value.text "x") (bytes "\"x\"")
    rfl (by decide) rfl, by decide⟩

end gorabbit

namespace GoStd

/-! ### float64 division of integers below `2^53` -/

theorem upShift_spec (fuel : Nat) : ∀ num den : Nat,
    den * 2 ^ 52 ≤ num * 2 ^ fuel → den * 2 ^ 52 ≤ num * 2 ^ upShift fuel num den := by
  induction fuel with
  | zero => intro num den h; simpa [upShift] using h
  | succ k ih =>
      intro num den h
      unfold upShift
      split
      · simpa using ‹den * 2 ^ 52 ≤ num›
      · have e : num * 2 ^ (k + 1) = 2 * num * 2 ^ k := by ring
        have e2 : num * 2 ^ (upShift k (2 * num) den + 1)
            = 2 * num * 2 ^ upShift k (2 * num) den := by ring
        rw [e] at h
        rw [e2]
        exact ih (2 * num) den h

theorem downShift_zero (fuel num den : Nat) (h : num < den * 2 ^ 53) :
    downShift fuel num den = 0 := by
  cases fuel with
  | zero => rfl
  | succ k => unfold downShift; rw [if_pos h]

theorem roundHalfEven_one (n : Nat) : roundHalfEven n 1 = n := by
  simp [roundHalfEven, Nat.mod_one]

theorem roundHalfEven_ge_div (num den : Nat) : num / den ≤ roundHalfEven num den := by
  unfold roundHalfEven
  simp only
  split
  · exact Nat.le_refl _
  · split
    · split
      · exact Nat.le_refl _
      · exact Nat.le_succ _
    · exact Nat.le_succ _

theorem roundHalfEven_le_succ (num den : Nat) : roundHalfEven num den ≤ num / den + 1 := by
  unfold roundHalfEven
  simp only
  split
  · exact Nat.le_succ _
  · split
    · split
      · exact Nat.le_succ _
      · exact Nat.le_refl _
    · exact Nat.le_refl _

/-- Rounding does not pass an integer that bounds the quotient from above. -/
theorem roundHalfEven_le (num den k : Nat) (hden : 0 < den) (h : num ≤ k * den) :
    roundHalfEven num den ≤ k := by
  by_cases hr : num % den = 0
  · have hq : num / den ≤ k := by
      apply Nat.div_le_of_le_mul
      rw [Nat.mul_comm]; exact h
    unfold roundHalfEven
    simp only [hr, Nat.mul_zero, hden, if_true]
    exact hq
  · have hq : num / den < k := by
      rw [Nat.div_lt_iff_lt_mul hden]
      have := Nat.div_add_mod num den
      have hpos : 0 < num % den := Nat.pos_of_ne_zero hr
      by_contra hcon
      have hle : k * den ≤ num := Nat.le_of_not_lt hcon
      have heq : num = k * den := Nat.le_antisymm h hle
      rw [heq] at hr
      simp at hr
    have := roundHalfEven_le_succ num den
    omega

/-- Rounding passes the next integer when the quotient exceeds an integer by more than a
half. -/
theorem roundHalfEven_ge (num den k c : Nat) (hden : 0 < den) (h : k * den + c ≤ num)
    (hc : den < 2 * c) : k + 1 ≤ roundHalfEven num den := by
  have hk : k ≤ num / den := by
    rw [Nat.le_div_iff_mul_le hden]
    omega
  by_cases hq : k + 1 ≤ num / den
  · exact Nat.le_trans hq (roundHalfEven_ge_div num den)
  · have hqk : num / den = k := by omega
    have hdm := Nat.div_add_mod num den
    rw [hqk] at hdm
    have hr : c ≤ num % den := by
      have : den * k = k * den := Nat.mul_comm _ _
      omega
    unfold roundHalfEven
    simp only [hqk]
    have h1 : ¬ 2 * (num % den) < den := by omega
    have h2 : ¬ 2 * (num % den) = den := by omega
    simp [h1, h2]

/-- The float64 quotient of two positive integers below `2^53`, rounded up by
`math.Ceil` and converted to `int`, is the ceiling of the exact quotient. -/
theorem ceil_div_exact (impl : Int) (a b : Nat) (ha : 0 < a) (ha53 : a < 2 ^ 53)
    (hb : 0 < b) (hb53 : b < 2 ^ 53) :
    Float64.toInt impl
        (Float64.Ceil (Float64.div (Float64.ofInt (a : Int)) (Float64.ofInt (b : Int))))
      = (((a + b - 1) / b : Nat) : Int) := by
  have hofa : Float64.ofInt (a : Int) = Float64.finite false a 0 := by
    unfold Float64.ofInt
    have hd : downShift 64 a 1 = 0 := downShift_zero 64 a 1 (by omega)
    simp only [Int.natAbs_ofNat, hd, pow_zero, roundHalfEven_one, Nat.mul_one]
    simp
  have hofb : Float64.ofInt (b : Int) = Float64.finite false b 0 := by
    unfold Float64.ofInt
    have hd : downShift 64 b 1 = 0 := downShift_zero 64 b 1 (by omega)
    simp only [Int.natAbs_ofNat, hd, pow_zero, roundHalfEven_one, Nat.mul_one]
    simp
  have hb0 : b ≠ 0 := by omega
  have ha0 : a ≠ 0 := by omega
  have hdown : downShift 1200 a b = 0 := by
    apply downShift_zero
    calc a < 2 ^ 53 := ha53
      _ ≤ b * 2 ^ 53 := Nat.le_mul_of_pos_left _ hb
  have hup : b * 2 ^ 52 ≤ a * 2 ^ upShift 1200 a b := by
    apply upShift_spec
    calc b * 2 ^ 52 ≤ 2 ^ 53 * 2 ^ 52 := Nat.mul_le_mul_right _ (Nat.le_of_lt hb53)
      _ ≤ 1 * 2 ^ 1200 := by norm_num
      _ ≤ a * 2 ^ 1200 := Nat.mul_le_mul_right _ ha
  rw [hofa, hofb]
  have hbne : (false != false) = false := rfl
  simp only [Float64.div, hb0, ha0, if_false, pow_zero, Nat.mul_one, roundQuotient, hdown,
    hbne, Float64.Ceil, Float64.toInt, Nat.div_one, Bool.false_eq_true]
  generalize hs : upShift 1200 a b = s at hup
  generalize hP : 2 ^ s = P at hup
  have hPpos : 0 < P := by rw [← hP]; positivity
  -- the ceiling of the exact quotient
  obtain ⟨n, hn⟩ : ∃ n, (a + b - 1) / b = n + 1 := by
    have : 1 ≤ (a + b - 1) / b := by
      rw [Nat.le_div_iff_mul_le hb]; omega
    exact ⟨(a + b - 1) / b - 1, by omega⟩
  have hlo : n * b < a := by
    have h1 : (a + b - 1) / b * b ≤ a + b - 1 := Nat.div_mul_le_self _ _
    rw [hn] at h1
    have : (n + 1) * b = n * b + b := Nat.succ_mul n b
    omega
  have hhi : a ≤ (n + 1) * b := by
    have h1 : a + b - 1 < ((a + b - 1) / b + 1) * b := by
      rw [Nat.mul_comm]; exact Nat.lt_mul_div_succ _ hb
    rw [hn] at h1
    have : (n + 1 + 1) * b = (n + 1) * b + b := Nat.succ_mul (n + 1) b
    omega
  -- the significand lies between the two integers
  have hbP : b < 2 * P := by
    have : a * P < 2 ^ 53 * P := Nat.mul_lt_mul_of_pos_right ha53 hPpos
    have h2 : b * 2 ^ 52 < 2 ^ 53 * P := Nat.lt_of_le_of_lt hup this
    have h3 : (2 : Nat) ^ 53 * P = (2 * P) * 2 ^ 52 := by ring
    rw [h3] at h2
    exact Nat.lt_of_mul_lt_mul_right h2
  have hmhi : roundHalfEven (a * P) b ≤ (n + 1) * P := by
    apply roundHalfEven_le _ _ _ hb
    calc a * P ≤ (n + 1) * b * P := Nat.mul_le_mul_right _ hhi
      _ = (n + 1) * P * b := by ring
  have hmlo : n * P + 1 ≤ roundHalfEven (a * P) b := by
    apply roundHalfEven_ge _ _ _ P hb _ hbP
    calc n * P * b + P = (n * b + 1) * P := by ring
      _ ≤ a * P := Nat.mul_le_mul_right _ hlo
  generalize roundHalfEven (a * P) b = m at hmhi hmlo
  have hceil : (m + P - 1) / P = n + 1 := by
    apply Nat.div_eq_of_lt_le
    · have : (n + 1) * P = n * P + P := Nat.succ_mul n P
      omega
    · have h1 : (n + 1) * P = n * P + P := Nat.succ_mul n P
      have h2 : (n + 1 + 1) * P = (n + 1) * P + P := Nat.succ_mul (n + 1) P
      omega
  have hbound : n + 1 < 2 ^ 53 := by
    have : n + 1 ≤ a := by
      calc n + 1 ≤ n * b + 1 := by
            have : n ≤ n * b := Nat.le_mul_of_pos_right n hb
            omega
        _ ≤ a := hlo
    omega
  simp only [hceil, hn]
  have h1 : -(2 : Int) ^ 63 ≤ ((n + 1 : Nat) : Int) := by
    have : (0 : Int) ≤ ((n + 1 : Nat) : Int) := Int.ofNat_nonneg _
    have : -(2 : Int) ^ 63 ≤ 0 := by norm_num
    omega
  have h2 : ((n + 1 : Nat) : Int) < (2 : Int) ^ 63 := by
    have : ((n + 1 : Nat) : Int) < ((2 ^ 53 : Nat) : Int) := Int.ofNat_lt.mpr hbound
    have h3 : ((2 ^ 53 : Nat) : Int) < (2 : Int) ^ 63 := by norm_num
    omega
  rw [if_pos ⟨h1, h2⟩]

end GoStd

namespace goresponse

open GoStd

/-! ### The number of pages -/

/-- C30: for a total and a page size that are positive and below `2^53`, `CreateMeta`
returns as `TotalPage` the ceiling of total / perPage: the least integer `n` with
`n * perPage ≥ total`. For a total that is not positive it returns `TotalPage = 1`. In
every case `Page`, `PerPage` and `Total` are the arguments. -/
theorem C30_total_page (r : res) (impl page perPage total : Int) :
    (0 < total → total < 2 ^ 53 → 0 < perPage → perPage < 2 ^ 53 →
      total ≤ (r.CreateMeta impl page perPage total).TotalPage * perPage ∧
      (∀ n : Int, total ≤ n * perPage →
        (r.CreateMeta impl page perPage total).TotalPage ≤ n) ∧
      (r.CreateMeta impl page perPage total).TotalPage = (total + perPage - 1) / perPage) ∧
    (total ≤ 0 → (r.CreateMeta impl page perPage total).TotalPage = 1) ∧
    (r.CreateMeta impl page perPage total).Page = page ∧
    (r.CreateMeta impl page perPage total).PerPage = perPage ∧
    (r.CreateMeta impl page perPage total).Total = total := by
  refine ⟨?_, ?_, rfl, rfl, rfl⟩
  · intro ht ht53 hp hp53
    lift total to Nat using le_of_lt ht with a
    lift perPage to Nat using le_of_lt hp with b
    have ha : 0 < a := by exact_mod_cast ht
    have hb : 0 < b := by exact_mod_cast hp
    have ha53 : a < 2 ^ 53 := by exact_mod_cast ht53
    have hb53 : b < 2 ^ 53 := by exact_mod_cast hp53
    have hval : (r.CreateMeta impl page (b : Int) (a : Int)).TotalPage
        = (((a + b - 1) / b : Nat) : Int) := by
      unfold res.CreateMeta buildMeta
      simp only [ht, if_true]
      exact ceil_div_exact impl a b ha ha53 hb hb53
    rw [hval]
    have hup : a ≤ (a + b - 1) / b * b := by
      have h1 : a + b - 1 < ((a + b - 1) / b + 1) * b := by
        rw [Nat.mul_comm]; exact Nat.lt_mul_div_succ _ hb
      have h2 : ((a + b - 1) / b + 1) * b = (a + b - 1) / b * b + b := Nat.succ_mul _ _
      omega
    refine ⟨by exact_mod_cast hup, ?_, ?_⟩
    · intro n hn
      have hn1 : 0 < n := by
        by_contra hcon
        have hn0 : n ≤ 0 := not_lt.mp hcon
        have : n * (b : Int) ≤ 0 := mul_nonpos_of_nonpos_of_nonneg hn0 (by positivity)
        have ha' : (0 : Int) < (a : Int) := by exact_mod_cast ha
        omega
      lift n to Nat using le_of_lt hn1 with k
      have hk : a ≤ k * b := by exact_mod_cast hn
      have : (a + b - 1) / b ≤ k := by
        have h3 : (a + b - 1) / b < k + 1 := by
          rw [Nat.div_lt_iff_lt_mul hb]
          have : (k + 1) * b = k * b + b := Nat.succ_mul _ _
          omega
        omega
      exact_mod_cast this
    · have h1 : ((a + b - 1 : Nat) : Int) = (a : Int) + (b : Int) - 1 := by
        have : 1 ≤ a + b := by omega
        push_cast [Nat.cast_sub this]
        ring
      rw [Int.natCast_div, h1]
  · intro ht
    unfold res.CreateMeta buildMeta
    have : ¬ total > 0 := not_lt.mpr ht
    simp only [this, if_false]

/-- Worked instance of C30: 101 entries in pages of 10 make 11 pages. -/
theorem C30_total_page_witness :
    ((res.mk).CreateMeta 0 3 10 101).TotalPage = 11 ∧
    101 ≤ ((res.mk).CreateMeta 0 3 10 101).TotalPage * 10 ∧
    (∀ n : Int, 101 ≤ n * 10 → ((res.mk).CreateMeta 0 3 10 101).TotalPage ≤ n) ∧
    ((res.mk).CreateMeta 0 3 10 101).TotalPage = (101 + 10 - 1) / 10 :=
  ⟨by decide,
    (C30_total_page res.mk 0 3 10 101).1 (by decide) (by decide) (by decide) (by decide)⟩

end goresponse
